import Mathlib

/-!
Shallow embedding of the tile residency engine of the SamplerFeedbackStreaming
repository (TileUpdateManager/StreamingResource.cpp and StreamingResource.h),
together with theorems settling the frozen claims about it.

Conventions:
  * `UINT`/`UINT8`/`UINT32` values are modelled as `Nat`; places where 32-bit
    wrap-around matters are treated explicitly (see the `Checked` variants,
    which model the source's ASSERT macros).
  * the 3-D grids of `TileMappingState` (`m_resident`, `m_refcounts`,
    `m_heapIndices`, each indexed `[s][y][x]` in the source) are modelled as
    total functions `Nat → Nat → Nat → _` applied as `x y s`, with the
    per-mip extents kept in `width`/`height`;
  * `std::vector` queues are Lean lists, `push_back` is append at the end.
-/

namespace SFS

/-- D3D12_TILED_RESOURCE_COORDINATE (X, Y, Subresource); Z is always 0 in the source. -/
structure Coord where
  x : Nat
  y : Nat
  s : Nat
deriving DecidableEq, Repr

/-- TileMappingState::Residency tags (StreamingResource.h). -/
inductive Residency where
  | NotResident
  | Resident
  | Evicting
  | Loading
deriving DecidableEq, Repr

/-- Streaming::HeapAllocator::InvalidIndex (0xFFFFFFFF). -/
def InvalidIndex : Nat := 4294967295

/-- Point update of a curried 3-argument function, used for single-cell writes
to the `[s][y][x]` grids. -/
def upd3 {α : Type} (f : Nat → Nat → Nat → α) (x y s : Nat) (v : α) :
    Nat → Nat → Nat → α :=
  fun x' y' s' => if x' = x ∧ y' = y ∧ s' = s then v else f x' y' s'

/-- Point update of a curried 2-argument function (for `m_tileReferences`). -/
def upd2 {α : Type} (f : Nat → Nat → α) (x y : Nat) (v : α) : Nat → Nat → α :=
  fun x' y' => if x' = x ∧ y' = y then v else f x' y'

/-- TileMappingState (StreamingResource.h): per-mip 2-D grids of residency
tag, refcount and heap index.  `numSubresources` is `m_refcounts.size()`
(the number of standard, streamable mips M); `width s`/`height s` are the
per-mip tile extents from the tiling info. -/
structure TileMappingState where
  numSubresources : Nat
  width : Nat → Nat
  height : Nat → Nat
  resident : Nat → Nat → Nat → Residency
  refcounts : Nat → Nat → Nat → Nat
  heapIndices : Nat → Nat → Nat → Nat

namespace TileMappingState

/-- GetRefCount(x, y, s). -/
def GetRefCount (t : TileMappingState) (x y s : Nat) : Nat := t.refcounts x y s

/-- GetRefCount(coord). -/
def GetRefCountC (t : TileMappingState) (c : Coord) : Nat := t.refcounts c.x c.y c.s

/-- write through the mutable reference returned by GetRefCount. -/
def SetRefCount (t : TileMappingState) (x y s v : Nat) : TileMappingState :=
  { t with refcounts := upd3 t.refcounts x y s v }

/-- GetResidency(coord) — the raw residency byte. -/
def GetResidency (t : TileMappingState) (c : Coord) : Residency := t.resident c.x c.y c.s

/-- bool GetResident(x, y, s) { return (Residency::Resident == m_resident[s][y][x]); } -/
def GetResident (t : TileMappingState) (x y s : Nat) : Bool :=
  t.resident x y s == Residency.Resident

/-- SetResident(coord) — called by the DataUploader notification path. -/
def SetResident (t : TileMappingState) (c : Coord) : TileMappingState :=
  { t with resident := upd3 t.resident c.x c.y c.s Residency.Resident }

/-- SetNotResident(coord) — called by the DataUploader notification path. -/
def SetNotResident (t : TileMappingState) (c : Coord) : TileMappingState :=
  { t with resident := upd3 t.resident c.x c.y c.s Residency.NotResident }

/-- SetLoading(coord). -/
def SetLoading (t : TileMappingState) (c : Coord) : TileMappingState :=
  { t with resident := upd3 t.resident c.x c.y c.s Residency.Loading }

/-- SetEvicting(coord). -/
def SetEvicting (t : TileMappingState) (c : Coord) : TileMappingState :=
  { t with resident := upd3 t.resident c.x c.y c.s Residency.Evicting }

/-- GetHeapIndex(coord). -/
def GetHeapIndex (t : TileMappingState) (c : Coord) : Nat := t.heapIndices c.x c.y c.s

/-- write through the mutable reference returned by GetHeapIndex. -/
def SetHeapIndex (t : TileMappingState) (c : Coord) (v : Nat) : TileMappingState :=
  { t with heapIndices := upd3 t.heapIndices c.x c.y c.s v }

/-- GetAnyRefCount(): scan the bottom (coarsest tracked) mip layer
`m_refcounts.back()`; true if any refcount there is nonzero. -/
def GetAnyRefCount (t : TileMappingState) : Bool :=
  (List.range (t.height (t.numSubresources - 1))).any fun y =>
    (List.range (t.width (t.numSubresources - 1))).any fun x =>
      t.refcounts x y (t.numSubresources - 1) != 0

/-- GetMinResidentMip(): walks `m_resident.back()` (mip M−1 only); returns
M on the first tile that is not Resident, else M−1. -/
def GetMinResidentMip (t : TileMappingState) : Nat :=
  let minResidentMip := t.numSubresources
  if (List.range (t.height (t.numSubresources - 1))).all (fun y =>
      (List.range (t.width (t.numSubresources - 1))).all fun x =>
        t.GetResident x y (t.numSubresources - 1)) then
    minResidentMip - 1
  else
    minResidentMip

end TileMappingState

/-- Modelled from the spec: the HeapAllocator (§4.1) is not under src/; the
spec describes a fixed pool of page indices with O(1) `allocate`, returning a
free index or `INVALID` when exhausted, and `free(i)` returning it, with
`num_free()` observable.  Modelled as a freelist of page indices. -/
structure HeapAllocator where
  freelist : List Nat
deriving DecidableEq, Repr

namespace HeapAllocator

/-- Modelled from the spec: `allocate()` returns a free index or `INVALID`
when exhausted (§4.1). -/
def Allocate : HeapAllocator → Nat × HeapAllocator
  | ⟨[]⟩ => (InvalidIndex, ⟨[]⟩)
  | ⟨i :: rest⟩ => (i, ⟨rest⟩)

/-- Modelled from the spec: `free(i)` returns the page to the pool (§4.1). -/
def Free (h : HeapAllocator) (i : Nat) : HeapAllocator := ⟨i :: h.freelist⟩

/-- Modelled from the spec: `num_free()` (§4.1). -/
def GetNumFree (h : HeapAllocator) : Nat := h.freelist.length

end HeapAllocator

/-- Streaming::UpdateList — only the members the claims touch: `m_coords`
(load coordinates) with their parallel `m_heapIndices`, and `m_evictCoords`. -/
structure UpdateList where
  coords : List Coord
  heapIndices : List Nat
  evictCoords : List Coord
deriving DecidableEq, Repr

/-- UpdateList::AddUpdate(coord, heapIndex): record one load. -/
def UpdateList.AddUpdate (ul : UpdateList) (c : Coord) (heapIndex : Nat) : UpdateList :=
  { ul with coords := ul.coords ++ [c], heapIndices := ul.heapIndices ++ [heapIndex] }

/-- a freshly allocated (Reset) UpdateList. -/
def UpdateList.empty : UpdateList := ⟨[], [], []⟩

/-- StreamingResourceBase::EvictionDelay — `m_mappings`, a vector of
per-frame buckets; index 0 receives new coords (`Append`), the back bucket is
`GetReadyToEvict()`. -/
structure EvictionDelay where
  mappings : List (List Coord)
deriving DecidableEq, Repr

namespace EvictionDelay

/-- Append(coord): m_mappings[0].push_back(coord). -/
def Append (e : EvictionDelay) (c : Coord) : EvictionDelay :=
  match e.mappings with
  | [] => ⟨[]⟩
  | b :: rest => ⟨(b ++ [c]) :: rest⟩

/-- GetReadyToEvict(): m_mappings.back(). -/
def GetReadyToEvict (e : EvictionDelay) : List Coord := e.mappings.getLastD []

/-- replace the contents of m_mappings.back() (the callers of
GetReadyToEvict() mutate the back bucket in place). -/
def SetReadyToEvict (e : EvictionDelay) (b : List Coord) : EvictionDelay :=
  match e.mappings with
  | [] => ⟨[]⟩
  | _ :: _ => ⟨e.mappings.dropLast ++ [b]⟩

/-- Clear(): clear every bucket. -/
def Clear (e : EvictionDelay) : EvictionDelay :=
  ⟨e.mappings.map fun _ => []⟩

/-- NextFrame(): the swap loop (`for i = last downto 1, swap m[i] m[i-1]`)
rotates the back bucket to the front; then the old front (now at index 0) is
appended to the new back bucket and bucket 0 is cleared. -/
def NextFrame (e : EvictionDelay) : EvictionDelay :=
  let rotated :=
    match e.mappings.getLast? with
    | none => []
    | some b => b :: e.mappings.dropLast
  match rotated with
  | [] => ⟨[]⟩
  | [_] => ⟨[[]]⟩
  | b0 :: rest => ⟨[] :: (rest.dropLast ++ [rest.getLastD [] ++ b0])⟩

end EvictionDelay

/-- net effect of one NextFrame on the bucket list, dropping the cleared new
bucket 0: bucket i keeps its contents one slot later, and the two oldest
buckets are merged.  Used to reason about `NextFrame` by structural recursion. -/
def shiftBuckets : List (List Coord) → List (List Coord)
  | [] => []
  | [b] => [b]
  | [b, c] => [b ++ c]
  | b :: c :: d :: rest => b :: shiftBuckets (c :: d :: rest)

/-- iterate NextFrame n times. -/
def nextFrames (e : EvictionDelay) : Nat → EvictionDelay
  | 0 => e
  | n + 1 => nextFrames e.NextFrame n

/-- `m_queuedFeedback` entry: (m_feedbackQueued, m_renderFenceForFeedback). -/
def QueuedFeedback := Bool × Nat

/-- the per-resource state of StreamingResourceBase that the claims touch.
`maxMip` is not stored separately: the constructor sets
`m_maxMip = m_tileMappingState.GetNumSubresources()`, so `tms.numSubresources`
is used wherever the source reads `m_maxMip`.  `tileReferencesWidth` and
`tileReferencesHeight` are the finest-mip region grid extents
(`GetNumTilesWidth()`/`GetNumTilesHeight()`); `minMipMap` is the local
min-mip-map, indexed here by (x, y) rather than by the row-major linear
index the source uses. -/
structure ResourceState where
  tms : TileMappingState
  pendingTileLoads : List Coord
  pendingEvictions : EvictionDelay
  tileReferences : Nat → Nat → Nat
  tileReferencesWidth : Nat
  tileReferencesHeight : Nat
  queuedFeedback : List (Bool × Nat)
  setZeroRefCounts : Bool
  refCountsZero : Bool
  tileResidencyChanged : Bool
  minMipMap : Nat → Nat → Nat

namespace ResourceState

/-- StreamingResourceBase::AddTileRef(x, y, s): if the refcount is 0, queue a
pending load; then increment the refcount. -/
def AddTileRef (st : ResourceState) (x y s : Nat) : ResourceState :=
  let refCount := st.tms.GetRefCount x y s
  let st :=
    if refCount = 0 then
      { st with pendingTileLoads := st.pendingTileLoads ++ [⟨x, y, s⟩] }
    else st
  { st with tms := st.tms.SetRefCount x y s (refCount + 1) }

/-- StreamingResourceBase::DecTileRef(x, y, s): if this is the last
reference, append the coord to the eviction-delay ring (bucket 0); then
decrement the refcount. -/
def DecTileRef (st : ResourceState) (x y s : Nat) : ResourceState :=
  let refCount := st.tms.GetRefCount x y s
  let st :=
    if refCount = 1 then
      { st with pendingEvictions := st.pendingEvictions.Append ⟨x, y, s⟩ }
    else st
  { st with tms := st.tms.SetRefCount x y s (refCount - 1) }

/-- the first while-loop of SetMinMip: `while (s > in_s) { s -= 1;
AddTileRef(x >> s, y >> s, s); }` — AddTileRef at levels c−1 down to d. -/
def addRefLoop (x y d : Nat) (st : ResourceState) : Nat → ResourceState
  | 0 => st
  | s + 1 =>
    if d ≤ s then addRefLoop x y d (st.AddTileRef (x >>> s) (y >>> s) s) s
    else st

/-- the second while-loop of SetMinMip: `while (s < in_s) {
DecTileRef(x >> s, y >> s, s); s++; }` — DecTileRef at levels s up to d−1,
written structurally on the iteration count d − s. -/
def decRefLoop (x y : Nat) (st : ResourceState) (s : Nat) : Nat → ResourceState
  | 0 => st
  | n + 1 => decRefLoop x y (st.DecTileRef (x >>> s) (y >>> s) s) (s + 1) n

/-- StreamingResourceBase::SetMinMip(current, x, y, desired): run the add
loop down from `current`, then the dec loop up from where it stopped
(`min current desired`) to `desired`. -/
def SetMinMip (st : ResourceState) (current x y desired : Nat) : ResourceState :=
  decRefLoop x y (addRefLoop x y desired st current) (min current desired)
    (desired - min current desired)

end ResourceState

/-- the loop of StreamingResourceBase::AbandonPending.  The C++ scans
m_pendingTileLoads with index i against a shrinking bound numPending,
keeping coords with nonzero refcount and swap-removing the rest by copying
in the element at the new numPending.  Equivalently, scanning the window of
not-yet-examined coords [i, numPending): keep the head, or replace it by the
window's last element.  The kept prefix is rebuilt with `::`. -/
def abandonLoop (rc : Coord → Nat) : Nat → List Coord → List Coord
  | 0, _ => []
  | _, [] => []
  | fuel + 1, c :: ws =>
    if rc c ≠ 0 then c :: abandonLoop rc fuel ws
    else
      match ws.getLast? with
      | none => []
      | some w => abandonLoop rc fuel (w :: ws.dropLast)

/-- StreamingResourceBase::AbandonPending().  The fuel of the loop is the
window length, which decreases by one per iteration exactly as
`numPending − i` does in the source. -/
def ResourceState.AbandonPending (st : ResourceState) : ResourceState :=
  { st with pendingTileLoads :=
      abandonLoop st.tms.GetRefCountC st.pendingTileLoads.length st.pendingTileLoads }

/-- rotate a list left by one (head to the back). -/
def rotl {α : Type} : List α → List α
  | [] => []
  | a :: rest => rest ++ [a]

/-- the per-bucket loop of EvictionDelay::Rescue.  The C++ walks the bucket
with a range-for; a coord with refcount > 0 is dropped by overwriting its
slot with the element at skippedIndex (and bumping skippedIndex), and the
first skippedIndex slots are erased afterwards.  The surviving segment
[skippedIndex, i) behaves as an accumulator `survivors` that rotates left
when a coord is dropped (the element at skippedIndex moves into the
current slot) and grows by the kept coord otherwise; at the end the bucket
is exactly the survivors. -/
def rescueLoop (rc : Coord → Nat) (survivors : List Coord) : List Coord → List Coord
  | [] => survivors
  | c :: rest =>
    if rc c ≠ 0 then rescueLoop rc (rotl survivors) rest
    else rescueLoop rc (survivors ++ [c]) rest

/-- EvictionDelay::Rescue(tileMappingState): drop, from every bucket, the
coords whose refcount is now positive. -/
def EvictionDelay.Rescue (e : EvictionDelay) (t : TileMappingState) : EvictionDelay :=
  ⟨e.mappings.map fun b => rescueLoop t.GetRefCountC [] b⟩

/-- the feedback-selection loop of ProcessFeedback: scan m_queuedFeedback
(current slot index i); a slot that is queued, whose fence has completed,
and whose fence is at least the best so far, becomes the new selection and
its queued flag is cleared.  Returns (feedbackIndex, latestFence, flags')
with feedbackIndex = slot + 1, or 0 if nothing was selected. -/
def pickFeedbackGo (frameFence : Nat) (i fbIndex latest : Nat) :
    List (Bool × Nat) → Nat × Nat × List (Bool × Nat)
  | [] => (fbIndex, latest, [])
  | f :: rest =>
    if f.1 ∧ f.2 ≤ frameFence ∧ (fbIndex = 0 ∨ latest ≤ f.2) then
      let r := pickFeedbackGo frameFence (i + 1) (i + 1) f.2 rest
      (r.1, r.2.1, (false, f.2) :: r.2.2)
    else
      let r := pickFeedbackGo frameFence (i + 1) fbIndex latest rest
      (r.1, r.2.1, f :: r.2.2)

/-- row-major list of the region coordinates (x, y) of the finest-mip tile
grid, y outer, x inner — the traversal order of the feedback loop. -/
def regionList (w h : Nat) : List (Nat × Nat) :=
  (List.range h).flatMap fun y => (List.range w).map fun x => (x, y)

/-- one region of the reference-update loop of ProcessFeedback: clamp the
resolved feedback byte to m_maxMip, record whether it changed, SetMinMip,
and write the new reference. -/
def feedbackStep (resolved : Nat → Nat → Nat) (acc : ResourceState × Bool)
    (p : Nat × Nat) : ResourceState × Bool :=
  let desired := min (resolved p.1 p.2) acc.1.tms.numSubresources
  let initialValue := acc.1.tileReferences p.1 p.2
  let changed := acc.2 || decide (desired ≠ initialValue)
  let st := acc.1.SetMinMip initialValue p.1 p.2 desired
  ({ st with tileReferences := upd2 st.tileReferences p.1 p.2 desired }, changed)

/-- the whole reference-update loop over the resolved feedback buffer. -/
def feedbackLoop (resolved : Nat → Nat → Nat) (st : ResourceState) (changed : Bool) :
    ResourceState × Bool :=
  (regionList st.tileReferencesWidth st.tileReferencesHeight).foldl
    (feedbackStep resolved) (st, changed)

/-- row-major list of every tracked tile coordinate (s outer, then y, then
x) — the traversal order of the zero-refcount eviction loop. -/
def allTileCoords (t : TileMappingState) : List Coord :=
  (List.range t.numSubresources).flatMap fun s =>
    (List.range (t.height s)).flatMap fun y =>
      (List.range (t.width s)).map fun x => ⟨x, y, s⟩

/-- one tile of the zero-refcount eviction loop: a tile with a nonzero
refcount is zeroed and queued for eviction (and `changed` is set). -/
def zeroStep (acc : ResourceState × Bool) (c : Coord) : ResourceState × Bool :=
  let refCount := acc.1.tms.GetRefCountC c
  if refCount ≠ 0 then
    ({ acc.1 with
        tms := acc.1.tms.SetRefCount c.x c.y c.s 0,
        pendingEvictions := acc.1.pendingEvictions.Append c }, true)
  else acc

/-- StreamingResourceBase::SetResidencyChanged() (the Resource-local part;
notifying the TileUpdateManager is not modelled). -/
def ResourceState.SetResidencyChanged (st : ResourceState) : ResourceState :=
  { st with tileResidencyChanged := true }

/-- StreamingResourceBase::ProcessFeedback(frameFenceCompletedValue).
`resolved i x y` is the byte of the mapped resolved readback buffer i at
region (x, y) (`m_resources->GetResolvedReadback(feedbackIndex - 1)`). -/
def ResourceState.ProcessFeedback (st : ResourceState) (frameFence : Nat)
    (resolved : Nat → Nat → Nat → Nat) : ResourceState :=
  if st.setZeroRefCounts then
    let st := { st with setZeroRefCounts := false }
    if st.refCountsZero then st
    else
      let st := { st with refCountsZero := true }
      let st := { st with queuedFeedback := st.queuedFeedback.map fun (f : Bool × Nat) => (false, f.2) }
      let st := { st with tileReferences := fun _ _ => st.tms.numSubresources }
      let r := (allTileCoords st.tms).foldl zeroStep (st, false)
      let st := { r.1 with pendingTileLoads := [] }
      if r.2 then st.SetResidencyChanged else st
  else
    let pick := pickFeedbackGo frameFence 0 0 0 st.queuedFeedback
    if pick.1 = 0 then st
    else
      let st := { st with queuedFeedback := pick.2.2 }
      let r := feedbackLoop (resolved (pick.1 - 1)) st false
      let st := if r.2 then { r.1 with refCountsZero := false } else r.1
      let st := st.AbandonPending
      let st := { st with pendingEvictions := st.pendingEvictions.Rescue st.tms }
      if r.2 then st.SetResidencyChanged else st

/-- result of one QueuePendingTileEvictions pass. -/
structure EvictPass where
  tms : TileMappingState
  heap : HeapAllocator
  ul : UpdateList
  ready : List Coord

/-- the loop of StreamingResourceBase::QueuePendingTileEvictions over the
ready-to-evict bucket.  A Resident coord is set Evicting, its heap page
freed, its heap index cleared, and it is appended to the UpdateList's
evict-coords; a Loading coord is kept (compacted in place, here the
`delayed` accumulator); anything else is dropped. -/
def evictLoop (tms : TileMappingState) (heap : HeapAllocator) (ul : UpdateList)
    (delayed : List Coord) : List Coord → EvictPass
  | [] => ⟨tms, heap, ul, delayed⟩
  | coord :: rest =>
    let residency := tms.GetResidency coord
    if residency = Residency.Resident then
      let heapIndex := tms.GetHeapIndex coord
      evictLoop ((tms.SetEvicting coord).SetHeapIndex coord InvalidIndex)
        (heap.Free heapIndex)
        { ul with evictCoords := ul.evictCoords ++ [coord] } delayed rest
    else if residency = Residency.Loading then
      evictLoop tms heap ul (delayed ++ [coord]) rest
    else
      evictLoop tms heap ul delayed rest

/-- StreamingResourceBase::QueuePendingTileEvictions(updateList): run the
loop over the ready bucket; the bucket is replaced by the delayed coords. -/
def QueuePendingTileEvictions (tms : TileMappingState) (heap : HeapAllocator)
    (ul : UpdateList) (ready : List Coord) : EvictPass :=
  evictLoop tms heap ul [] ready

/-- result of one QueuePendingTileLoads pass. -/
structure LoadPass where
  tms : TileMappingState
  heap : HeapAllocator
  ul : UpdateList
  pending : List Coord

/-- the loop of StreamingResourceBase::QueuePendingTileLoads.  A NotResident
coord is set Loading, given a freshly allocated heap index, and recorded in
the UpdateList; the batch budget maxCopies is decremented and the loop breaks
when it reaches 0.  An Evicting coord is retained (compacted to the front,
here the `skipped` accumulator); Resident or Loading coords are dropped.
Consumed coords are erased; the result's pending list is the skipped coords
followed by the unexamined remainder. -/
def loadLoop (tms : TileMappingState) (heap : HeapAllocator) (ul : UpdateList)
    (skipped : List Coord) (maxCopies : Nat) : List Coord → LoadPass
  | [] => ⟨tms, heap, ul, skipped⟩
  | coord :: rest =>
    let residency := tms.GetResidency coord
    if residency = Residency.NotResident then
      let a := heap.Allocate
      let tms := (tms.SetLoading coord).SetHeapIndex coord a.1
      let ul := ul.AddUpdate coord a.1
      if maxCopies = 1 then ⟨tms, a.2, ul, skipped ++ rest⟩
      else loadLoop tms a.2 ul skipped (maxCopies - 1) rest
    else if residency = Residency.Evicting then
      loadLoop tms heap ul (skipped ++ [coord]) maxCopies rest
    else
      loadLoop tms heap ul skipped maxCopies rest

/-- StreamingResourceBase::QueuePendingTileLoads(updateList).  `maxPerBatch`
stands for m_pTileUpdateManager->GetMaxTileCopiesPerBatch(). -/
def QueuePendingTileLoads (maxPerBatch : Nat) (tms : TileMappingState)
    (heap : HeapAllocator) (ul : UpdateList) (pending : List Coord) : LoadPass :=
  let maxCopies := min (min pending.length maxPerBatch) heap.GetNumFree
  loadLoop tms heap ul [] maxCopies pending

/-- the inner walk of UpdateMinMipMap for one region:
`while (s > 0) { s--; if (GetResident(x >> s, y >> s, s)) minMip = s; else break; }`. -/
def minMipWalk (t : TileMappingState) (x y : Nat) : Nat → Nat → Nat
  | 0, minMip => minMip
  | s + 1, minMip =>
    if t.GetResident (x >>> s) (y >>> s) s then minMipWalk t x y s s
    else minMip

/-- the new local min-mip-map computed by UpdateMinMipMap: if any refcount
is held, each region starts at max(GetMinResidentMip, previous value) and
walks toward mip 0 while tiles are Resident; otherwise the map is filled
with m_maxMip. -/
def computeMinMipMap (st : ResourceState) : Nat → Nat → Nat :=
  if st.tms.GetAnyRefCount then
    fun x y =>
      let s := max st.tms.GetMinResidentMip (st.minMipMap x y)
      minMipWalk st.tms x y s s
  else
    fun _ _ => st.tms.numSubresources

/-- StreamingResourceBase::UpdateMinMipMap(): early-out unless residency
changed; otherwise clear the flag, recompute the local min-mip-map and
publish it (the memcpy into the shared residency buffer is the published
`minMipMap` itself). -/
def ResourceState.UpdateMinMipMap (st : ResourceState) : ResourceState :=
  if !st.tileResidencyChanged then st
  else
    { st with tileResidencyChanged := false, minMipMap := computeMinMipMap st }

/-- the min-resident-mip in the words of the spec (§4.3): the coarsest
subresource s such that every tile of mip s is Resident; else M.  Written
from the spec for comparison with the source's GetMinResidentMip. -/
def minResidentMipSpec (t : TileMappingState) : Nat :=
  let good : Nat → Prop := fun s =>
    ∀ y < t.height s, ∀ x < t.width s, t.GetResident x y s = true
  let candidates := (List.range t.numSubresources).filter fun s => decide (good s)
  candidates.getLastD t.numSubresources

/-- ASSERT(~refCount) in AddTileRef: adding must not wrap the UINT32. -/
def ResourceState.AddTileRefChecked (st : ResourceState) (x y s : Nat) :
    Option ResourceState :=
  if st.tms.GetRefCount x y s = InvalidIndex then none
  else some (st.AddTileRef x y s)

/-- ASSERT(0 != refCount) in DecTileRef: decrementing must not underflow. -/
def ResourceState.DecTileRefChecked (st : ResourceState) (x y s : Nat) :
    Option ResourceState :=
  if st.tms.GetRefCount x y s = 0 then none
  else some (st.DecTileRef x y s)

/-- `addRefLoop` with the AddTileRef assertion checked. -/
def addRefLoopChecked (x y d : Nat) (st : ResourceState) : Nat → Option ResourceState
  | 0 => some st
  | s + 1 =>
    if d ≤ s then
      (st.AddTileRefChecked (x >>> s) (y >>> s) s).bind fun st' =>
        addRefLoopChecked x y d st' s
    else some st

/-- `decRefLoop` with the DecTileRef assertion checked. -/
def decRefLoopChecked (x y : Nat) (st : ResourceState) (s : Nat) :
    Nat → Option ResourceState
  | 0 => some st
  | n + 1 =>
    (st.DecTileRefChecked (x >>> s) (y >>> s) s).bind fun st' =>
      decRefLoopChecked x y st' (s + 1) n

/-- SetMinMip with both assertions checked. -/
def setMinMipChecked (st : ResourceState) (current x y desired : Nat) :
    Option ResourceState :=
  (addRefLoopChecked x y desired st current).bind fun st' =>
    decRefLoopChecked x y st' (min current desired) (desired - min current desired)

/-- `feedbackStep` with the assertions checked. -/
def feedbackStepChecked (resolved : Nat → Nat → Nat)
    (acc : Option (ResourceState × Bool)) (p : Nat × Nat) :
    Option (ResourceState × Bool) :=
  acc.bind fun ⟨st, changed⟩ =>
    let desired := min (resolved p.1 p.2) st.tms.numSubresources
    let initialValue := st.tileReferences p.1 p.2
    let changed := changed || decide (desired ≠ initialValue)
    (setMinMipChecked st initialValue p.1 p.2 desired).map fun st' =>
      ({ st' with tileReferences := upd2 st'.tileReferences p.1 p.2 desired }, changed)

/-- the whole reference-update loop with the assertions checked. -/
def feedbackLoopChecked (resolved : Nat → Nat → Nat) (st : ResourceState)
    (changed : Bool) : Option (ResourceState × Bool) :=
  (regionList st.tileReferencesWidth st.tileReferencesHeight).foldl
    (feedbackStepChecked resolved) (some (st, changed))

/-- Modelled from the spec: StreamingResourceDU::NotifyEvicted (§4.5.3,
implemented in TileUpdateManager.cpp, not under src/): for each evict-coord
of a completed UpdateList, set_not_resident and mark residency-changed. -/
def notifyEvicted (st : ResourceState) (coords : List Coord) : ResourceState :=
  coords.foldl (fun st c =>
    { st with tms := st.tms.SetNotResident c, tileResidencyChanged := true }) st

/-- Modelled from the spec: StreamingResourceDU::NotifyCopyComplete (§4.5.3,
implemented in TileUpdateManager.cpp, not under src/): for each loaded coord
of a completed UpdateList, set_resident and mark residency-changed. -/
def notifyCopyComplete (st : ResourceState) (coords : List Coord) : ResourceState :=
  coords.foldl (fun st c =>
    { st with tms := st.tms.SetResident c, tileResidencyChanged := true }) st

/-- the whole system the claims quantify over: one streaming resource, the
shared heap, and the in-flight UpdateLists (allocated and submitted but not
yet completed by the fence-monitor thread). -/
structure SysState where
  rs : ResourceState
  heap : HeapAllocator
  inflight : List UpdateList

/-- one iteration of the while-loop of StreamingResourceBase::QueueTiles():
allocate an UpdateList, queue evictions (if any are ready), queue loads (if
any are pending and the heap has room), then submit the list if nonempty. -/
def queueTilesOnce (maxPerBatch : Nat) (st : SysState) : SysState :=
  let ul := UpdateList.empty
  let ready := st.rs.pendingEvictions.GetReadyToEvict
  let r :=
    if ready.length ≠ 0 then
      QueuePendingTileEvictions st.rs.tms st.heap ul ready
    else ⟨st.rs.tms, st.heap, ul, ready⟩
  let l :=
    if st.rs.pendingTileLoads.length ≠ 0 ∧ r.heap.GetNumFree ≠ 0 then
      QueuePendingTileLoads maxPerBatch r.tms r.heap r.ul st.rs.pendingTileLoads
    else ⟨r.tms, r.heap, r.ul, st.rs.pendingTileLoads⟩
  let rs := { st.rs with
    tms := l.tms,
    pendingTileLoads := l.pending,
    pendingEvictions := st.rs.pendingEvictions.SetReadyToEvict r.ready }
  if l.ul.coords.length ≠ 0 ∨ l.ul.evictCoords.length ≠ 0 then
    { rs := rs, heap := l.heap, inflight := st.inflight ++ [l.ul] }
  else
    { rs := rs, heap := l.heap, inflight := st.inflight }

/-- completion of one in-flight UpdateList by the fence-monitor thread:
notify evictions, then loaded tiles, then return the list to the pool. -/
def completeUpdateList (st : SysState) (ul : UpdateList) : SysState :=
  { rs := notifyCopyComplete (notifyEvicted st.rs ul.evictCoords) ul.coords,
    heap := st.heap,
    inflight := st.inflight.erase ul }

/-- the step relation of the residency engine: the feedback/queue/notify
cycle, plus the per-frame ring rotation. -/
inductive Step (maxPerBatch : Nat) : SysState → SysState → Prop
  | processFeedback (st : SysState) (fence : Nat) (resolved : Nat → Nat → Nat → Nat) :
      Step maxPerBatch st
        { st with rs := st.rs.ProcessFeedback fence resolved }
  | queueTiles (st : SysState) :
      Step maxPerBatch st (queueTilesOnce maxPerBatch st)
  | complete (st : SysState) (ul : UpdateList) (h : ul ∈ st.inflight) :
      Step maxPerBatch st (completeUpdateList st ul)
  | nextFrame (st : SysState) :
      Step maxPerBatch st
        { st with rs := { st.rs with pendingEvictions := st.rs.pendingEvictions.NextFrame } }

/-- initial configuration: nothing resident, no heap index assigned, nothing
in flight, and a well-formed free pool (no page equals the sentinel). -/
def InitSys (st : SysState) : Prop :=
  (∀ x y s, st.rs.tms.resident x y s = Residency.NotResident) ∧
  (∀ x y s, st.rs.tms.heapIndices x y s = InvalidIndex) ∧
  st.inflight = [] ∧
  InvalidIndex ∉ st.heap.freelist

/-- reachability under the step relation from an initial configuration. -/
def ReachableSys (maxPerBatch : Nat) (st : SysState) : Prop :=
  ∃ st₀, InitSys st₀ ∧ Relation.ReflTransGen (Step maxPerBatch) st₀ st

/-- the claimed heap-index invariant: a tile's heap index is valid exactly
when its residency is Resident or Loading. -/
def HeapIndexInv (t : TileMappingState) : Prop :=
  ∀ x y s, t.heapIndices x y s ≠ InvalidIndex ↔
    (t.resident x y s = Residency.Resident ∨ t.resident x y s = Residency.Loading)

/-- auxiliary invariant: every coord recorded in an in-flight UpdateList is
in the matching transient state. -/
def InflightInv (t : TileMappingState) (inflight : List UpdateList) : Prop :=
  ∀ ul ∈ inflight,
    (∀ c ∈ ul.coords, t.resident c.x c.y c.s = Residency.Loading) ∧
    (∀ c ∈ ul.evictCoords, t.resident c.x c.y c.s = Residency.Evicting)

/-- auxiliary invariant: the free pool never contains the sentinel. -/
def HeapInv (h : HeapAllocator) : Prop := InvalidIndex ∉ h.freelist

/-- auxiliary invariant: no coord occurs twice across in-flight work. -/
def InflightDisjoint (inflight : List UpdateList) : Prop :=
  (inflight.flatMap fun ul => ul.coords ++ ul.evictCoords).Nodup

/-- the inductive system invariant. -/
def SysInv (st : SysState) : Prop :=
  HeapIndexInv st.rs.tms ∧ InflightInv st.rs.tms st.inflight ∧
  HeapInv st.heap ∧ InflightDisjoint st.inflight

/-- the counting invariant behind the refcounts: refcount(x, y, s) is the
number of finest-mip regions (u, v) whose reference value reaches level s
and which the tile covers. -/
def coveringCount (w h : Nat) (refs : Nat → Nat → Nat) (x y s : Nat) : Nat :=
  (((Finset.range w) ×ˢ (Finset.range h)).filter fun p =>
    p.1 >>> s = x ∧ p.2 >>> s = y ∧ refs p.1 p.2 ≤ s).card

/-- the refcount invariant of the feedback pass, for one resource. -/
def RefInv (st : ResourceState) : Prop :=
  ∀ x y s, s < st.tms.numSubresources →
    st.tms.GetRefCount x y s =
      coveringCount st.tileReferencesWidth st.tileReferencesHeight
        st.tileReferences x y s

/-- reference values never exceed M (established by construction and by
every write of the feedback pass). -/
def RefsBounded (st : ResourceState) : Prop :=
  ∀ u v, st.tileReferences u v ≤ st.tms.numSubresources

/-- a TileMappingState with nothing resident, no references, no pages. -/
def initTms (m : Nat) (w h : Nat → Nat) : TileMappingState :=
  ⟨m, w, h, fun _ _ _ => Residency.NotResident, fun _ _ _ => 0,
    fun _ _ _ => InvalidIndex⟩

/-- an EvictionDelay of the given depth with all buckets empty. -/
def ringOfDepth (f : Nat) : EvictionDelay := ⟨List.replicate f []⟩

/-- scenario S1 (cold load): 4×4 tile grid, M = 4, all tile references at
the maximum, nothing resident, one queued feedback buffer at fence 1. -/
def stS1 : ResourceState :=
  { tms := initTms 4 (fun s => max 1 (4 >>> s)) (fun s => max 1 (4 >>> s)),
    pendingTileLoads := [],
    pendingEvictions := ringOfDepth 3,
    tileReferences := fun _ _ => 4,
    tileReferencesWidth := 4,
    tileReferencesHeight := 4,
    queuedFeedback := [(true, 1)],
    setZeroRefCounts := false,
    refCountsZero := false,
    tileResidencyChanged := false,
    minMipMap := fun _ _ => 4 }

/-- scenario S1 feedback: region (0, 0) wants mip 0, everything else stays
at the maximum. -/
def resolvedS1 : Nat → Nat → Nat → Nat :=
  fun _ x y => if x = 0 ∧ y = 0 then 0 else 4

/-- counterexample state for C8: a single tracked tile that is Resident with
refcount 0 (an eviction is pending for it), evict-all requested. -/
def stC8 : ResourceState :=
  { tms := { initTms 1 (fun _ => 1) (fun _ => 1) with
      resident := fun _ _ _ => Residency.Resident },
    pendingTileLoads := [],
    pendingEvictions := ringOfDepth 3,
    tileReferences := fun _ _ => 0,
    tileReferencesWidth := 1,
    tileReferencesHeight := 1,
    queuedFeedback := [(true, 5)],
    setZeroRefCounts := true,
    refCountsZero := false,
    tileResidencyChanged := false,
    minMipMap := fun _ _ => 1 }

/-- scenario S6 state: M = 1, 2×2 grid, three tiles resident and referenced,
evict-all requested. -/
def stS6 : ResourceState :=
  { tms := { initTms 1 (fun _ => 2) (fun _ => 2) with
      resident := fun x y _ =>
        if x + y ≤ 1 then Residency.Resident else Residency.NotResident,
      refcounts := fun x y _ => if x + y ≤ 1 then 1 else 0 },
    pendingTileLoads := [⟨1, 1, 0⟩],
    pendingEvictions := ringOfDepth 3,
    tileReferences := fun _ _ => 0,
    tileReferencesWidth := 2,
    tileReferencesHeight := 2,
    queuedFeedback := [(true, 7), (false, 3)],
    setZeroRefCounts := true,
    refCountsZero := false,
    tileResidencyChanged := false,
    minMipMap := fun _ _ => 1 }

/-- counterexample state for C9: two tracked mips of one tile each; the
finer mip 0 is fully Resident, the coarsest mip 1 is not. -/
def tmsC9 : TileMappingState :=
  { initTms 2 (fun _ => 1) (fun _ => 1) with
    resident := fun _ _ s =>
      if s = 0 then Residency.Resident else Residency.NotResident }

/-- a small mapping state with one tile in each residency state, used as a
witness input for the queueing theorems (refcounts all 0, as after rescue). -/
def tmsW4 : TileMappingState :=
  { numSubresources := 1, width := fun _ => 2, height := fun _ => 2,
    resident := fun x y _ =>
      if x = 0 ∧ y = 0 then Residency.Resident
      else if x = 1 ∧ y = 0 then Residency.Loading
      else if x = 0 ∧ y = 1 then Residency.Evicting
      else Residency.NotResident,
    refcounts := fun _ _ _ => 0,
    heapIndices := fun x y _ =>
      if x = 0 ∧ y = 0 then 5
      else if x = 1 ∧ y = 0 then 6
      else InvalidIndex }

/-- a small mapping state with one tile in each residency state and all
refcounts 1, used as a witness input for the load-queueing theorem. -/
def tmsW5 : TileMappingState :=
  { numSubresources := 1, width := fun _ => 2, height := fun _ => 2,
    resident := fun x y _ =>
      if x = 0 ∧ y = 0 then Residency.NotResident
      else if x = 1 ∧ y = 0 then Residency.Evicting
      else if x = 0 ∧ y = 1 then Residency.Resident
      else Residency.Loading,
    refcounts := fun _ _ _ => 1,
    heapIndices := fun x y _ =>
      if x = 0 ∧ y = 1 then 3
      else if x = 1 ∧ y = 1 then 4
      else InvalidIndex }

/-- a witness state for the min-mip-map walk: one tracked mip, its single
tile resident and referenced, with a stale local min-mip-map entry. -/
def stC1 : ResourceState :=
  { tms := { initTms 1 (fun _ => 1) (fun _ => 1) with
      resident := fun _ _ _ => Residency.Resident,
      refcounts := fun _ _ _ => 1,
      heapIndices := fun _ _ _ => 2 },
    pendingTileLoads := [],
    pendingEvictions := ringOfDepth 3,
    tileReferences := fun _ _ => 0,
    tileReferencesWidth := 1,
    tileReferencesHeight := 1,
    queuedFeedback := [(false, 0)],
    setZeroRefCounts := false,
    refCountsZero := false,
    tileResidencyChanged := true,
    minMipMap := fun _ _ => 1 }

-- ======================= theorems =======================

/-- the scan of GetMinResidentMip decides residency of the whole bottom mip. -/
theorem getMinResidentMip_characterize (t : TileMappingState) :
    t.GetMinResidentMip =
      if (∀ y < t.height (t.numSubresources - 1),
          ∀ x < t.width (t.numSubresources - 1),
            t.GetResident x y (t.numSubresources - 1) = true) then
        t.numSubresources - 1
      else t.numSubresources := by
  have hiff : (((List.range (t.height (t.numSubresources - 1))).all fun y =>
      (List.range (t.width (t.numSubresources - 1))).all fun x =>
        t.GetResident x y (t.numSubresources - 1)) = true) ↔
      (∀ y < t.height (t.numSubresources - 1),
        ∀ x < t.width (t.numSubresources - 1),
          t.GetResident x y (t.numSubresources - 1) = true) := by
    simp only [List.all_eq_true, List.mem_range]
  unfold TileMappingState.GetMinResidentMip
  by_cases h : ∀ y < t.height (t.numSubresources - 1),
      ∀ x < t.width (t.numSubresources - 1),
        t.GetResident x y (t.numSubresources - 1) = true
  · rw [if_pos (hiff.mpr h), if_pos h]
  · rw [if_neg (fun hb => h (hiff.mp hb)), if_neg h]

/-- GetMinResidentMip takes only the two values M−1 and M. -/
theorem getMinResidentMip_cases (t : TileMappingState) :
    t.GetMinResidentMip = t.numSubresources - 1 ∨
      t.GetMinResidentMip = t.numSubresources := by
  rw [getMinResidentMip_characterize]
  split
  · exact Or.inl rfl
  · exact Or.inr rfl

/-- C9 counterexample: a state whose finer mip 0 is entirely Resident while
the coarsest tracked mip 1 is not.  The coarsest fully-resident subresource
exists (it is 0), yet GetMinResidentMip returns M = 2, because the source
only examines mip M−1. -/
theorem C9_get_min_resident_mip_counterexample :
    (∀ y < tmsC9.height 0, ∀ x < tmsC9.width 0, tmsC9.GetResident x y 0 = true) ∧
    minResidentMipSpec tmsC9 = 0 ∧
    tmsC9.GetMinResidentMip = 2 ∧
    tmsC9.GetMinResidentMip ≠ minResidentMipSpec tmsC9 := by
  refine ⟨by decide, by decide, by decide, by decide⟩

/-- C9 (amended): GetMinResidentMip examines only the coarsest tracked mip
M−1: it returns M−1 exactly when every tile of mip M−1 is Resident, and M
otherwise. -/
theorem C9_get_min_resident_mip_amended (t : TileMappingState)
    (hm : 1 ≤ t.numSubresources) :
    (t.GetMinResidentMip = t.numSubresources - 1 ↔
      ∀ y < t.height (t.numSubresources - 1),
        ∀ x < t.width (t.numSubresources - 1),
          t.GetResident x y (t.numSubresources - 1) = true) ∧
    (t.GetMinResidentMip = t.numSubresources - 1 ∨
      t.GetMinResidentMip = t.numSubresources) := by
  refine ⟨?_, getMinResidentMip_cases t⟩
  rw [getMinResidentMip_characterize]
  constructor
  · intro h
    by_contra hall
    rw [if_neg hall] at h
    omega
  · intro h
    rw [if_pos h]

/-- shiftBuckets on a cons whose tail still has at least two buckets. -/
theorem shiftBuckets_cons (a : List Coord) (l : List (List Coord)) (h : 2 ≤ l.length) :
    shiftBuckets (a :: l) = a :: shiftBuckets l := by
  match l with
  | [] => simp at h
  | [b] => simp at h
  | b :: c :: rest => rfl

/-- closed form of shiftBuckets with the two oldest buckets explicit. -/
theorem shiftBuckets_append_pair (init : List (List Coord)) (b c : List Coord) :
    shiftBuckets (init ++ [b, c]) = init ++ [b ++ c] := by
  induction init with
  | nil => rfl
  | cons a rest ih =>
    rw [List.cons_append, shiftBuckets_cons a (rest ++ [b, c]) (by simp), ih,
      ← List.cons_append]

/-- NextFrame in closed form: the new bucket 0 is empty, every bucket ages
one slot, and the two oldest buckets merge into the new ready bucket. -/
theorem nextFrame_closed (init : List (List Coord)) (b c : List Coord) :
    EvictionDelay.NextFrame ⟨init ++ [b, c]⟩ = ⟨[] :: (init ++ [b ++ c])⟩ := by
  have hsplit : init ++ [b, c] = (init ++ [b]) ++ [c] := by simp
  unfold EvictionDelay.NextFrame
  simp only [hsplit, List.getLast?_concat, List.dropLast_concat]
  cases init with
  | nil => simp
  | cons a rest =>
    simp only [List.cons_append]
    have h1 : ((a :: rest) ++ [b]).dropLast = a :: rest := List.dropLast_concat ..
    have h2 : ((a :: rest) ++ [b]).getLastD [] = b := List.getLastD_concat ..
    simp only [List.cons_append] at h1 h2
    rw [List.getLastD_eq_getLast?] at h2
    simp [h1, h2]

/-- NextFrame agrees with shiftBuckets (depth at least 2). -/
theorem nextFrame_shift (l : List (List Coord)) (h : 2 ≤ l.length) :
    EvictionDelay.NextFrame ⟨l⟩ = ⟨[] :: shiftBuckets l⟩ := by
  rcases List.eq_nil_or_concat' l with rfl | ⟨l', a, rfl⟩
  · simp at h
  rcases List.eq_nil_or_concat' l' with rfl | ⟨l'', b, rfl⟩
  · simp at h
  rw [show (l'' ++ [b]) ++ [a] = l'' ++ [b, a] by simp, nextFrame_closed,
    shiftBuckets_append_pair]

/-- NextFrame preserves the bucket count (depth at least 2). -/
theorem nextFrame_length (e : EvictionDelay) (h : 2 ≤ e.mappings.length) :
    e.NextFrame.mappings.length = e.mappings.length := by
  obtain ⟨l⟩ := e
  rcases List.eq_nil_or_concat' l with rfl | ⟨l', a, rfl⟩
  · simp at h
  rcases List.eq_nil_or_concat' l' with rfl | ⟨l'', b, rfl⟩
  · simp at h
  rw [show (l'' ++ [b]) ++ [a] = l'' ++ [b, a] by simp, nextFrame_closed]
  simp

/-- NextFrame never discards coords: the flattened ring is unchanged
(depth at least 2). -/
theorem nextFrame_flatten (e : EvictionDelay) (h : 2 ≤ e.mappings.length) :
    e.NextFrame.mappings.flatten = e.mappings.flatten := by
  obtain ⟨l⟩ := e
  rcases List.eq_nil_or_concat' l with rfl | ⟨l', a, rfl⟩
  · simp at h
  rcases List.eq_nil_or_concat' l' with rfl | ⟨l'', b, rfl⟩
  · simp at h
  rw [show (l'' ++ [b]) ++ [a] = l'' ++ [b, a] by simp, nextFrame_closed]
  simp

/-- the old ready bucket is merged into the new ready bucket (depth at
least 2). -/
theorem nextFrame_ready_mono (e : EvictionDelay) (h : 2 ≤ e.mappings.length) :
    ∀ a ∈ e.GetReadyToEvict, a ∈ e.NextFrame.GetReadyToEvict := by
  obtain ⟨l⟩ := e
  rcases List.eq_nil_or_concat' l with rfl | ⟨l', a, rfl⟩
  · simp at h
  rcases List.eq_nil_or_concat' l' with rfl | ⟨l'', b, rfl⟩
  · simp at h
  rw [show (l'' ++ [b]) ++ [a] = l'' ++ [b, a] by simp, nextFrame_closed]
  intro x hx
  simp only [EvictionDelay.GetReadyToEvict] at hx ⊢
  have h1 : (l'' ++ [b, a]).getLastD [] = a := by
    rw [show l'' ++ [b, a] = (l'' ++ [b]) ++ [a] by simp]
    exact List.getLastD_concat ..
  have h2 : ([] :: (l'' ++ [b ++ a])).getLastD [] = b ++ a := by
    rw [show [] :: (l'' ++ [b ++ a]) = ([] :: l'') ++ [b ++ a] by simp]
    exact List.getLastD_concat ..
  rw [h1] at hx
  rw [h2]
  exact List.mem_append_right b hx

/-- iterating NextFrame one more time, from the right. -/
theorem nextFrames_succ_right (e : EvictionDelay) (n : Nat) :
    nextFrames e (n + 1) = (nextFrames e n).NextFrame := by
  induction n generalizing e with
  | zero => rfl
  | succ n ih => exact ih e.NextFrame

/-- iterating NextFrame preserves the bucket count (depth at least 2). -/
theorem nextFrames_length (e : EvictionDelay) (h : 2 ≤ e.mappings.length) (n : Nat) :
    (nextFrames e n).mappings.length = e.mappings.length := by
  induction n with
  | zero => rfl
  | succ n ih =>
    rw [nextFrames_succ_right, nextFrame_length]
    · exact ih
    · rw [ih]; exact h

/-- progress of a marked bucket X through the ring: while younger buckets
remain ahead of it, X sits intact between them and the buckets behind; when
the last one is consumed, X (possibly merged with older leftovers) becomes
the ready bucket. -/
theorem ring_progress (X : List Coord) :
    ∀ (n : Nat) (T Z : List (List Coord)),
      (n < T.length →
        ∃ Z' T', (nextFrames ⟨Z ++ [X] ++ T⟩ n).mappings = Z' ++ [X] ++ T' ∧
          T' ≠ [] ∧ ∀ a ∈ T'.flatten, a ∈ T.flatten) ∧
      (n = T.length →
        ∃ Z' g, (nextFrames ⟨Z ++ [X] ++ T⟩ n).mappings = Z' ++ [X ++ g] ∧
          ∀ a ∈ g, a ∈ T.flatten) := by
  intro n
  induction n with
  | zero =>
    intro T Z
    constructor
    · intro hT
      exact ⟨Z, T, rfl, by rintro rfl; simp at hT, fun a ha => ha⟩
    · intro hT
      have : T = [] := List.eq_nil_of_length_eq_zero hT.symm
      subst this
      exact ⟨Z, [], by simp [nextFrames], by simp⟩
  | succ n ih =>
    intro T Z
    rcases List.eq_nil_or_concat' T with rfl | ⟨T'', t, rfl⟩
    · constructor
      · intro hT; simp at hT
      · intro hT; simp at hT
    rcases List.eq_nil_or_concat' T'' with rfl | ⟨T4, t4, rfl⟩
    · -- T = [t]: this step merges X into the ready bucket
      constructor
      · intro hT
        simp only [List.nil_append, List.length_singleton] at hT
        omega
      · intro hT
        simp only [List.nil_append, List.length_singleton] at hT
        have hn : n = 0 := by omega
        subst hn
        refine ⟨[] :: Z, t, ?_, by simp⟩
        have h1 : nextFrames ⟨Z ++ [X] ++ ([] ++ [t])⟩ (0 + 1) =
            EvictionDelay.NextFrame ⟨Z ++ [X] ++ ([] ++ [t])⟩ := rfl
        rw [h1, show Z ++ [X] ++ ([] ++ [t]) = Z ++ [X, t] by simp, nextFrame_closed]
        simp
    · -- T = (T4 ++ [t4]) ++ [t]: age one frame and recurse
      have hstep : EvictionDelay.NextFrame ⟨Z ++ [X] ++ ((T4 ++ [t4]) ++ [t])⟩ =
          ⟨([] :: Z) ++ [X] ++ (T4 ++ [t4 ++ t])⟩ := by
        rw [show Z ++ [X] ++ ((T4 ++ [t4]) ++ [t]) = (Z ++ [X] ++ T4) ++ [t4, t] by simp,
          nextFrame_closed]
        congr 1
        simp
      have hrec : nextFrames ⟨Z ++ [X] ++ ((T4 ++ [t4]) ++ [t])⟩ (n + 1) =
          nextFrames ⟨([] :: Z) ++ [X] ++ (T4 ++ [t4 ++ t])⟩ n := by
        have h1 : nextFrames ⟨Z ++ [X] ++ ((T4 ++ [t4]) ++ [t])⟩ (n + 1) =
            nextFrames (EvictionDelay.NextFrame ⟨Z ++ [X] ++ ((T4 ++ [t4]) ++ [t])⟩) n := rfl
        rw [h1, hstep]
      have hmerge : ∀ a ∈ (T4 ++ [t4 ++ t]).flatten, a ∈ ((T4 ++ [t4]) ++ [t]).flatten := by
        intro a ha
        simp only [List.flatten_append, List.flatten_cons, List.flatten_nil,
          List.append_nil, List.mem_append] at ha ⊢
        tauto
      obtain ⟨ihl, ihr⟩ := ih (T4 ++ [t4 ++ t]) ([] :: Z)
      constructor
      · intro hT
        have hlen : n < (T4 ++ [t4 ++ t]).length := by
          simp only [List.length_append, List.length_singleton] at hT ⊢
          omega
        obtain ⟨Z', T', heq, hne, hsub⟩ := ihl hlen
        exact ⟨Z', T', by rw [hrec]; exact heq, hne,
          fun a ha => hmerge a (hsub a ha)⟩
      · intro hT
        have hlen : n = (T4 ++ [t4 ++ t]).length := by
          simp only [List.length_append, List.length_singleton] at hT ⊢
          omega
        obtain ⟨Z', g, heq, hsub⟩ := ihr hlen
        exact ⟨Z', g, by rw [hrec]; exact heq, fun a ha => hmerge a (hsub a ha)⟩

/-- splitting an iteration of NextFrame. -/
theorem nextFrames_add (e : EvictionDelay) (a b : Nat) :
    nextFrames e (a + b) = nextFrames (nextFrames e a) b := by
  induction a generalizing e with
  | zero =>
    rw [Nat.zero_add]
    rfl
  | succ a ih =>
    have h1 : nextFrames e (a + 1 + b) = nextFrames e.NextFrame (a + b) := by
      rw [show a + 1 + b = (a + b) + 1 by omega]
      rfl
    rw [h1, ih]
    rfl

/-- once in the ready bucket, a coord stays there over frames (depth at
least 2). -/
theorem ready_persists (e : EvictionDelay) (hd : 2 ≤ e.mappings.length) (c : Coord)
    (hc : c ∈ e.GetReadyToEvict) (m : Nat) : c ∈ (nextFrames e m).GetReadyToEvict := by
  induction m with
  | zero => exact hc
  | succ m ih =>
    rw [nextFrames_succ_right]
    exact nextFrame_ready_mono _ (by rw [nextFrames_length e hd]; exact hd) _ ih

/-- C6: with ring depth F (= swap buffers + 1, from the constructor), a
fresh coord appended at frame k is absent from the ready bucket for the
next F−2 frames and present from frame k + F − 1 on; NextFrame never
discards coords and merges the old ready bucket into the new one.  With
F = 3, an eviction appended at frame 10 (with NextFrame at 11 and 12) makes
the ready bucket non-empty only starting at frame 12. -/
theorem C6_eviction_delay_ring (e : EvictionDelay) (c : Coord) (n : Nat)
    (hd : 2 ≤ e.mappings.length) (hfresh : c ∉ e.mappings.flatten) :
    (n < e.mappings.length - 1 → c ∉ (nextFrames (e.Append c) n).GetReadyToEvict) ∧
    (e.mappings.length - 1 ≤ n → c ∈ (nextFrames (e.Append c) n).GetReadyToEvict) ∧
    e.NextFrame.mappings.flatten = e.mappings.flatten ∧
    (∀ a ∈ e.GetReadyToEvict, a ∈ e.NextFrame.GetReadyToEvict) ∧
    (nextFrames ((ringOfDepth 3).Append ⟨0, 0, 0⟩) 0).GetReadyToEvict = [] ∧
    (nextFrames ((ringOfDepth 3).Append ⟨0, 0, 0⟩) 1).GetReadyToEvict = [] ∧
    (nextFrames ((ringOfDepth 3).Append ⟨0, 0, 0⟩) 2).GetReadyToEvict = [⟨0, 0, 0⟩] := by
  have hflat := nextFrame_flatten e hd
  have hmono := nextFrame_ready_mono e hd
  obtain ⟨l⟩ := e
  rcases l with _ | ⟨b₀, rest⟩
  · simp at hd
  have hrest : rest.length ≠ 0 := by
    simp only [List.length_cons] at hd
    omega
  have happ : (EvictionDelay.Append ⟨b₀ :: rest⟩ c) = ⟨[] ++ [b₀ ++ [c]] ++ rest⟩ := by
    simp [EvictionDelay.Append]
  refine ⟨?_, ?_, hflat, hmono, by decide, by decide, by decide⟩
  · -- absent while younger buckets remain ahead
    intro hn hmem
    obtain ⟨hl, _⟩ := ring_progress (b₀ ++ [c]) n rest []
    have hn' : n < rest.length := by
      simp only [List.length_cons] at hn
      omega
    obtain ⟨Z', T', heq, hne, hsub⟩ := hl hn'
    rcases List.eq_nil_or_concat' T' with rfl | ⟨T'', t, rfl⟩
    · exact hne rfl
    rw [happ] at hmem
    unfold EvictionDelay.GetReadyToEvict at hmem
    rw [heq] at hmem
    have hg : (Z' ++ [b₀ ++ [c]] ++ (T'' ++ [t])).getLastD [] = t := by
      rw [show Z' ++ [b₀ ++ [c]] ++ (T'' ++ [t]) =
        (Z' ++ [b₀ ++ [c]] ++ T'') ++ [t] by simp]
      exact List.getLastD_concat ..
    rw [hg] at hmem
    have hin : c ∈ rest.flatten :=
      hsub c (List.mem_flatten.mpr ⟨t, by simp, hmem⟩)
    apply hfresh
    simp only [List.flatten_cons, List.mem_append]
    exact Or.inr hin
  · -- present from frame F − 1 on
    intro hn
    obtain ⟨_, hr⟩ := ring_progress (b₀ ++ [c]) rest.length rest []
    obtain ⟨Z', g, heq, _⟩ := hr rfl
    have hbase : c ∈ (nextFrames ⟨[] ++ [b₀ ++ [c]] ++ rest⟩ rest.length).GetReadyToEvict := by
      unfold EvictionDelay.GetReadyToEvict
      rw [heq, List.getLastD_concat]
      simp
    have hd2 : 2 ≤ (nextFrames ⟨[] ++ [b₀ ++ [c]] ++ rest⟩ rest.length).mappings.length := by
      rw [nextFrames_length]
      · simp only [List.nil_append, List.length_append, List.length_cons]
        omega
      · simp only [List.nil_append, List.length_append, List.length_cons]
        omega
    have hper := ready_persists _ hd2 c hbase (n - rest.length)
    rw [← nextFrames_add] at hper
    rw [happ]
    have hsum : rest.length + (n - rest.length) = n := by
      simp only [List.length_cons] at hn
      omega
    rwa [hsum] at hper

/-- witness for C6's theorem at a concrete depth-3 ring with a fresh coord. -/
theorem C6_eviction_delay_ring_witness :
    (2 ≤ (ringOfDepth 3).mappings.length ∧
      (⟨1, 2, 0⟩ : Coord) ∉ (ringOfDepth 3).mappings.flatten) ∧
    ((1 < (ringOfDepth 3).mappings.length - 1 →
      (⟨1, 2, 0⟩ : Coord) ∉
        (nextFrames ((ringOfDepth 3).Append ⟨1, 2, 0⟩) 1).GetReadyToEvict) ∧
    ((ringOfDepth 3).mappings.length - 1 ≤ 1 →
      (⟨1, 2, 0⟩ : Coord) ∈
        (nextFrames ((ringOfDepth 3).Append ⟨1, 2, 0⟩) 1).GetReadyToEvict) ∧
    (ringOfDepth 3).NextFrame.mappings.flatten = (ringOfDepth 3).mappings.flatten ∧
    (∀ a ∈ (ringOfDepth 3).GetReadyToEvict,
      a ∈ (ringOfDepth 3).NextFrame.GetReadyToEvict) ∧
    (nextFrames ((ringOfDepth 3).Append ⟨0, 0, 0⟩) 0).GetReadyToEvict = [] ∧
    (nextFrames ((ringOfDepth 3).Append ⟨0, 0, 0⟩) 1).GetReadyToEvict = [] ∧
    (nextFrames ((ringOfDepth 3).Append ⟨0, 0, 0⟩) 2).GetReadyToEvict = [⟨0, 0, 0⟩]) :=
  ⟨⟨by decide, by decide⟩,
    C6_eviction_delay_ring (ringOfDepth 3) ⟨1, 2, 0⟩ 1 (by decide) (by decide)⟩

/-- the add loop of SetMinMip is the fold of AddTileRef over the levels
c−1 down to d, in that (coarse-to-fine) order. -/
theorem addRefLoop_eq_foldl (x y d : Nat) (st : ResourceState) (c : Nat) :
    ResourceState.addRefLoop x y d st c =
      ((List.range' d (c - d)).reverse).foldl
        (fun st s => st.AddTileRef (x >>> s) (y >>> s) s) st := by
  induction c generalizing st with
  | zero => simp [ResourceState.addRefLoop]
  | succ c ih =>
    simp only [ResourceState.addRefLoop]
    by_cases h : d ≤ c
    · rw [if_pos h, ih, show c + 1 - d = (c - d) + 1 by omega, List.range'_1_concat,
        show d + (c - d) = c by omega]
      simp
    · rw [if_neg h, show c + 1 - d = 0 by omega]
      simp

/-- the dec loop of SetMinMip is the fold of DecTileRef over the levels s
up to s+n−1, in that (fine-to-coarse) order. -/
theorem decRefLoop_eq_foldl (x y : Nat) (st : ResourceState) (s n : Nat) :
    ResourceState.decRefLoop x y st s n =
      (List.range' s n).foldl
        (fun st k => st.DecTileRef (x >>> k) (y >>> k) k) st := by
  induction n generalizing s st with
  | zero => rfl
  | succ n ih =>
    rw [List.range'_succ]
    exact ih (st.DecTileRef (x >>> s) (y >>> s) s) (s + 1)

/-- C3: SetMinMip with current c and desired d walks AddTileRef over the
covering tiles from level c−1 down to level d when d < c (coarse→fine),
and DecTileRef from level c up to level d−1 otherwise (fine→coarse);
AddTileRef appends the coord to pending_loads exactly when its refcount
was 0 and then increments the refcount.  In scenario S1 (4×4 grid, all
tile references 4 = M, feedback 0 at region (0,0)), one ProcessFeedback
pass leaves pending_loads = [(0,0,3), (0,0,2), (0,0,1), (0,0,0)] and
refcount(0,0,s) = 1 for s < 4. -/
theorem C3_set_min_mip_order (st : ResourceState) (c d x y s : Nat) :
    (st.SetMinMip c x y d =
      if d < c then
        ((List.range' d (c - d)).reverse).foldl
          (fun st k => st.AddTileRef (x >>> k) (y >>> k) k) st
      else
        (List.range' c (d - c)).foldl
          (fun st k => st.DecTileRef (x >>> k) (y >>> k) k) st) ∧
    ((st.AddTileRef x y s).pendingTileLoads =
      st.pendingTileLoads ++
        (if st.tms.GetRefCount x y s = 0 then [⟨x, y, s⟩] else [])) ∧
    ((st.AddTileRef x y s).tms.GetRefCount x y s = st.tms.GetRefCount x y s + 1) ∧
    ((stS1.ProcessFeedback 1 resolvedS1).pendingTileLoads =
      [⟨0, 0, 3⟩, ⟨0, 0, 2⟩, ⟨0, 0, 1⟩, ⟨0, 0, 0⟩]) ∧
    (∀ s' < 4, (stS1.ProcessFeedback 1 resolvedS1).tms.GetRefCount 0 0 s' = 1) := by
  refine ⟨?_, ?_, ?_, by decide, by decide⟩
  · unfold ResourceState.SetMinMip
    by_cases h : d < c
    · rw [if_pos h, addRefLoop_eq_foldl, show min c d = d by omega,
        show d - d = 0 by omega]
      rfl
    · rw [if_neg h, addRefLoop_eq_foldl, show c - d = 0 by omega,
        show min c d = c by omega]
      simp only [List.range', List.reverse_nil, List.foldl_nil]
      exact decRefLoop_eq_foldl x y st c (d - c)
  · unfold ResourceState.AddTileRef
    by_cases h : st.tms.GetRefCount x y s = 0 <;> simp [h]
  · unfold ResourceState.AddTileRef
    by_cases h : st.tms.GetRefCount x y s = 0 <;>
      simp [h, TileMappingState.SetRefCount, TileMappingState.GetRefCount, upd3]

/-- zeroStep leaves a zero refcount at zero. -/
theorem zeroStep_preserves_zero (acc : ResourceState × Bool) (c a : Coord)
    (h : acc.1.tms.GetRefCountC c = 0) :
    (zeroStep acc a).1.tms.GetRefCountC c = 0 := by
  simp only [zeroStep]
  split
  · simp only [TileMappingState.SetRefCount, TileMappingState.GetRefCountC, upd3]
    split
    · rfl
    · exact h
  · exact h

/-- zeroStep zeroes the refcount of the tile it examines. -/
theorem zeroStep_self (acc : ResourceState × Bool) (a : Coord) :
    (zeroStep acc a).1.tms.GetRefCountC a = 0 := by
  simp only [zeroStep]
  split
  · simp [TileMappingState.SetRefCount, TileMappingState.GetRefCountC, upd3]
  · next h =>
    simp only [ne_eq, Decidable.not_not] at h
    exact h

/-- zeroStep does not change the refcount of any other tile. -/
theorem zeroStep_other (acc : ResourceState × Bool) (a c : Coord) (h : c ≠ a) :
    (zeroStep acc a).1.tms.GetRefCountC c = acc.1.tms.GetRefCountC c := by
  simp only [zeroStep]
  split
  · simp only [TileMappingState.SetRefCount, TileMappingState.GetRefCountC, upd3]
    split
    · next he =>
      exact absurd (by cases c; cases a; simp_all) h
    · rfl
  · rfl

/-- the zero-refcount fold keeps zero refcounts at zero. -/
theorem zeroFold_preserves_zero (L : List Coord) (acc : ResourceState × Bool)
    (c : Coord) (h : acc.1.tms.GetRefCountC c = 0) :
    (L.foldl zeroStep acc).1.tms.GetRefCountC c = 0 := by
  induction L generalizing acc with
  | nil => exact h
  | cons a L ih => exact ih (zeroStep acc a) (zeroStep_preserves_zero acc c a h)

/-- after the zero-refcount fold, every examined tile has refcount 0. -/
theorem zeroFold_refcount (L : List Coord) (acc : ResourceState × Bool) :
    ∀ c ∈ L, (L.foldl zeroStep acc).1.tms.GetRefCountC c = 0 := by
  induction L generalizing acc with
  | nil => simp
  | cons a L ih =>
    intro c hc
    rw [List.foldl_cons]
    rcases List.mem_cons.mp hc with rfl | hc
    · exact zeroFold_preserves_zero L (zeroStep acc c) c (zeroStep_self acc c)
    · exact ih (zeroStep acc a) c hc

/-- the zero-refcount fold touches only the refcounts, the eviction ring
and the changed flag. -/
theorem zeroFold_untouched (L : List Coord) (acc : ResourceState × Bool) :
    let r := L.foldl zeroStep acc
    r.1.tms.numSubresources = acc.1.tms.numSubresources ∧
    r.1.tms.width = acc.1.tms.width ∧
    r.1.tms.height = acc.1.tms.height ∧
    r.1.tms.resident = acc.1.tms.resident ∧
    r.1.tms.heapIndices = acc.1.tms.heapIndices ∧
    r.1.pendingTileLoads = acc.1.pendingTileLoads ∧
    r.1.tileReferences = acc.1.tileReferences ∧
    r.1.tileReferencesWidth = acc.1.tileReferencesWidth ∧
    r.1.tileReferencesHeight = acc.1.tileReferencesHeight ∧
    r.1.queuedFeedback = acc.1.queuedFeedback ∧
    r.1.setZeroRefCounts = acc.1.setZeroRefCounts ∧
    r.1.refCountsZero = acc.1.refCountsZero ∧
    r.1.tileResidencyChanged = acc.1.tileResidencyChanged ∧
    r.1.minMipMap = acc.1.minMipMap := by
  induction L generalizing acc with
  | nil => exact ⟨rfl, rfl, rfl, rfl, rfl, rfl, rfl, rfl, rfl, rfl, rfl, rfl, rfl, rfl⟩
  | cons a L ih =>
    have step : (zeroStep acc a).1.tms.numSubresources = acc.1.tms.numSubresources ∧
        (zeroStep acc a).1.tms.width = acc.1.tms.width ∧
        (zeroStep acc a).1.tms.height = acc.1.tms.height ∧
        (zeroStep acc a).1.tms.resident = acc.1.tms.resident ∧
        (zeroStep acc a).1.tms.heapIndices = acc.1.tms.heapIndices ∧
        (zeroStep acc a).1.pendingTileLoads = acc.1.pendingTileLoads ∧
        (zeroStep acc a).1.tileReferences = acc.1.tileReferences ∧
        (zeroStep acc a).1.tileReferencesWidth = acc.1.tileReferencesWidth ∧
        (zeroStep acc a).1.tileReferencesHeight = acc.1.tileReferencesHeight ∧
        (zeroStep acc a).1.queuedFeedback = acc.1.queuedFeedback ∧
        (zeroStep acc a).1.setZeroRefCounts = acc.1.setZeroRefCounts ∧
        (zeroStep acc a).1.refCountsZero = acc.1.refCountsZero ∧
        (zeroStep acc a).1.tileResidencyChanged = acc.1.tileResidencyChanged ∧
        (zeroStep acc a).1.minMipMap = acc.1.minMipMap := by
      simp only [zeroStep]
      split
      · exact ⟨rfl, rfl, rfl, rfl, rfl, rfl, rfl, rfl, rfl, rfl, rfl, rfl, rfl, rfl⟩
      · exact ⟨rfl, rfl, rfl, rfl, rfl, rfl, rfl, rfl, rfl, rfl, rfl, rfl, rfl, rfl⟩
    have rest := ih (zeroStep acc a)
    rw [List.foldl_cons]
    exact ⟨rest.1.trans step.1, rest.2.1.trans step.2.1, rest.2.2.1.trans step.2.2.1,
      rest.2.2.2.1.trans step.2.2.2.1, rest.2.2.2.2.1.trans step.2.2.2.2.1,
      rest.2.2.2.2.2.1.trans step.2.2.2.2.2.1,
      rest.2.2.2.2.2.2.1.trans step.2.2.2.2.2.2.1,
      rest.2.2.2.2.2.2.2.1.trans step.2.2.2.2.2.2.2.1,
      rest.2.2.2.2.2.2.2.2.1.trans step.2.2.2.2.2.2.2.2.1,
      rest.2.2.2.2.2.2.2.2.2.1.trans step.2.2.2.2.2.2.2.2.2.1,
      rest.2.2.2.2.2.2.2.2.2.2.1.trans step.2.2.2.2.2.2.2.2.2.2.1,
      rest.2.2.2.2.2.2.2.2.2.2.2.1.trans step.2.2.2.2.2.2.2.2.2.2.2.1,
      rest.2.2.2.2.2.2.2.2.2.2.2.2.1.trans step.2.2.2.2.2.2.2.2.2.2.2.2.1,
      rest.2.2.2.2.2.2.2.2.2.2.2.2.2.trans step.2.2.2.2.2.2.2.2.2.2.2.2.2⟩

/-- the zero-refcount fold appends exactly the tiles with nonzero refcount
(in scan order) to the ring and reports whether there was any. -/
theorem zeroFold_evictions (L : List Coord) (acc : ResourceState × Bool)
    (hnd : L.Nodup) :
    (L.foldl zeroStep acc).1.pendingEvictions =
      (L.filter fun c => acc.1.tms.GetRefCountC c != 0).foldl
        EvictionDelay.Append acc.1.pendingEvictions ∧
    (L.foldl zeroStep acc).2 =
      (acc.2 || !(L.filter fun c => acc.1.tms.GetRefCountC c != 0).isEmpty) := by
  induction L generalizing acc with
  | nil => simp
  | cons a L ih =>
    have hnd' : L.Nodup := hnd.of_cons
    have hna : a ∉ L := (List.nodup_cons.mp hnd).1
    have hcongr : ∀ c ∈ L,
        ((zeroStep acc a).1.tms.GetRefCountC c != 0) =
          (acc.1.tms.GetRefCountC c != 0) := by
      intro c hc
      rw [zeroStep_other acc a c (fun he => hna (he ▸ hc))]
    obtain ⟨ihe, ihc⟩ := ih (zeroStep acc a) hnd'
    rw [List.foldl_cons, List.filter_cons]
    by_cases h : acc.1.tms.GetRefCountC a ≠ 0
    · have hstep : (zeroStep acc a).1.pendingEvictions =
          acc.1.pendingEvictions.Append a ∧ (zeroStep acc a).2 = true := by
        simp only [zeroStep]
        rw [if_pos h]
        exact ⟨rfl, rfl⟩
      rw [if_pos (by simpa using h)]
      constructor
      · rw [ihe, List.filter_congr hcongr, List.foldl_cons, hstep.1]
      · rw [ihc, List.filter_congr hcongr, hstep.2]
        simp
    · have hstep : zeroStep acc a = acc := by
        simp only [zeroStep]
        rw [if_neg h]
      rw [if_neg (by simpa using h)]
      constructor
      · rw [ihe, List.filter_congr hcongr, hstep]
      · rw [ihc, List.filter_congr hcongr, hstep]

/-- appending a batch of coords to the ring extends bucket 0 in order. -/
theorem foldl_append_ring (b : List Coord) (rest : List (List Coord))
    (cs : List Coord) :
    cs.foldl EvictionDelay.Append ⟨b :: rest⟩ = ⟨(b ++ cs) :: rest⟩ := by
  induction cs generalizing b with
  | nil => simp
  | cons c cs ih =>
    rw [List.foldl_cons, show EvictionDelay.Append ⟨b :: rest⟩ c =
      ⟨(b ++ [c]) :: rest⟩ from rfl, ih]
    simp

/-- C8 counterexample: a tile that is Resident but has refcount 0 (its
eviction is already pending) is NOT appended to bucket 0 by the evict-all
path — the loop queues tiles by nonzero refcount, not by residency. -/
theorem C8_process_feedback_zero_counterexample :
    stC8.setZeroRefCounts = true ∧
    stC8.refCountsZero = false ∧
    stC8.tms.GetResident 0 0 0 = true ∧
    (stC8.ProcessFeedback 0 fun _ _ _ => 0).pendingEvictions.mappings.headD [] = [] := by
  exact ⟨by decide, by decide, by decide, by decide⟩

/-- C8 (amended): the evict-all path sets every tile reference to M, zeroes
every refcount, appends exactly the tiles whose refcount was nonzero (in
scan order) to ring bucket 0, empties pending_loads, clears every queued
feedback flag, marks residency-changed exactly when some refcount was
nonzero, and returns without consuming feedback.  In scenario S6 (three
tiles resident with references held), one pass puts all three in bucket 0,
zeroes their refcounts, empties pending_loads and sets residency-changed. -/
theorem C8_process_feedback_zero_amended (st : ResourceState) (frameFence : Nat)
    (resolved : Nat → Nat → Nat → Nat)
    (hset : st.setZeroRefCounts = true) (hz : st.refCountsZero = false)
    (hnd : (allTileCoords st.tms).Nodup) (b0 : List Coord)
    (rest : List (List Coord))
    (hr : st.pendingEvictions.mappings = b0 :: rest) :
    (∀ u v, (st.ProcessFeedback frameFence resolved).tileReferences u v =
      st.tms.numSubresources) ∧
    (∀ c ∈ allTileCoords st.tms,
      (st.ProcessFeedback frameFence resolved).tms.GetRefCountC c = 0) ∧
    ((st.ProcessFeedback frameFence resolved).pendingEvictions.mappings =
      (b0 ++ ((allTileCoords st.tms).filter fun c => st.tms.GetRefCountC c != 0))
        :: rest) ∧
    (st.ProcessFeedback frameFence resolved).pendingTileLoads = [] ∧
    (∀ f ∈ (st.ProcessFeedback frameFence resolved).queuedFeedback, f.1 = false) ∧
    ((st.ProcessFeedback frameFence resolved).tileResidencyChanged =
      (st.tileResidencyChanged ||
        !((allTileCoords st.tms).filter fun c => st.tms.GetRefCountC c != 0).isEmpty)) ∧
    (st.ProcessFeedback frameFence resolved).setZeroRefCounts = false ∧
    (st.ProcessFeedback frameFence resolved).refCountsZero = true ∧
    (st.ProcessFeedback frameFence resolved).tms.resident = st.tms.resident ∧
    (st.ProcessFeedback frameFence resolved).tms.heapIndices = st.tms.heapIndices ∧
    ((stS6.ProcessFeedback 0 fun _ _ _ => 0).pendingEvictions.mappings.headD [] =
      [⟨0, 0, 0⟩, ⟨1, 0, 0⟩, ⟨0, 1, 0⟩]) ∧
    (∀ c ∈ allTileCoords stS6.tms,
      (stS6.ProcessFeedback 0 fun _ _ _ => 0).tms.GetRefCountC c = 0) ∧
    (stS6.ProcessFeedback 0 fun _ _ _ => 0).pendingTileLoads = [] ∧
    (stS6.ProcessFeedback 0 fun _ _ _ => 0).tileResidencyChanged = true := by
  unfold ResourceState.ProcessFeedback
  rw [hset, hz]
  simp only [if_true, Bool.false_eq_true, if_false]
  set st4 : ResourceState :=
    { st with
      setZeroRefCounts := false,
      refCountsZero := true,
      queuedFeedback := st.queuedFeedback.map fun (f : Bool × Nat) => (false, f.2),
      tileReferences := fun _ _ => st.tms.numSubresources } with hst4
  have htms4 : st4.tms = st.tms := rfl
  have hu := zeroFold_untouched (allTileCoords st.tms) (st4, false)
  have hrc := zeroFold_refcount (allTileCoords st.tms) (st4, false)
  have hev := zeroFold_evictions (allTileCoords st.tms) (st4, false) hnd
  set r := (allTileCoords st.tms).foldl zeroStep (st4, false) with hrdef
  have hfilter : ((allTileCoords st.tms).filter
      fun c => (st4, false).1.tms.GetRefCountC c != 0) =
      ((allTileCoords st.tms).filter fun c => st.tms.GetRefCountC c != 0) := rfl
  rw [hfilter] at hev
  refine ⟨?_, ?_, ?_, ?_, ?_, ?_, ?_, ?_, ?_, ?_, by decide, by decide, by decide,
    by decide⟩
  · intro u v
    have h1 : r.1.tileReferences = st4.tileReferences := hu.2.2.2.2.2.2.1
    split <;>
      simp [ResourceState.SetResidencyChanged, h1, hst4]
  · intro c hc
    have h := hrc c hc
    split <;>
      simpa [ResourceState.SetResidencyChanged] using h
  · have h1 : r.1.pendingEvictions =
        ((allTileCoords st.tms).filter fun c => st.tms.GetRefCountC c != 0).foldl
          EvictionDelay.Append st.pendingEvictions := hev.1
    have h2 : st.pendingEvictions = ⟨b0 :: rest⟩ := by
      cases hpe : st.pendingEvictions
      simp_all
    rw [h2, foldl_append_ring] at h1
    split <;>
      simp [ResourceState.SetResidencyChanged, h1]
  · split <;> rfl
  · intro f hf
    have h1 : r.1.queuedFeedback = st4.queuedFeedback := hu.2.2.2.2.2.2.2.2.2.1
    have hf' : f ∈ st4.queuedFeedback := by
      revert hf
      split <;>
        simpa [ResourceState.SetResidencyChanged, h1]
    obtain ⟨g, _, rfl⟩ := List.mem_map.mp hf'
    rfl
  · have h1 : r.1.tileResidencyChanged = st4.tileResidencyChanged :=
      hu.2.2.2.2.2.2.2.2.2.2.2.2.1
    have h2 : r.2 = !((allTileCoords st.tms).filter
        fun c => st.tms.GetRefCountC c != 0).isEmpty := by
      rw [hev.2]
      simp
    split
    · next hb =>
      rw [h2] at hb
      simp [ResourceState.SetResidencyChanged, hb]
    · next hb =>
      rw [h2] at hb
      simp only [Bool.not_eq_true] at hb
      simp [ResourceState.SetResidencyChanged, h1, hst4, hb]
  · have h1 : r.1.setZeroRefCounts = st4.setZeroRefCounts := hu.2.2.2.2.2.2.2.2.2.2.1
    split <;> simp [ResourceState.SetResidencyChanged, h1, hst4]
  · have h1 : r.1.refCountsZero = st4.refCountsZero := hu.2.2.2.2.2.2.2.2.2.2.2.1
    split <;> simp [ResourceState.SetResidencyChanged, h1, hst4]
  · have h1 : r.1.tms.resident = st4.tms.resident := hu.2.2.2.1
    split <;> simp [ResourceState.SetResidencyChanged, h1, hst4]
  · have h1 : r.1.tms.heapIndices = st4.tms.heapIndices := hu.2.2.2.2.1
    split <;> simp [ResourceState.SetResidencyChanged, h1, hst4]

/-- witness for C8's amended theorem at the concrete scenario state stS6. -/
theorem C8_process_feedback_zero_amended_witness :
    (stS6.setZeroRefCounts = true ∧ stS6.refCountsZero = false ∧
      (allTileCoords stS6.tms).Nodup ∧
      stS6.pendingEvictions.mappings = [] :: [[], []]) ∧
    ((∀ u v, (stS6.ProcessFeedback 9 fun _ _ _ => 0).tileReferences u v =
      stS6.tms.numSubresources) ∧
    (∀ c ∈ allTileCoords stS6.tms,
      (stS6.ProcessFeedback 9 fun _ _ _ => 0).tms.GetRefCountC c = 0) ∧
    ((stS6.ProcessFeedback 9 fun _ _ _ => 0).pendingEvictions.mappings =
      ([] ++ ((allTileCoords stS6.tms).filter
        fun c => stS6.tms.GetRefCountC c != 0)) :: [[], []]) ∧
    (stS6.ProcessFeedback 9 fun _ _ _ => 0).pendingTileLoads = [] ∧
    (∀ f ∈ (stS6.ProcessFeedback 9 fun _ _ _ => 0).queuedFeedback, f.1 = false) ∧
    ((stS6.ProcessFeedback 9 fun _ _ _ => 0).tileResidencyChanged =
      (stS6.tileResidencyChanged ||
        !((allTileCoords stS6.tms).filter
          fun c => stS6.tms.GetRefCountC c != 0).isEmpty)) ∧
    (stS6.ProcessFeedback 9 fun _ _ _ => 0).setZeroRefCounts = false ∧
    (stS6.ProcessFeedback 9 fun _ _ _ => 0).refCountsZero = true ∧
    (stS6.ProcessFeedback 9 fun _ _ _ => 0).tms.resident = stS6.tms.resident ∧
    (stS6.ProcessFeedback 9 fun _ _ _ => 0).tms.heapIndices = stS6.tms.heapIndices ∧
    ((stS6.ProcessFeedback 0 fun _ _ _ => 0).pendingEvictions.mappings.headD [] =
      [⟨0, 0, 0⟩, ⟨1, 0, 0⟩, ⟨0, 1, 0⟩]) ∧
    (∀ c ∈ allTileCoords stS6.tms,
      (stS6.ProcessFeedback 0 fun _ _ _ => 0).tms.GetRefCountC c = 0) ∧
    (stS6.ProcessFeedback 0 fun _ _ _ => 0).pendingTileLoads = [] ∧
    (stS6.ProcessFeedback 0 fun _ _ _ => 0).tileResidencyChanged = true) :=
  ⟨⟨by decide, by decide, by decide, by decide⟩,
    C8_process_feedback_zero_amended stS6 9 (fun _ _ _ => 0) (by decide) (by decide)
      (by decide) [] [[], []] (by decide)⟩

/-- rotating a list is a permutation. -/
theorem rotl_perm {α : Type} (S : List α) : (rotl S).Perm S := by
  cases S with
  | nil => exact List.Perm.refl []
  | cons a t =>
    show (t ++ [a]).Perm (a :: t)
    exact List.perm_append_singleton a t

/-- the Rescue loop keeps exactly the coords whose refcount is 0, as a
multiset with the survivors accumulated in front. -/
theorem rescueLoop_perm (rc : Coord → Nat) :
    ∀ (l S : List Coord),
      (rescueLoop rc S l).Perm (S ++ l.filter fun c => rc c == 0) := by
  intro l
  induction l with
  | nil => simp [rescueLoop]
  | cons c rest ih =>
    intro S
    rw [rescueLoop, List.filter_cons]
    by_cases h : rc c ≠ 0
    · rw [if_pos h, if_neg (by simpa using h)]
      exact (ih (rotl S)).trans (((rotl_perm S).append_right _))
    · rw [if_neg h, if_pos (by simpa using h)]
      refine (ih (S ++ [c])).trans ?_
      rw [List.append_assoc]
      exact List.Perm.refl _

/-- every survivor of the Rescue loop has refcount 0. -/
theorem rescueLoop_mem (rc : Coord → Nat) (l : List Coord) (c : Coord)
    (hc : c ∈ rescueLoop rc [] l) : rc c = 0 := by
  have h := (rescueLoop_perm rc l []).mem_iff.mp hc
  rw [List.nil_append] at h
  simpa using List.of_mem_filter h

/-- the AbandonPending loop keeps exactly the coords with nonzero refcount,
as a multiset (the swap-removal reorders but drops and keeps precisely by
the refcount test). -/
theorem abandonLoop_perm (rc : Coord → Nat) :
    ∀ (fuel : Nat) (l : List Coord), l.length ≤ fuel →
      (abandonLoop rc fuel l).Perm (l.filter fun c => rc c != 0) := by
  intro fuel
  induction fuel with
  | zero =>
    intro l hl
    have : l = [] := List.eq_nil_of_length_eq_zero (by omega)
    subst this
    simp [abandonLoop]
  | succ fuel ih =>
    intro l hl
    cases l with
    | nil => simp [abandonLoop]
    | cons c ws =>
      rw [abandonLoop, List.filter_cons]
      by_cases h : rc c ≠ 0
      · rw [if_pos h, if_pos (by simpa using h)]
        exact (ih ws (by simpa using hl)).cons c
      · rw [if_neg h, if_neg (by simpa using h)]
        cases hlast : ws.getLast? with
        | none =>
          have : ws = [] := by
            cases ws with
            | nil => rfl
            | cons w ws' => simp [List.getLast?_concat] at hlast
          subst this
          simp
        | some w =>
          have hne : ws ≠ [] := by
            rintro rfl
            simp at hlast
          have hws : ws.dropLast ++ [w] = ws := by
            have h1 := List.dropLast_append_getLast hne
            have h2 := List.getLast?_eq_getLast ws hne
            rw [hlast] at h2
            rw [← Option.some_inj.mp h2] at h1
            exact h1
          have hlen : (w :: ws.dropLast).length ≤ fuel := by
            have := List.length_pos.mpr hne
            simp only [List.length_cons, List.length_dropLast] at *
            omega
          refine (ih (w :: ws.dropLast) hlen).trans ?_
          have hperm : (w :: ws.dropLast).Perm ws := by
            conv_rhs => rw [← hws]
            exact (List.perm_append_singleton w ws.dropLast).symm
          exact hperm.filter _

/-- every coord kept by the AbandonPending loop has nonzero refcount. -/
theorem abandonLoop_mem (rc : Coord → Nat) (l : List Coord) (c : Coord)
    (hc : c ∈ abandonLoop rc l.length l) : rc c ≠ 0 := by
  have h := (abandonLoop_perm rc l.length l (Nat.le_refl _)).mem_iff.mp hc
  simpa using List.of_mem_filter h

/-- shape of the feedback-consuming branch of ProcessFeedback: the final
pending loads are the AbandonPending filter of the post-loop loads, the
mapping state is the post-loop one, and every ring bucket went through the
Rescue loop against it. -/
theorem processFeedback_feedback_shape (st : ResourceState) (frameFence : Nat)
    (resolved : Nat → Nat → Nat → Nat)
    (hz : st.setZeroRefCounts = false)
    (hpick : (pickFeedbackGo frameFence 0 0 0 st.queuedFeedback).1 ≠ 0) :
    ∃ r : ResourceState × Bool,
      r = feedbackLoop
            (resolved ((pickFeedbackGo frameFence 0 0 0 st.queuedFeedback).1 - 1))
            { st with
              queuedFeedback :=
                (pickFeedbackGo frameFence 0 0 0 st.queuedFeedback).2.2 } false ∧
      (st.ProcessFeedback frameFence resolved).pendingTileLoads =
        abandonLoop r.1.tms.GetRefCountC r.1.pendingTileLoads.length
          r.1.pendingTileLoads ∧
      (st.ProcessFeedback frameFence resolved).tms = r.1.tms ∧
      (st.ProcessFeedback frameFence resolved).pendingEvictions.mappings =
        r.1.pendingEvictions.mappings.map
          fun b => rescueLoop r.1.tms.GetRefCountC [] b := by
  unfold ResourceState.ProcessFeedback
  rw [hz]
  simp only [Bool.false_eq_true, if_false]
  rw [if_neg hpick]
  refine ⟨_, rfl, ?_, ?_, ?_⟩ <;>
    split <;>
      rfl

/-- C7: after a feedback-consuming ProcessFeedback pass, every coord left
in pending_loads has positive refcount, every coord left in any ring bucket
has refcount 0, and no coord is in both; AbandonPending keeps exactly the
positive-refcount coords of pending_loads as a multiset (order not
preserved), and the Rescue loop keeps exactly the refcount-0 coords of each
bucket as a multiset. -/
theorem C7_process_feedback_separation (st : ResourceState) (frameFence : Nat)
    (resolved : Nat → Nat → Nat → Nat)
    (hz : st.setZeroRefCounts = false)
    (hpick : (pickFeedbackGo frameFence 0 0 0 st.queuedFeedback).1 ≠ 0) :
    (∀ c ∈ (st.ProcessFeedback frameFence resolved).pendingTileLoads,
      0 < (st.ProcessFeedback frameFence resolved).tms.GetRefCountC c) ∧
    (∀ b ∈ (st.ProcessFeedback frameFence resolved).pendingEvictions.mappings,
      ∀ c ∈ b, (st.ProcessFeedback frameFence resolved).tms.GetRefCountC c = 0) ∧
    (∀ c, ¬(c ∈ (st.ProcessFeedback frameFence resolved).pendingTileLoads ∧
      ∃ b ∈ (st.ProcessFeedback frameFence resolved).pendingEvictions.mappings,
        c ∈ b)) ∧
    (∀ stX : ResourceState, stX.AbandonPending.pendingTileLoads.Perm
      (stX.pendingTileLoads.filter fun c => stX.tms.GetRefCountC c != 0)) ∧
    (∀ (e : EvictionDelay) (t : TileMappingState),
      (e.Rescue t).mappings =
        e.mappings.map fun b => rescueLoop t.GetRefCountC [] b) ∧
    (∀ (t : TileMappingState) (b : List Coord),
      (rescueLoop t.GetRefCountC [] b).Perm
        (b.filter fun c => t.GetRefCountC c == 0)) := by
  obtain ⟨r, _, hloads, htms, hring⟩ :=
    processFeedback_feedback_shape st frameFence resolved hz hpick
  have ha : ∀ c ∈ (st.ProcessFeedback frameFence resolved).pendingTileLoads,
      0 < (st.ProcessFeedback frameFence resolved).tms.GetRefCountC c := by
    intro c hc
    rw [hloads] at hc
    rw [htms]
    exact Nat.pos_of_ne_zero (abandonLoop_mem _ _ _ hc)
  have hb : ∀ b ∈ (st.ProcessFeedback frameFence resolved).pendingEvictions.mappings,
      ∀ c ∈ b, (st.ProcessFeedback frameFence resolved).tms.GetRefCountC c = 0 := by
    intro b hbm c hc
    rw [hring] at hbm
    obtain ⟨b₀, _, rfl⟩ := List.mem_map.mp hbm
    rw [htms]
    exact rescueLoop_mem _ _ _ hc
  refine ⟨ha, hb, ?_, ?_, fun _ _ => rfl, fun t b => rescueLoop_perm _ b []⟩
  · rintro c ⟨hc1, b, hbm, hc2⟩
    have h1 := ha c hc1
    have h2 := hb b hbm c hc2
    omega
  · intro stX
    exact abandonLoop_perm _ _ _ (Nat.le_refl _)

/-- witness for C7's theorem at the concrete scenario state stS1. -/
theorem C7_process_feedback_separation_witness :
    (stS1.setZeroRefCounts = false ∧
      (pickFeedbackGo 1 0 0 0 stS1.queuedFeedback).1 ≠ 0) ∧
    ((∀ c ∈ (stS1.ProcessFeedback 1 resolvedS1).pendingTileLoads,
      0 < (stS1.ProcessFeedback 1 resolvedS1).tms.GetRefCountC c) ∧
    (∀ b ∈ (stS1.ProcessFeedback 1 resolvedS1).pendingEvictions.mappings,
      ∀ c ∈ b, (stS1.ProcessFeedback 1 resolvedS1).tms.GetRefCountC c = 0) ∧
    (∀ c, ¬(c ∈ (stS1.ProcessFeedback 1 resolvedS1).pendingTileLoads ∧
      ∃ b ∈ (stS1.ProcessFeedback 1 resolvedS1).pendingEvictions.mappings,
        c ∈ b)) ∧
    (∀ stX : ResourceState, stX.AbandonPending.pendingTileLoads.Perm
      (stX.pendingTileLoads.filter fun c => stX.tms.GetRefCountC c != 0)) ∧
    (∀ (e : EvictionDelay) (t : TileMappingState),
      (e.Rescue t).mappings =
        e.mappings.map fun b => rescueLoop t.GetRefCountC [] b) ∧
    (∀ (t : TileMappingState) (b : List Coord),
      (rescueLoop t.GetRefCountC [] b).Perm
        (b.filter fun c => t.GetRefCountC c == 0))) :=
  ⟨⟨by decide, by decide⟩,
    C7_process_feedback_separation stS1 1 resolvedS1 (by decide) (by decide)⟩

/-- reading a point update at the written cell. -/
theorem upd3_self {α : Type} (f : Nat → Nat → Nat → α) (x y s : Nat) (v : α) :
    upd3 f x y s v x y s = v := by
  simp [upd3]

/-- reading a point update away from the written cell. -/
theorem upd3_other {α : Type} (f : Nat → Nat → Nat → α) (x y s : Nat) (v : α)
    (x' y' s' : Nat) (h : ¬(x' = x ∧ y' = y ∧ s' = s)) :
    upd3 f x y s v x' y' s' = f x' y' s' := by
  simp only [upd3, if_neg h]

/-- the eviction loop leaves every cell unchanged except the Resident cells
it turns into Evicting with the heap index cleared. -/
theorem evictLoop_cases (L : List Coord) :
    ∀ (tms : TileMappingState) (heap : HeapAllocator) (ul : UpdateList)
      (delayed : List Coord) (c : Coord),
      ((evictLoop tms heap ul delayed L).tms.resident c.x c.y c.s =
          tms.resident c.x c.y c.s ∧
        (evictLoop tms heap ul delayed L).tms.heapIndices c.x c.y c.s =
          tms.heapIndices c.x c.y c.s) ∨
      (tms.resident c.x c.y c.s = Residency.Resident ∧
        (evictLoop tms heap ul delayed L).tms.resident c.x c.y c.s =
          Residency.Evicting ∧
        (evictLoop tms heap ul delayed L).tms.heapIndices c.x c.y c.s =
          InvalidIndex) := by
  induction L with
  | nil =>
    intro tms heap ul delayed c
    exact Or.inl ⟨rfl, rfl⟩
  | cons c₀ L ih =>
    intro tms heap ul delayed c
    simp only [evictLoop]
    by_cases h1 : tms.GetResidency c₀ = Residency.Resident
    · rw [if_pos h1]
      by_cases hc : c.x = c₀.x ∧ c.y = c₀.y ∧ c.s = c₀.s
      · -- the examined cell itself
        have hres : ((tms.SetEvicting c₀).SetHeapIndex c₀ InvalidIndex).resident
            c.x c.y c.s = Residency.Evicting := by
          simp only [TileMappingState.SetHeapIndex, TileMappingState.SetEvicting]
          rw [hc.1, hc.2.1, hc.2.2]
          exact upd3_self ..
        have hhi : ((tms.SetEvicting c₀).SetHeapIndex c₀ InvalidIndex).heapIndices
            c.x c.y c.s = InvalidIndex := by
          simp only [TileMappingState.SetHeapIndex, TileMappingState.SetEvicting]
          rw [hc.1, hc.2.1, hc.2.2]
          exact upd3_self ..
        have h0 : tms.resident c.x c.y c.s = Residency.Resident := by
          rw [hc.1, hc.2.1, hc.2.2]
          exact h1
        rcases ih ((tms.SetEvicting c₀).SetHeapIndex c₀ InvalidIndex)
            (heap.Free (tms.GetHeapIndex c₀))
            { ul with evictCoords := ul.evictCoords ++ [c₀] } delayed c with
          ⟨ha, hb⟩ | ⟨ha, hb, hh⟩
        · exact Or.inr ⟨h0, ha.trans hres, hb.trans hhi⟩
        · rw [hres] at ha
          cases ha
      · -- a different cell: untouched by this iteration
        have hres : ((tms.SetEvicting c₀).SetHeapIndex c₀ InvalidIndex).resident
            c.x c.y c.s = tms.resident c.x c.y c.s := by
          simp only [TileMappingState.SetHeapIndex, TileMappingState.SetEvicting]
          exact upd3_other _ _ _ _ _ _ _ _ hc
        have hhi : ((tms.SetEvicting c₀).SetHeapIndex c₀ InvalidIndex).heapIndices
            c.x c.y c.s = tms.heapIndices c.x c.y c.s := by
          simp only [TileMappingState.SetHeapIndex, TileMappingState.SetEvicting]
          exact upd3_other _ _ _ _ _ _ _ _ hc
        rcases ih ((tms.SetEvicting c₀).SetHeapIndex c₀ InvalidIndex)
            (heap.Free (tms.GetHeapIndex c₀))
            { ul with evictCoords := ul.evictCoords ++ [c₀] } delayed c with
          ⟨ha, hb⟩ | ⟨ha, hb, hh⟩
        · exact Or.inl ⟨ha.trans hres, hb.trans hhi⟩
        · rw [hres] at ha
          exact Or.inr ⟨ha, hb, hh⟩
    · rw [if_neg h1]
      by_cases h2 : tms.GetResidency c₀ = Residency.Loading
      · rw [if_pos h2]
        exact ih tms heap ul (delayed ++ [c₀]) c
      · rw [if_neg h2]
        exact ih tms heap ul delayed c

/-- the eviction loop only adds to the free pool. -/
theorem evictLoop_freelist_mono (L : List Coord) :
    ∀ (tms : TileMappingState) (heap : HeapAllocator) (ul : UpdateList)
      (delayed : List Coord) (i : Nat), i ∈ heap.freelist →
      i ∈ (evictLoop tms heap ul delayed L).heap.freelist := by
  induction L with
  | nil =>
    intro tms heap ul delayed i hi
    exact hi
  | cons c₀ L ih =>
    intro tms heap ul delayed i hi
    simp only [evictLoop]
    by_cases h1 : tms.GetResidency c₀ = Residency.Resident
    · rw [if_pos h1]
      exact ih _ _ _ _ i (List.mem_cons_of_mem _ hi)
    · rw [if_neg h1]
      by_cases h2 : tms.GetResidency c₀ = Residency.Loading
      · rw [if_pos h2]
        exact ih _ _ _ _ i hi
      · rw [if_neg h2]
        exact ih _ _ _ _ i hi

/-- the eviction loop appends to the UpdateList exactly the coords it found
Resident, and never touches the load side of the list. -/
theorem evictLoop_ul (L : List Coord) :
    ∀ (tms : TileMappingState) (heap : HeapAllocator) (ul : UpdateList)
      (delayed : List Coord),
      (evictLoop tms heap ul delayed L).ul.coords = ul.coords ∧
      (evictLoop tms heap ul delayed L).ul.heapIndices = ul.heapIndices ∧
      ∃ added, (evictLoop tms heap ul delayed L).ul.evictCoords =
          ul.evictCoords ++ added ∧
        ∀ a ∈ added, a ∈ L ∧ tms.GetResidency a = Residency.Resident := by
  induction L with
  | nil =>
    intro tms heap ul delayed
    exact ⟨rfl, rfl, [], by simp [evictLoop], by simp⟩
  | cons c₀ L ih =>
    intro tms heap ul delayed
    simp only [evictLoop]
    by_cases h1 : tms.GetResidency c₀ = Residency.Resident
    · rw [if_pos h1]
      set tms' := (tms.SetEvicting c₀).SetHeapIndex c₀ InvalidIndex with htms'
      obtain ⟨hco, hhe, added, hadd, hmem⟩ :=
        ih tms' (heap.Free (tms.GetHeapIndex c₀))
          { ul with evictCoords := ul.evictCoords ++ [c₀] } delayed
      refine ⟨hco, hhe, c₀ :: added, by simpa using hadd, ?_⟩
      intro a ha
      rcases List.mem_cons.mp ha with rfl | ha
      · exact ⟨List.mem_cons_self a L, h1⟩
      · obtain ⟨haL, hares⟩ := hmem a ha
        refine ⟨List.mem_cons_of_mem _ haL, ?_⟩
        by_cases hc : a.x = c₀.x ∧ a.y = c₀.y ∧ a.s = c₀.s
        · exfalso
          have : tms'.GetResidency a = Residency.Evicting := by
            simp only [htms', TileMappingState.GetResidency,
              TileMappingState.SetHeapIndex, TileMappingState.SetEvicting]
            rw [hc.1, hc.2.1, hc.2.2]
            exact upd3_self ..
          rw [hares] at this
          cases this
        · have : tms'.GetResidency a = tms.GetResidency a := by
            simp only [htms', TileMappingState.GetResidency,
              TileMappingState.SetHeapIndex, TileMappingState.SetEvicting]
            exact upd3_other _ _ _ _ _ _ _ _ hc
          rw [← this]
          exact hares
    · rw [if_neg h1]
      by_cases h2 : tms.GetResidency c₀ = Residency.Loading
      · rw [if_pos h2]
        obtain ⟨hco, hhe, added, hadd, hmem⟩ := ih tms heap ul (delayed ++ [c₀])
        exact ⟨hco, hhe, added, hadd,
          fun a ha => ⟨List.mem_cons_of_mem _ (hmem a ha).1, (hmem a ha).2⟩⟩
      · rw [if_neg h2]
        obtain ⟨hco, hhe, added, hadd, hmem⟩ := ih tms heap ul delayed
        exact ⟨hco, hhe, added, hadd,
          fun a ha => ⟨List.mem_cons_of_mem _ (hmem a ha).1, (hmem a ha).2⟩⟩

/-- the delayed bucket produced by the eviction loop is the accumulator
followed by exactly the coords that were Loading at entry. -/
theorem evictLoop_ready (L : List Coord) :
    ∀ (tms : TileMappingState) (heap : HeapAllocator) (ul : UpdateList)
      (delayed : List Coord),
      (evictLoop tms heap ul delayed L).ready =
        delayed ++ L.filter fun c => tms.GetResidency c == Residency.Loading := by
  induction L with
  | nil =>
    intro tms heap ul delayed
    simp [evictLoop]
  | cons c₀ L ih =>
    intro tms heap ul delayed
    simp only [evictLoop, List.filter_cons]
    by_cases h1 : tms.GetResidency c₀ = Residency.Resident
    · rw [if_pos h1, if_neg (by simp [h1]), ih]
      congr 1
      apply List.filter_congr
      intro c _
      by_cases hc : c.x = c₀.x ∧ c.y = c₀.y ∧ c.s = c₀.s
      · have h2 : ((tms.SetEvicting c₀).SetHeapIndex c₀ InvalidIndex).GetResidency c =
            Residency.Evicting := by
          simp only [TileMappingState.GetResidency, TileMappingState.SetHeapIndex,
            TileMappingState.SetEvicting]
          rw [hc.1, hc.2.1, hc.2.2]
          exact upd3_self ..
        have h3 : tms.GetResidency c = Residency.Resident := by
          simp only [TileMappingState.GetResidency]
          rw [hc.1, hc.2.1, hc.2.2]
          exact h1
        rw [h2, h3]
        rfl
      · have h2 : ((tms.SetEvicting c₀).SetHeapIndex c₀ InvalidIndex).GetResidency c =
            tms.GetResidency c := by
          simp only [TileMappingState.GetResidency, TileMappingState.SetHeapIndex,
            TileMappingState.SetEvicting]
          exact upd3_other _ _ _ _ _ _ _ _ hc
        rw [h2]
    · rw [if_neg h1]
      by_cases h2 : tms.GetResidency c₀ = Residency.Loading
      · rw [if_pos h2, if_pos (by simp [h2]), ih]
        simp
      · rw [if_neg h2, if_neg (by simp; intro h; exact absurd h h2), ih]

/-- every coord the eviction loop finds Resident ends Evicting with its
heap index cleared, is recorded in the UpdateList, and its old page is
returned to the pool. -/
theorem evictLoop_resident (L : List Coord) :
    ∀ (tms : TileMappingState) (heap : HeapAllocator) (ul : UpdateList)
      (delayed : List Coord) (c : Coord), c ∈ L →
      tms.GetResidency c = Residency.Resident →
      (evictLoop tms heap ul delayed L).tms.GetResidency c = Residency.Evicting ∧
      (evictLoop tms heap ul delayed L).tms.GetHeapIndex c = InvalidIndex ∧
      c ∈ (evictLoop tms heap ul delayed L).ul.evictCoords ∧
      tms.GetHeapIndex c ∈ (evictLoop tms heap ul delayed L).heap.freelist := by
  induction L with
  | nil =>
    intro tms heap ul delayed c hc
    simp at hc
  | cons c₀ L ih =>
    intro tms heap ul delayed c hcL hres
    simp only [evictLoop]
    by_cases h1 : tms.GetResidency c₀ = Residency.Resident
    · rw [if_pos h1]
      set tms' := (tms.SetEvicting c₀).SetHeapIndex c₀ InvalidIndex with htms'
      set heap' := heap.Free (tms.GetHeapIndex c₀) with hheap'
      set ul' : UpdateList := { ul with evictCoords := ul.evictCoords ++ [c₀] }
        with hul'
      by_cases hc : c.x = c₀.x ∧ c.y = c₀.y ∧ c.s = c₀.s
      · have hceq : c = c₀ := by
          cases c
          cases c₀
          simp_all
        subst hceq
        have hres' : tms'.GetResidency c = Residency.Evicting := by
          simp only [htms', TileMappingState.GetResidency,
            TileMappingState.SetHeapIndex, TileMappingState.SetEvicting]
          exact upd3_self ..
        have hhi' : tms'.GetHeapIndex c = InvalidIndex := by
          simp only [htms', TileMappingState.GetHeapIndex,
            TileMappingState.SetHeapIndex, TileMappingState.SetEvicting]
          exact upd3_self ..
        have hcase := evictLoop_cases L tms' heap' ul' delayed c
        have hfinal : (evictLoop tms' heap' ul' delayed L).tms.GetResidency c =
            Residency.Evicting ∧
            (evictLoop tms' heap' ul' delayed L).tms.GetHeapIndex c = InvalidIndex := by
          rcases hcase with ⟨ha, hb⟩ | ⟨ha, _, _⟩
          · exact ⟨by rw [TileMappingState.GetResidency, ha]; exact hres',
              by rw [TileMappingState.GetHeapIndex, hb]; exact hhi'⟩
          · rw [show tms'.resident c.x c.y c.s = tms'.GetResidency c from rfl,
              hres'] at ha
            cases ha
        refine ⟨hfinal.1, hfinal.2, ?_, ?_⟩
        · obtain ⟨_, _, added, hadd, _⟩ := evictLoop_ul L tms' heap' ul' delayed
          rw [hadd, hul']
          simp
        · apply evictLoop_freelist_mono
          rw [hheap']
          exact List.mem_cons_self ..
      · have hcne : c ≠ c₀ := by
          intro h
          subst h
          exact hc ⟨rfl, rfl, rfl⟩
        have hcL' : c ∈ L := by
          rcases List.mem_cons.mp hcL with h | h
          · exact absurd h hcne
          · exact h
        have hres' : tms'.GetResidency c = tms.GetResidency c := by
          simp only [htms', TileMappingState.GetResidency,
            TileMappingState.SetHeapIndex, TileMappingState.SetEvicting]
          exact upd3_other _ _ _ _ _ _ _ _ hc
        have hhi' : tms'.GetHeapIndex c = tms.GetHeapIndex c := by
          simp only [htms', TileMappingState.GetHeapIndex,
            TileMappingState.SetHeapIndex, TileMappingState.SetEvicting]
          exact upd3_other _ _ _ _ _ _ _ _ hc
        obtain ⟨ha, hb, hcu, hhf⟩ :=
          ih tms' heap' ul' delayed c hcL' (by rw [hres']; exact hres)
        exact ⟨ha, hb, hcu, by rw [← hhi']; exact hhf⟩
    · rw [if_neg h1]
      have hcne : c ≠ c₀ := by
        intro h
        subst h
        exact h1 hres
      have hcL' : c ∈ L := by
        rcases List.mem_cons.mp hcL with h | h
        · exact absurd h hcne
        · exact h
      by_cases h2 : tms.GetResidency c₀ = Residency.Loading
      · rw [if_pos h2]
        exact ih tms heap ul (delayed ++ [c₀]) c hcL' hres
      · rw [if_neg h2]
        exact ih tms heap ul delayed c hcL' hres

/-- C4: QueuePendingTileEvictions acts on the ready bucket (all refcounts
0) by case analysis on residency: Resident coords are set Evicting, their
page freed, their heap index cleared, and they are appended to the
UpdateList's evict-coords; Loading coords are retained in the bucket;
NotResident and Evicting coords are dropped with no state change. -/
theorem C4_queue_pending_tile_evictions (tms : TileMappingState)
    (heap : HeapAllocator) (ul : UpdateList) (ready : List Coord)
    (hrc : ∀ c ∈ ready, tms.GetRefCountC c = 0) :
    (QueuePendingTileEvictions tms heap ul ready).ready =
      (ready.filter fun c => tms.GetResidency c == Residency.Loading) ∧
    (∀ c ∈ ready, tms.GetResidency c = Residency.Resident →
      (QueuePendingTileEvictions tms heap ul ready).tms.GetResidency c =
        Residency.Evicting ∧
      (QueuePendingTileEvictions tms heap ul ready).tms.GetHeapIndex c =
        InvalidIndex ∧
      c ∈ (QueuePendingTileEvictions tms heap ul ready).ul.evictCoords ∧
      tms.GetHeapIndex c ∈
        (QueuePendingTileEvictions tms heap ul ready).heap.freelist) ∧
    (∀ c ∈ ready, tms.GetResidency c = Residency.Loading →
      (QueuePendingTileEvictions tms heap ul ready).tms.GetResidency c =
        tms.GetResidency c ∧
      (QueuePendingTileEvictions tms heap ul ready).tms.GetHeapIndex c =
        tms.GetHeapIndex c ∧
      c ∈ (QueuePendingTileEvictions tms heap ul ready).ready) ∧
    (∀ c ∈ ready,
      (tms.GetResidency c = Residency.NotResident ∨
        tms.GetResidency c = Residency.Evicting) →
      (QueuePendingTileEvictions tms heap ul ready).tms.GetResidency c =
        tms.GetResidency c ∧
      (QueuePendingTileEvictions tms heap ul ready).tms.GetHeapIndex c =
        tms.GetHeapIndex c ∧
      c ∉ (QueuePendingTileEvictions tms heap ul ready).ready ∧
      (c ∈ (QueuePendingTileEvictions tms heap ul ready).ul.evictCoords →
        c ∈ ul.evictCoords)) ∧
    (∃ added, (QueuePendingTileEvictions tms heap ul ready).ul.evictCoords =
        ul.evictCoords ++ added ∧
      ∀ a ∈ added, a ∈ ready ∧ tms.GetResidency a = Residency.Resident) := by
  unfold QueuePendingTileEvictions
  have hready := evictLoop_ready ready tms heap ul []
  rw [List.nil_append] at hready
  obtain ⟨_, _, added, hadd, hmem⟩ := evictLoop_ul ready tms heap ul []
  have hunch : ∀ c : Coord,
      tms.GetResidency c ≠ Residency.Resident →
      (evictLoop tms heap ul [] ready).tms.GetResidency c = tms.GetResidency c ∧
      (evictLoop tms heap ul [] ready).tms.GetHeapIndex c = tms.GetHeapIndex c := by
    intro c hnr
    rcases evictLoop_cases ready tms heap ul [] c with ⟨ha, hb⟩ | ⟨ha, _, _⟩
    · exact ⟨ha, hb⟩
    · exact absurd ha hnr
  refine ⟨hready, ?_, ?_, ?_, added, hadd, hmem⟩
  · intro c hc hres
    exact evictLoop_resident ready tms heap ul [] c hc hres
  · intro c hc hres
    have h := hunch c (by rw [hres]; intro h; cases h)
    refine ⟨h.1, h.2, ?_⟩
    rw [hready]
    exact List.mem_filter.mpr ⟨hc, by simp [hres]⟩
  · intro c hc hres
    have hnr : tms.GetResidency c ≠ Residency.Resident := by
      rcases hres with h | h <;> (rw [h]; intro hh; cases hh)
    have h := hunch c hnr
    refine ⟨h.1, h.2, ?_, ?_⟩
    · rw [hready]
      intro hmem'
      have := (List.mem_filter.mp hmem').2
      rcases hres with h' | h' <;> (rw [h'] at this; simp at this)
    · intro hcu
      rw [hadd] at hcu
      rcases List.mem_append.mp hcu with h' | h'
      · exact h'
      · exact absurd (hmem c h').2 hnr

/-- witness for C4's theorem at the concrete mapping state tmsW4 with one
coord of each residency in the ready bucket. -/
theorem C4_queue_pending_tile_evictions_witness :
    (∀ c ∈ [(⟨0, 0, 0⟩ : Coord), ⟨1, 0, 0⟩, ⟨0, 1, 0⟩, ⟨1, 1, 0⟩],
      tmsW4.GetRefCountC c = 0) ∧
    (QueuePendingTileEvictions tmsW4 ⟨[7, 8]⟩ UpdateList.empty
        [⟨0, 0, 0⟩, ⟨1, 0, 0⟩, ⟨0, 1, 0⟩, ⟨1, 1, 0⟩]).ready =
      ([(⟨0, 0, 0⟩ : Coord), ⟨1, 0, 0⟩, ⟨0, 1, 0⟩, ⟨1, 1, 0⟩].filter
        fun c => tmsW4.GetResidency c == Residency.Loading) :=
  ⟨by decide,
    (C4_queue_pending_tile_evictions tmsW4 ⟨[7, 8]⟩ UpdateList.empty
      [⟨0, 0, 0⟩, ⟨1, 0, 0⟩, ⟨0, 1, 0⟩, ⟨1, 1, 0⟩] (by decide)).1⟩

/-- the load loop leaves every cell unchanged except the NotResident cells
it turns into Loading. -/
theorem loadLoop_cases (L : List Coord) :
    ∀ (tms : TileMappingState) (heap : HeapAllocator) (ul : UpdateList)
      (skipped : List Coord) (maxCopies : Nat) (c : Coord),
      ((loadLoop tms heap ul skipped maxCopies L).tms.resident c.x c.y c.s =
          tms.resident c.x c.y c.s ∧
        (loadLoop tms heap ul skipped maxCopies L).tms.heapIndices c.x c.y c.s =
          tms.heapIndices c.x c.y c.s) ∨
      (tms.resident c.x c.y c.s = Residency.NotResident ∧
        (loadLoop tms heap ul skipped maxCopies L).tms.resident c.x c.y c.s =
          Residency.Loading) := by
  induction L with
  | nil =>
    intro tms heap ul skipped maxCopies c
    exact Or.inl ⟨rfl, rfl⟩
  | cons c₀ L ih =>
    intro tms heap ul skipped maxCopies c
    simp only [loadLoop]
    by_cases h1 : tms.GetResidency c₀ = Residency.NotResident
    · rw [if_pos h1]
      set tms' := (tms.SetLoading c₀).SetHeapIndex c₀ (heap.Allocate).1 with htms'
      have hres' : tms'.resident c.x c.y c.s =
          if c.x = c₀.x ∧ c.y = c₀.y ∧ c.s = c₀.s then Residency.Loading
          else tms.resident c.x c.y c.s := by
        simp only [htms', TileMappingState.SetHeapIndex, TileMappingState.SetLoading,
          upd3]
      by_cases hc : c.x = c₀.x ∧ c.y = c₀.y ∧ c.s = c₀.s
      · have h0 : tms.resident c.x c.y c.s = Residency.NotResident := by
          rw [hc.1, hc.2.1, hc.2.2]
          exact h1
        have hL : tms'.resident c.x c.y c.s = Residency.Loading := by
          rw [hres', if_pos hc]
        by_cases hb : maxCopies = 1
        · rw [if_pos hb]
          exact Or.inr ⟨h0, hL⟩
        · rw [if_neg hb]
          rcases ih tms' (heap.Allocate).2 (ul.AddUpdate c₀ (heap.Allocate).1)
              skipped (maxCopies - 1) c with ⟨ha, _⟩ | ⟨ha, hbb⟩
          · exact Or.inr ⟨h0, ha.trans hL⟩
          · rw [hL] at ha
            cases ha
      · have hu : tms'.resident c.x c.y c.s = tms.resident c.x c.y c.s := by
          rw [hres', if_neg hc]
        have hhu : tms'.heapIndices c.x c.y c.s = tms.heapIndices c.x c.y c.s := by
          simp only [htms', TileMappingState.SetHeapIndex, TileMappingState.SetLoading]
          exact upd3_other _ _ _ _ _ _ _ _ hc
        by_cases hb : maxCopies = 1
        · rw [if_pos hb]
          exact Or.inl ⟨hu, hhu⟩
        · rw [if_neg hb]
          rcases ih tms' (heap.Allocate).2 (ul.AddUpdate c₀ (heap.Allocate).1)
              skipped (maxCopies - 1) c with ⟨ha, hbb⟩ | ⟨ha, hbb⟩
          · exact Or.inl ⟨ha.trans hu, hbb.trans hhu⟩
          · rw [hu] at ha
            exact Or.inr ⟨ha, hbb⟩
    · rw [if_neg h1]
      by_cases h2 : tms.GetResidency c₀ = Residency.Evicting
      · rw [if_pos h2]
        exact ih tms heap ul (skipped ++ [c₀]) maxCopies c
      · rw [if_neg h2]
        exact ih tms heap ul skipped maxCopies c

/-- the load loop only consumes pages from the free pool. -/
theorem loadLoop_freelist_sub (L : List Coord) :
    ∀ (tms : TileMappingState) (heap : HeapAllocator) (ul : UpdateList)
      (skipped : List Coord) (maxCopies : Nat) (i : Nat),
      i ∈ (loadLoop tms heap ul skipped maxCopies L).heap.freelist →
      i ∈ heap.freelist := by
  induction L with
  | nil =>
    intro tms heap ul skipped maxCopies i hi
    exact hi
  | cons c₀ L ih =>
    intro tms heap ul skipped maxCopies i hi
    simp only [loadLoop] at hi
    by_cases h1 : tms.GetResidency c₀ = Residency.NotResident
    · rw [if_pos h1] at hi
      have hsub : ∀ j, j ∈ (heap.Allocate).2.freelist → j ∈ heap.freelist := by
        intro j hj
        cases heap with
        | mk fl =>
          cases fl with
          | nil => exact hj
          | cons a rest => exact List.mem_cons_of_mem a hj
      by_cases hb : maxCopies = 1
      · rw [if_pos hb] at hi
        exact hsub i hi
      · rw [if_neg hb] at hi
        exact hsub i (ih _ _ _ _ _ i hi)
    · rw [if_neg h1] at hi
      by_cases h2 : tms.GetResidency c₀ = Residency.Evicting
      · rw [if_pos h2] at hi
        exact ih _ _ _ _ _ i hi
      · rw [if_neg h2] at hi
        exact ih _ _ _ _ _ i hi

/-- the load loop appends to the load side of the UpdateList and leaves the
evict side alone. -/
theorem loadLoop_ul (L : List Coord) :
    ∀ (tms : TileMappingState) (heap : HeapAllocator) (ul : UpdateList)
      (skipped : List Coord) (maxCopies : Nat),
      (loadLoop tms heap ul skipped maxCopies L).ul.evictCoords = ul.evictCoords ∧
      ∃ added, (loadLoop tms heap ul skipped maxCopies L).ul.coords =
        ul.coords ++ added := by
  induction L with
  | nil =>
    intro tms heap ul skipped maxCopies
    exact ⟨rfl, [], by simp [loadLoop]⟩
  | cons c₀ L ih =>
    intro tms heap ul skipped maxCopies
    simp only [loadLoop]
    by_cases h1 : tms.GetResidency c₀ = Residency.NotResident
    · rw [if_pos h1]
      by_cases hb : maxCopies = 1
      · rw [if_pos hb]
        exact ⟨rfl, [c₀], rfl⟩
      · rw [if_neg hb]
        obtain ⟨he, added, hadd⟩ := ih ((tms.SetLoading c₀).SetHeapIndex c₀
          (heap.Allocate).1) (heap.Allocate).2 (ul.AddUpdate c₀ (heap.Allocate).1)
          skipped (maxCopies - 1)
        exact ⟨he, c₀ :: added, by simpa [UpdateList.AddUpdate] using hadd⟩
    · rw [if_neg h1]
      by_cases h2 : tms.GetResidency c₀ = Residency.Evicting
      · rw [if_pos h2]
        exact ih tms heap ul (skipped ++ [c₀]) maxCopies
      · rw [if_neg h2]
        exact ih tms heap ul skipped maxCopies

/-- the load loop queues at most maxCopies loads. -/
theorem loadLoop_count (L : List Coord) :
    ∀ (tms : TileMappingState) (heap : HeapAllocator) (ul : UpdateList)
      (skipped : List Coord) (maxCopies : Nat), 1 ≤ maxCopies →
      (loadLoop tms heap ul skipped maxCopies L).ul.coords.length ≤
        ul.coords.length + maxCopies := by
  induction L with
  | nil =>
    intro tms heap ul skipped maxCopies _
    simp [loadLoop]
  | cons c₀ L ih =>
    intro tms heap ul skipped maxCopies hm
    simp only [loadLoop]
    by_cases h1 : tms.GetResidency c₀ = Residency.NotResident
    · rw [if_pos h1]
      by_cases hb : maxCopies = 1
      · rw [if_pos hb, hb]
        simp [UpdateList.AddUpdate]
      · rw [if_neg hb]
        have h2 := ih ((tms.SetLoading c₀).SetHeapIndex c₀ (heap.Allocate).1)
          (heap.Allocate).2 (ul.AddUpdate c₀ (heap.Allocate).1) skipped
          (maxCopies - 1) (by omega)
        have hlen : (ul.AddUpdate c₀ (heap.Allocate).1).coords.length =
            ul.coords.length + 1 := by
          simp [UpdateList.AddUpdate]
        rw [hlen] at h2
        omega
    · rw [if_neg h1]
      by_cases h2 : tms.GetResidency c₀ = Residency.Evicting
      · rw [if_pos h2]
        exact ih tms heap ul (skipped ++ [c₀]) maxCopies hm
      · rw [if_neg h2]
        exact ih tms heap ul skipped maxCopies hm

/-- coords with the same components are equal. -/
theorem coord_ext (c c' : Coord) (h : c.x = c'.x ∧ c.y = c'.y ∧ c.s = c'.s) :
    c = c' := by
  cases c
  cases c'
  simp_all

/-- structure of one load pass: some prefix of the pending list is
examined; of the examined coords, the Evicting ones are retained in order in
front of the unexamined remainder, the NotResident ones are set Loading with
a fresh valid page from the pool and recorded in the UpdateList, and the
rest are dropped; if the loop stopped early it queued exactly maxCopies
loads. -/
theorem loadLoop_pending (L : List Coord) :
    ∀ (tms : TileMappingState) (heap : HeapAllocator) (ul : UpdateList)
      (skipped : List Coord) (maxCopies : Nat),
      1 ≤ maxCopies → maxCopies ≤ heap.GetNumFree →
      InvalidIndex ∉ heap.freelist →
      ∃ k, k ≤ L.length ∧
        (loadLoop tms heap ul skipped maxCopies L).pending =
          skipped ++ ((L.take k).filter fun c =>
            tms.GetResidency c == Residency.Evicting) ++ L.drop k ∧
        (∀ c ∈ L.take k, tms.GetResidency c = Residency.NotResident →
          (loadLoop tms heap ul skipped maxCopies L).tms.GetResidency c =
            Residency.Loading ∧
          (loadLoop tms heap ul skipped maxCopies L).tms.GetHeapIndex c ≠
            InvalidIndex ∧
          (loadLoop tms heap ul skipped maxCopies L).tms.GetHeapIndex c ∈
            heap.freelist ∧
          c ∈ (loadLoop tms heap ul skipped maxCopies L).ul.coords) ∧
        (k < L.length →
          (loadLoop tms heap ul skipped maxCopies L).ul.coords.length =
            ul.coords.length + maxCopies) := by
  induction L with
  | nil =>
    intro tms heap ul skipped maxCopies _ _ _
    exact ⟨0, by simp, by simp [loadLoop], by simp, by simp⟩
  | cons c₀ L ih =>
    intro tms heap ul skipped maxCopies hm hmf hinv
    simp only [loadLoop]
    by_cases h1 : tms.GetResidency c₀ = Residency.NotResident
    · rw [if_pos h1]
      obtain ⟨i, rest, hfl⟩ : ∃ i rest, heap.freelist = i :: rest := by
        cases hh : heap.freelist with
        | nil =>
          exfalso
          rw [HeapAllocator.GetNumFree, hh] at hmf
          simp at hmf
          omega
        | cons i rest => exact ⟨i, rest, rfl⟩
      have heq : heap = ⟨i :: rest⟩ := by
        cases heap
        simp_all
      subst heq
      have halloc : HeapAllocator.Allocate ⟨i :: rest⟩ = (i, ⟨rest⟩) := rfl
      rw [halloc]
      set tms' := (tms.SetLoading c₀).SetHeapIndex c₀ i with htms'
      have hres₀ : tms'.GetResidency c₀ = Residency.Loading := by
        simp only [htms', TileMappingState.GetResidency,
          TileMappingState.SetHeapIndex, TileMappingState.SetLoading]
        exact upd3_self ..
      have hhi₀ : tms'.GetHeapIndex c₀ = i := by
        simp only [htms', TileMappingState.GetHeapIndex,
          TileMappingState.SetHeapIndex, TileMappingState.SetLoading]
        exact upd3_self ..
      have hiv : i ≠ InvalidIndex := by
        intro h
        exact hinv (h ▸ List.mem_cons_self ..)
      have hpred₀ : (tms.GetResidency c₀ == Residency.Evicting) = false := by
        simp [h1]
      by_cases hb : maxCopies = 1
      · rw [if_pos hb]
        refine ⟨1, by simp, ?_, ?_, ?_⟩
        · simp [hpred₀]
        · intro c hc _
          have hceq : c = c₀ := by
            simpa using hc
          subst hceq
          exact ⟨hres₀, by rw [hhi₀]; exact hiv,
            by rw [hhi₀]; exact List.mem_cons_self ..,
            by simp [UpdateList.AddUpdate]⟩
        · intro _
          simp [UpdateList.AddUpdate, hb]
      · rw [if_neg hb]
        have hm' : 1 ≤ maxCopies - 1 := by omega
        have hmf' : maxCopies - 1 ≤ (⟨rest⟩ : HeapAllocator).GetNumFree := by
          show maxCopies - 1 ≤ rest.length
          rw [HeapAllocator.GetNumFree] at hmf
          simp only [List.length_cons] at hmf
          omega
        have hinv' : InvalidIndex ∉ (⟨rest⟩ : HeapAllocator).freelist :=
          fun h => hinv (List.mem_cons_of_mem i h)
        obtain ⟨k', hk'len, hpend, hfacts, hcount⟩ :=
          ih tms' ⟨rest⟩ (ul.AddUpdate c₀ i) skipped (maxCopies - 1) hm' hmf' hinv'
        have hcongr : ∀ c ∈ L.take k',
            (tms'.GetResidency c == Residency.Evicting) =
              (tms.GetResidency c == Residency.Evicting) := by
          intro c _
          by_cases hc : c.x = c₀.x ∧ c.y = c₀.y ∧ c.s = c₀.s
          · have h2 : tms'.GetResidency c = Residency.Loading := by
              simp only [htms', TileMappingState.GetResidency,
                TileMappingState.SetHeapIndex, TileMappingState.SetLoading]
              rw [hc.1, hc.2.1, hc.2.2]
              exact upd3_self ..
            have h3 : tms.GetResidency c = Residency.NotResident := by
              simp only [TileMappingState.GetResidency]
              rw [hc.1, hc.2.1, hc.2.2]
              exact h1
            rw [h2, h3]
            rfl
          · have h2 : tms'.GetResidency c = tms.GetResidency c := by
              simp only [htms', TileMappingState.GetResidency,
                TileMappingState.SetHeapIndex, TileMappingState.SetLoading]
              exact upd3_other _ _ _ _ _ _ _ _ hc
            rw [h2]
        have hcfacts :
            (loadLoop tms' ⟨rest⟩ (ul.AddUpdate c₀ i) skipped (maxCopies - 1)
                L).tms.GetResidency c₀ = Residency.Loading ∧
            (loadLoop tms' ⟨rest⟩ (ul.AddUpdate c₀ i) skipped (maxCopies - 1)
                L).tms.GetHeapIndex c₀ ≠ InvalidIndex ∧
            (loadLoop tms' ⟨rest⟩ (ul.AddUpdate c₀ i) skipped (maxCopies - 1)
                L).tms.GetHeapIndex c₀ ∈ (i :: rest) ∧
            c₀ ∈ (loadLoop tms' ⟨rest⟩ (ul.AddUpdate c₀ i) skipped (maxCopies - 1)
                L).ul.coords := by
          rcases loadLoop_cases L tms' ⟨rest⟩ (ul.AddUpdate c₀ i) skipped
              (maxCopies - 1) c₀ with ⟨ha, hbb⟩ | ⟨ha, _⟩
          · refine ⟨?_, ?_, ?_, ?_⟩
            · rw [TileMappingState.GetResidency, ha]
              exact hres₀
            · rw [TileMappingState.GetHeapIndex, hbb,
                show tms'.heapIndices c₀.x c₀.y c₀.s = tms'.GetHeapIndex c₀ from rfl,
                hhi₀]
              exact hiv
            · rw [TileMappingState.GetHeapIndex, hbb,
                show tms'.heapIndices c₀.x c₀.y c₀.s = tms'.GetHeapIndex c₀ from rfl,
                hhi₀]
              exact List.mem_cons_self ..
            · obtain ⟨_, added, hadd⟩ := loadLoop_ul L tms' ⟨rest⟩
                (ul.AddUpdate c₀ i) skipped (maxCopies - 1)
              rw [hadd]
              simp [UpdateList.AddUpdate]
          · rw [show tms'.resident c₀.x c₀.y c₀.s = tms'.GetResidency c₀ from rfl,
              hres₀] at ha
            cases ha
        refine ⟨k' + 1, by simpa using hk'len, ?_, ?_, ?_⟩
        · rw [hpend, List.take_succ_cons, List.drop_succ_cons, List.filter_cons,
            if_neg (by simp [hpred₀]), List.filter_congr hcongr]
        · intro c hc hcres
          rw [List.take_succ_cons] at hc
          rcases List.mem_cons.mp hc with rfl | hc
          · exact hcfacts
          · by_cases hcell : c.x = c₀.x ∧ c.y = c₀.y ∧ c.s = c₀.s
            · rw [coord_ext c c₀ hcell]
              exact hcfacts
            · have h2 : tms'.GetResidency c = tms.GetResidency c := by
                simp only [htms', TileMappingState.GetResidency,
                  TileMappingState.SetHeapIndex, TileMappingState.SetLoading]
                exact upd3_other _ _ _ _ _ _ _ _ hcell
              obtain ⟨hf1, hf2, hf3, hf4⟩ := hfacts c hc (by rw [h2]; exact hcres)
              exact ⟨hf1, hf2, List.mem_cons_of_mem i hf3, hf4⟩
        · intro hk
          rw [List.length_cons] at hk
          have := hcount (by omega)
          have hlen : (ul.AddUpdate c₀ i).coords.length = ul.coords.length + 1 := by
            simp [UpdateList.AddUpdate]
          rw [hlen] at this
          rw [this]
          omega
    · rw [if_neg h1]
      by_cases h2 : tms.GetResidency c₀ = Residency.Evicting
      · rw [if_pos h2]
        obtain ⟨k', hk'len, hpend, hfacts, hcount⟩ :=
          ih tms heap ul (skipped ++ [c₀]) maxCopies hm hmf hinv
        refine ⟨k' + 1, by simpa using hk'len, ?_, ?_, ?_⟩
        · rw [hpend, List.take_succ_cons, List.drop_succ_cons, List.filter_cons,
            if_pos (by simp [h2])]
          simp
        · intro c hc hcres
          rw [List.take_succ_cons] at hc
          rcases List.mem_cons.mp hc with rfl | hc
          · rw [hcres] at h1
            exact absurd rfl h1
          · exact hfacts c hc hcres
        · intro hk
          rw [List.length_cons] at hk
          exact hcount (by omega)
      · rw [if_neg h2]
        obtain ⟨k', hk'len, hpend, hfacts, hcount⟩ :=
          ih tms heap ul skipped maxCopies hm hmf hinv
        refine ⟨k' + 1, by simpa using hk'len, ?_, ?_, ?_⟩
        · rw [hpend, List.take_succ_cons, List.drop_succ_cons, List.filter_cons,
            if_neg (by simp [h2])]
        · intro c hc hcres
          rw [List.take_succ_cons] at hc
          rcases List.mem_cons.mp hc with rfl | hc
          · rw [hcres] at h1
            exact absurd rfl h1
          · exact hfacts c hc hcres
        · intro hk
          rw [List.length_cons] at hk
          exact hcount (by omega)

/-- C5: QueuePendingTileLoads queues at most
min(pending.len, maxPerBatch, heap free) loads into the UpdateList; every
cell is untouched except examined NotResident coords, which become Loading
with a freshly allocated valid page and are recorded in the UpdateList;
examined Evicting coords are retained, compacted in front of the unexamined
remainder; examined Resident/Loading coords are dropped; and when the loop
stopped before the end of the list it queued exactly the budget, the
unexamined coords staying pending. -/
theorem C5_queue_pending_tile_loads (maxPerBatch : Nat) (tms : TileMappingState)
    (heap : HeapAllocator) (ul : UpdateList) (pending : List Coord)
    (hrc : ∀ c ∈ pending, 0 < tms.GetRefCountC c)
    (hbatch : 0 < maxPerBatch) (hfree : 0 < heap.GetNumFree)
    (hinv : InvalidIndex ∉ heap.freelist) :
    ((QueuePendingTileLoads maxPerBatch tms heap ul pending).ul.coords.length ≤
      ul.coords.length + min (min pending.length maxPerBatch) heap.GetNumFree) ∧
    (∀ c : Coord,
      ((QueuePendingTileLoads maxPerBatch tms heap ul pending).tms.resident
          c.x c.y c.s = tms.resident c.x c.y c.s ∧
        (QueuePendingTileLoads maxPerBatch tms heap ul pending).tms.heapIndices
          c.x c.y c.s = tms.heapIndices c.x c.y c.s) ∨
      (tms.resident c.x c.y c.s = Residency.NotResident ∧
        (QueuePendingTileLoads maxPerBatch tms heap ul pending).tms.resident
          c.x c.y c.s = Residency.Loading)) ∧
    (∃ k, k ≤ pending.length ∧
      (QueuePendingTileLoads maxPerBatch tms heap ul pending).pending =
        ((pending.take k).filter fun c =>
          tms.GetResidency c == Residency.Evicting) ++ pending.drop k ∧
      (∀ c ∈ pending.take k, tms.GetResidency c = Residency.NotResident →
        (QueuePendingTileLoads maxPerBatch tms heap ul pending).tms.GetResidency c =
          Residency.Loading ∧
        (QueuePendingTileLoads maxPerBatch tms heap ul pending).tms.GetHeapIndex c ≠
          InvalidIndex ∧
        (QueuePendingTileLoads maxPerBatch tms heap ul pending).tms.GetHeapIndex c ∈
          heap.freelist ∧
        c ∈ (QueuePendingTileLoads maxPerBatch tms heap ul pending).ul.coords) ∧
      (k < pending.length →
        (QueuePendingTileLoads maxPerBatch tms heap ul pending).ul.coords.length =
          ul.coords.length + min (min pending.length maxPerBatch) heap.GetNumFree)) := by
  unfold QueuePendingTileLoads
  cases pending with
  | nil =>
    refine ⟨by simp [loadLoop], fun c => Or.inl ⟨rfl, rfl⟩, 0, by simp,
      by simp [loadLoop], by simp, by simp⟩
  | cons c₀ rest =>
    have hm : 1 ≤ min (min (c₀ :: rest).length maxPerBatch) heap.GetNumFree := by
      refine Nat.le_min.mpr ⟨Nat.le_min.mpr ⟨?_, hbatch⟩, hfree⟩
      simp
    have hmf : min (min (c₀ :: rest).length maxPerBatch) heap.GetNumFree ≤
        heap.GetNumFree := Nat.min_le_right ..
    obtain ⟨k, hklen, hpend, hfacts, hcount⟩ :=
      loadLoop_pending (c₀ :: rest) tms heap ul []
        (min (min (c₀ :: rest).length maxPerBatch) heap.GetNumFree) hm hmf hinv
    rw [List.nil_append] at hpend
    exact ⟨loadLoop_count (c₀ :: rest) tms heap ul [] _ hm,
      fun c => loadLoop_cases (c₀ :: rest) tms heap ul [] _ c,
      k, hklen, hpend, hfacts, hcount⟩

/-- witness for C5's theorem at the concrete mapping state tmsW5 with one
coord of each residency pending and batch budget 2. -/
theorem C5_queue_pending_tile_loads_witness :
    ((∀ c ∈ [(⟨0, 0, 0⟩ : Coord), ⟨1, 0, 0⟩, ⟨0, 1, 0⟩, ⟨1, 1, 0⟩],
        0 < tmsW5.GetRefCountC c) ∧
      0 < (2 : Nat) ∧ 0 < (⟨[9, 10]⟩ : HeapAllocator).GetNumFree ∧
      InvalidIndex ∉ (⟨[9, 10]⟩ : HeapAllocator).freelist) ∧
    (QueuePendingTileLoads 2 tmsW5 ⟨[9, 10]⟩ UpdateList.empty
        [⟨0, 0, 0⟩, ⟨1, 0, 0⟩, ⟨0, 1, 0⟩, ⟨1, 1, 0⟩]).ul.coords.length ≤
      UpdateList.empty.coords.length +
        min (min ([(⟨0, 0, 0⟩ : Coord), ⟨1, 0, 0⟩, ⟨0, 1, 0⟩, ⟨1, 1, 0⟩].length) 2)
          (⟨[9, 10]⟩ : HeapAllocator).GetNumFree :=
  ⟨⟨by decide, by decide, by decide, by decide⟩,
    (C5_queue_pending_tile_loads 2 tmsW5 ⟨[9, 10]⟩ UpdateList.empty
      [⟨0, 0, 0⟩, ⟨1, 0, 0⟩, ⟨0, 1, 0⟩, ⟨1, 1, 0⟩] (by decide) (by decide)
      (by decide) (by decide)).1⟩

/-- witness for C3's theorem: the S1 scenario refcount at level 2. -/
theorem C3_set_min_mip_order_witness :
    (stS1.ProcessFeedback 1 resolvedS1).tms.GetRefCount 0 0 2 = 1 :=
  (C3_set_min_mip_order stS1 4 0 0 0 3).2.2.2.2 2 (by decide)

/-- every level strictly below the walk's starting point and at or above
its result is Resident (the walk confirms each level on the way down). -/
theorem minMipWalk_resident (t : TileMappingState) (x y : Nat) :
    ∀ s k, minMipWalk t x y s s ≤ k → k < s →
      t.GetResident (x >>> k) (y >>> k) k = true := by
  intro s
  induction s with
  | zero =>
    intro k _ hk
    omega
  | succ s ih =>
    intro k hw hk
    rw [minMipWalk] at hw
    by_cases hres : t.GetResident (x >>> s) (y >>> s) s
    · rw [if_pos hres] at hw
      by_cases hks : k = s
      · subst hks
        exact hres
      · exact ih k hw (by omega)
    · rw [if_neg hres] at hw
      omega

/-- C1: every value the min-mip-map update publishes below M has a fully
Resident chain: for published value m at region (x, y), every covering tile
(x >> k, y >> k, k) with m ≤ k < M is Resident.  The bounds hypotheses say
the region's coarsest covering tile lies inside the mip M−1 grid, as the
tiling geometry guarantees. -/
theorem C1_update_min_mip_map_no_holes (st : ResourceState) (x y k m : Nat)
    (hchanged : st.tileResidencyChanged = true)
    (hm : st.UpdateMinMipMap.minMipMap x y = m)
    (hmM : m < st.tms.numSubresources)
    (hk1 : m ≤ k) (hk2 : k < st.tms.numSubresources)
    (hbx : x >>> (st.tms.numSubresources - 1) <
      st.tms.width (st.tms.numSubresources - 1))
    (hby : y >>> (st.tms.numSubresources - 1) <
      st.tms.height (st.tms.numSubresources - 1)) :
    st.tms.GetResident (x >>> k) (y >>> k) k = true := by
  have hpub : st.UpdateMinMipMap.minMipMap = computeMinMipMap st := by
    unfold ResourceState.UpdateMinMipMap
    rw [hchanged]
    rfl
  rw [hpub] at hm
  unfold computeMinMipMap at hm
  by_cases hany : st.tms.GetAnyRefCount
  · rw [if_pos hany] at hm
    dsimp only at hm
    by_cases hks : k < max st.tms.GetMinResidentMip (st.minMipMap x y)
    · exact minMipWalk_resident st.tms x y _ k (hm ▸ hk1) hks
    · -- k at or above the walk's start: only possible at the fully
      -- resident coarsest mip
      have hmax : max st.tms.GetMinResidentMip (st.minMipMap x y) ≤ k :=
        Nat.le_of_not_lt hks
      have hmin : st.tms.GetMinResidentMip ≤ k :=
        le_trans (Nat.le_max_left _ _) hmax
      rcases getMinResidentMip_cases st.tms with hc | hc
      · have hcond : ∀ y' < st.tms.height (st.tms.numSubresources - 1),
            ∀ x' < st.tms.width (st.tms.numSubresources - 1),
              st.tms.GetResident x' y' (st.tms.numSubresources - 1) = true := by
          by_contra hno
          rw [getMinResidentMip_characterize, if_neg hno] at hc
          omega
        have hkM : k = st.tms.numSubresources - 1 := by omega
        subst hkM
        exact hcond _ hby _ hbx
      · omega
  · rw [if_neg hany] at hm
    have hm2 : st.tms.numSubresources = m := hm
    omega

/-- witness for C1's theorem at the concrete state stC1. -/
theorem C1_update_min_mip_map_no_holes_witness :
    (stC1.tileResidencyChanged = true ∧
      stC1.UpdateMinMipMap.minMipMap 0 0 = 0 ∧
      0 < stC1.tms.numSubresources ∧
      0 >>> (stC1.tms.numSubresources - 1) <
        stC1.tms.width (stC1.tms.numSubresources - 1)) ∧
    stC1.tms.GetResident (0 >>> 0) (0 >>> 0) 0 = true :=
  ⟨⟨by decide, by decide, by decide, by decide⟩,
    C1_update_min_mip_map_no_holes stC1 0 0 0 0 (by decide) (by decide) (by decide)
      (by decide) (by decide) (by decide) (by decide)⟩

/-- AddTileRef increments exactly its own cell. -/
theorem addTileRef_rc (st : ResourceState) (a b ℓ x y s : Nat) :
    (st.AddTileRef a b ℓ).tms.GetRefCount x y s =
      st.tms.GetRefCount x y s + (if x = a ∧ y = b ∧ s = ℓ then 1 else 0) := by
  have htms : (st.AddTileRef a b ℓ).tms =
      st.tms.SetRefCount a b ℓ (st.tms.GetRefCount a b ℓ + 1) := by
    unfold ResourceState.AddTileRef
    by_cases h : st.tms.GetRefCount a b ℓ = 0 <;> simp [h]
  rw [htms]
  simp only [TileMappingState.SetRefCount, TileMappingState.GetRefCount, upd3]
  by_cases h : x = a ∧ y = b ∧ s = ℓ
  · rw [if_pos h, if_pos h, h.1, h.2.1, h.2.2]
  · rw [if_neg h, if_neg h]
    rfl

/-- AddTileRef leaves the dimensions and references alone. -/
theorem addTileRef_fields (st : ResourceState) (a b ℓ : Nat) :
    (st.AddTileRef a b ℓ).tms.numSubresources = st.tms.numSubresources ∧
    (st.AddTileRef a b ℓ).tileReferences = st.tileReferences ∧
    (st.AddTileRef a b ℓ).tileReferencesWidth = st.tileReferencesWidth ∧
    (st.AddTileRef a b ℓ).tileReferencesHeight = st.tileReferencesHeight := by
  unfold ResourceState.AddTileRef
  by_cases h : st.tms.GetRefCount a b ℓ = 0 <;>
    simp [h, TileMappingState.SetRefCount]

/-- DecTileRef decrements exactly its own cell. -/
theorem decTileRef_rc (st : ResourceState) (a b ℓ x y s : Nat) :
    (st.DecTileRef a b ℓ).tms.GetRefCount x y s =
      st.tms.GetRefCount x y s - (if x = a ∧ y = b ∧ s = ℓ then 1 else 0) := by
  have htms : (st.DecTileRef a b ℓ).tms =
      st.tms.SetRefCount a b ℓ (st.tms.GetRefCount a b ℓ - 1) := by
    unfold ResourceState.DecTileRef
    by_cases h : st.tms.GetRefCount a b ℓ = 1 <;> simp [h]
  rw [htms]
  simp only [TileMappingState.SetRefCount, TileMappingState.GetRefCount, upd3]
  by_cases h : x = a ∧ y = b ∧ s = ℓ
  · rw [if_pos h, if_pos h, h.1, h.2.1, h.2.2]
  · rw [if_neg h, if_neg h]
    rfl

/-- DecTileRef leaves the dimensions and references alone. -/
theorem decTileRef_fields (st : ResourceState) (a b ℓ : Nat) :
    (st.DecTileRef a b ℓ).tms.numSubresources = st.tms.numSubresources ∧
    (st.DecTileRef a b ℓ).tileReferences = st.tileReferences ∧
    (st.DecTileRef a b ℓ).tileReferencesWidth = st.tileReferencesWidth ∧
    (st.DecTileRef a b ℓ).tileReferencesHeight = st.tileReferencesHeight := by
  unfold ResourceState.DecTileRef
  by_cases h : st.tms.GetRefCount a b ℓ = 1 <;>
    simp [h, TileMappingState.SetRefCount]

/-- the add loop increments exactly the covering cells of levels d..c−1. -/
theorem addRefLoop_rc (u v d : Nat) :
    ∀ (c : Nat) (st : ResourceState) (x y s : Nat),
      (ResourceState.addRefLoop u v d st c).tms.GetRefCount x y s =
        st.tms.GetRefCount x y s +
          (if x = u >>> s ∧ y = v >>> s ∧ d ≤ s ∧ s < c then 1 else 0) := by
  intro c
  induction c with
  | zero =>
    intro st x y s
    simp [ResourceState.addRefLoop]
  | succ c ih =>
    intro st x y s
    simp only [ResourceState.addRefLoop]
    by_cases h : d ≤ c
    · rw [if_pos h, ih, addTileRef_rc]
      by_cases hA : x = u >>> c ∧ y = v >>> c ∧ s = c
      · have hBf : ¬(x = u >>> s ∧ y = v >>> s ∧ d ≤ s ∧ s < c) := by
          rintro ⟨_, _, _, hlt⟩
          omega
        have hT : x = u >>> s ∧ y = v >>> s ∧ d ≤ s ∧ s < c + 1 := by
          refine ⟨?_, ?_, by omega, by omega⟩
          · rw [hA.2.2]
            exact hA.1
          · rw [hA.2.2]
            exact hA.2.1
        rw [if_pos hA, if_neg hBf, if_pos hT]
      · rw [if_neg hA]
        by_cases hB : x = u >>> s ∧ y = v >>> s ∧ d ≤ s ∧ s < c
        · rw [if_pos hB, if_pos ⟨hB.1, hB.2.1, hB.2.2.1, by omega⟩]
        · have hTf : ¬(x = u >>> s ∧ y = v >>> s ∧ d ≤ s ∧ s < c + 1) := by
            rintro ⟨h1, h2, h3, h4⟩
            by_cases hs : s = c
            · subst hs
              exact hA ⟨h1, h2, rfl⟩
            · exact hB ⟨h1, h2, h3, by omega⟩
          rw [if_neg hB, if_neg hTf]
    · rw [if_neg h]
      have hTf : ¬(x = u >>> s ∧ y = v >>> s ∧ d ≤ s ∧ s < c + 1) := by
        rintro ⟨_, _, h3, h4⟩
        omega
      rw [if_neg hTf]
      rfl

/-- the add loop leaves the dimensions and references alone. -/
theorem addRefLoop_fields (u v d : Nat) :
    ∀ (c : Nat) (st : ResourceState),
      (ResourceState.addRefLoop u v d st c).tms.numSubresources =
        st.tms.numSubresources ∧
      (ResourceState.addRefLoop u v d st c).tileReferences = st.tileReferences ∧
      (ResourceState.addRefLoop u v d st c).tileReferencesWidth =
        st.tileReferencesWidth ∧
      (ResourceState.addRefLoop u v d st c).tileReferencesHeight =
        st.tileReferencesHeight := by
  intro c
  induction c with
  | zero =>
    intro st
    exact ⟨rfl, rfl, rfl, rfl⟩
  | succ c ih =>
    intro st
    simp only [ResourceState.addRefLoop]
    by_cases h : d ≤ c
    · rw [if_pos h]
      obtain ⟨h1, h2, h3, h4⟩ := ih (st.AddTileRef (u >>> c) (v >>> c) c)
      obtain ⟨g1, g2, g3, g4⟩ := addTileRef_fields st (u >>> c) (v >>> c) c
      exact ⟨h1.trans g1, h2.trans g2, h3.trans g3, h4.trans g4⟩
    · rw [if_neg h]
      exact ⟨rfl, rfl, rfl, rfl⟩

/-- the dec loop decrements exactly the covering cells of levels
s₀..s₀+n−1. -/
theorem decRefLoop_rc (u v : Nat) :
    ∀ (n s₀ : Nat) (st : ResourceState) (x y s : Nat),
      (ResourceState.decRefLoop u v st s₀ n).tms.GetRefCount x y s =
        st.tms.GetRefCount x y s -
          (if x = u >>> s ∧ y = v >>> s ∧ s₀ ≤ s ∧ s < s₀ + n then 1 else 0) := by
  intro n
  induction n with
  | zero =>
    intro s₀ st x y s
    simp only [ResourceState.decRefLoop]
    have hTf : ¬(x = u >>> s ∧ y = v >>> s ∧ s₀ ≤ s ∧ s < s₀ + 0) := by
      rintro ⟨_, _, h3, h4⟩
      omega
    rw [if_neg hTf]
    rfl
  | succ n ih =>
    intro s₀ st x y s
    simp only [ResourceState.decRefLoop]
    rw [ih (s₀ + 1) (st.DecTileRef (u >>> s₀) (v >>> s₀) s₀) x y s, decTileRef_rc,
      Nat.sub_sub]
    by_cases hA : x = u >>> s₀ ∧ y = v >>> s₀ ∧ s = s₀
    · have hBf : ¬(x = u >>> s ∧ y = v >>> s ∧ s₀ + 1 ≤ s ∧ s < s₀ + 1 + n) := by
        rintro ⟨_, _, h3, _⟩
        omega
      have hT : x = u >>> s ∧ y = v >>> s ∧ s₀ ≤ s ∧ s < s₀ + (n + 1) := by
        refine ⟨?_, ?_, by omega, by omega⟩
        · rw [hA.2.2]
          exact hA.1
        · rw [hA.2.2]
          exact hA.2.1
      rw [if_pos hA, if_neg hBf, if_pos hT]
    · rw [if_neg hA]
      by_cases hB : x = u >>> s ∧ y = v >>> s ∧ s₀ + 1 ≤ s ∧ s < s₀ + 1 + n
      · rw [if_pos hB, if_pos ⟨hB.1, hB.2.1, by omega, by omega⟩]
      · have hTf : ¬(x = u >>> s ∧ y = v >>> s ∧ s₀ ≤ s ∧ s < s₀ + (n + 1)) := by
          rintro ⟨h1, h2, h3, h4⟩
          by_cases hs : s = s₀
          · subst hs
            exact hA ⟨h1, h2, rfl⟩
          · exact hB ⟨h1, h2, by omega, by omega⟩
        rw [if_neg hB, if_neg hTf]

/-- the dec loop leaves the dimensions and references alone. -/
theorem decRefLoop_fields (u v : Nat) :
    ∀ (n s₀ : Nat) (st : ResourceState),
      (ResourceState.decRefLoop u v st s₀ n).tms.numSubresources =
        st.tms.numSubresources ∧
      (ResourceState.decRefLoop u v st s₀ n).tileReferences = st.tileReferences ∧
      (ResourceState.decRefLoop u v st s₀ n).tileReferencesWidth =
        st.tileReferencesWidth ∧
      (ResourceState.decRefLoop u v st s₀ n).tileReferencesHeight =
        st.tileReferencesHeight := by
  intro n
  induction n with
  | zero =>
    intro s₀ st
    exact ⟨rfl, rfl, rfl, rfl⟩
  | succ n ih =>
    intro s₀ st
    simp only [ResourceState.decRefLoop]
    obtain ⟨h1, h2, h3, h4⟩ := ih (s₀ + 1) (st.DecTileRef (u >>> s₀) (v >>> s₀) s₀)
    obtain ⟨g1, g2, g3, g4⟩ := decTileRef_fields st (u >>> s₀) (v >>> s₀) s₀
    exact ⟨h1.trans g1, h2.trans g2, h3.trans g3, h4.trans g4⟩

/-- SetMinMip from current c to desired d adds a reference on the covering
cells of levels d..c−1 and drops one on those of levels c..d−1. -/
theorem setMinMip_rc (st : ResourceState) (c u v d x y s : Nat) :
    (st.SetMinMip c u v d).tms.GetRefCount x y s =
      st.tms.GetRefCount x y s +
        (if x = u >>> s ∧ y = v >>> s ∧ d ≤ s ∧ s < c then 1 else 0) -
        (if x = u >>> s ∧ y = v >>> s ∧ c ≤ s ∧ s < d then 1 else 0) := by
  unfold ResourceState.SetMinMip
  rw [decRefLoop_rc, addRefLoop_rc]
  have hiff : (x = u >>> s ∧ y = v >>> s ∧ min c d ≤ s ∧
      s < min c d + (d - min c d)) ↔
      (x = u >>> s ∧ y = v >>> s ∧ c ≤ s ∧ s < d) := by
    constructor
    · rintro ⟨h1, h2, h3, h4⟩
      exact ⟨h1, h2, by omega, by omega⟩
    · rintro ⟨h1, h2, h3, h4⟩
      exact ⟨h1, h2, by omega, by omega⟩
  rw [if_congr hiff rfl rfl]

/-- SetMinMip leaves the dimensions and references alone. -/
theorem setMinMip_fields (st : ResourceState) (c u v d : Nat) :
    (st.SetMinMip c u v d).tms.numSubresources = st.tms.numSubresources ∧
    (st.SetMinMip c u v d).tileReferences = st.tileReferences ∧
    (st.SetMinMip c u v d).tileReferencesWidth = st.tileReferencesWidth ∧
    (st.SetMinMip c u v d).tileReferencesHeight = st.tileReferencesHeight := by
  unfold ResourceState.SetMinMip
  obtain ⟨h1, h2, h3, h4⟩ :=
    decRefLoop_fields u v (d - min c d) (min c d)
      (ResourceState.addRefLoop u v d st c)
  obtain ⟨g1, g2, g3, g4⟩ := addRefLoop_fields u v d c st
  exact ⟨h1.trans g1, h2.trans g2, h3.trans g3, h4.trans g4⟩

/-- writing region (u, v)'s reference changes each covering count by the
same ±1 as SetMinMip changes the refcount. -/
theorem coveringCount_update (W H : Nat) (refs : Nat → Nat → Nat) (u v d : Nat)
    (hu : u < W) (hv : v < H) (x y s : Nat) :
    coveringCount W H (upd2 refs u v d) x y s =
      coveringCount W H refs x y s +
        (if x = u >>> s ∧ y = v >>> s ∧ d ≤ s ∧ s < refs u v then 1 else 0) -
        (if x = u >>> s ∧ y = v >>> s ∧ refs u v ≤ s ∧ s < d then 1 else 0) := by
  classical
  have huv : (u, v) ∈ (Finset.range W) ×ˢ (Finset.range H) := by
    rw [Finset.mem_product]
    exact ⟨Finset.mem_range.mpr hu, Finset.mem_range.mpr hv⟩
  have key : ∀ (g : Nat → Nat → Nat),
      (((Finset.range W) ×ˢ (Finset.range H)).filter fun p =>
        p.1 >>> s = x ∧ p.2 >>> s = y ∧ g p.1 p.2 ≤ s).card =
      ((((Finset.range W) ×ˢ (Finset.range H)).erase (u, v)).filter fun p =>
        p.1 >>> s = x ∧ p.2 >>> s = y ∧ g p.1 p.2 ≤ s).card +
      (if u >>> s = x ∧ v >>> s = y ∧ g u v ≤ s then 1 else 0) := by
    intro g
    conv_lhs => rw [← Finset.insert_erase huv]
    rw [Finset.filter_insert]
    by_cases hg : u >>> s = x ∧ v >>> s = y ∧ g u v ≤ s
    · rw [if_pos hg, if_pos hg, Finset.card_insert_of_not_mem]
      intro hmem
      exact (Finset.not_mem_erase (u, v) _) (Finset.mem_of_mem_filter _ hmem)
    · rw [if_neg hg, if_neg hg, Nat.add_zero]
  have hsame :
      ((((Finset.range W) ×ˢ (Finset.range H)).erase (u, v)).filter fun p =>
        p.1 >>> s = x ∧ p.2 >>> s = y ∧ upd2 refs u v d p.1 p.2 ≤ s) =
      ((((Finset.range W) ×ˢ (Finset.range H)).erase (u, v)).filter fun p =>
        p.1 >>> s = x ∧ p.2 >>> s = y ∧ refs p.1 p.2 ≤ s) := by
    apply Finset.filter_congr
    intro p hp
    have hne : ¬(p.1 = u ∧ p.2 = v) := by
      rintro ⟨h1, h2⟩
      exact (Finset.ne_of_mem_erase hp) (Prod.ext h1 h2)
    simp only [upd2, if_neg hne]
  unfold coveringCount
  rw [key (upd2 refs u v d), key refs, hsame]
  have hself : upd2 refs u v d u v = d := by
    simp [upd2]
  rw [hself]
  by_cases hcell : u >>> s = x ∧ v >>> s = y
  · have hcell' : x = u >>> s ∧ y = v >>> s := ⟨hcell.1.symm, hcell.2.symm⟩
    by_cases hds : d ≤ s
    · rw [if_pos ⟨hcell.1, hcell.2, hds⟩]
      by_cases hcs : refs u v ≤ s
      · rw [if_pos ⟨hcell.1, hcell.2, hcs⟩,
          if_neg (by rintro ⟨_, _, _, h4⟩; omega),
          if_neg (by rintro ⟨_, _, _, h4⟩; omega)]
        omega
      · rw [if_neg (by rintro ⟨_, _, h3⟩; exact hcs h3),
          if_pos ⟨hcell'.1, hcell'.2, hds, by omega⟩,
          if_neg (by rintro ⟨_, _, h3, _⟩; exact hcs h3)]
        omega
    · rw [if_neg (by rintro ⟨_, _, h3⟩; exact hds h3)]
      by_cases hcs : refs u v ≤ s
      · rw [if_pos ⟨hcell.1, hcell.2, hcs⟩,
          if_neg (by rintro ⟨_, _, h3, _⟩; exact hds h3),
          if_pos ⟨hcell'.1, hcell'.2, hcs, by omega⟩]
        omega
      · rw [if_neg (by rintro ⟨_, _, h3⟩; exact hcs h3),
          if_neg (by rintro ⟨_, _, h3, _⟩; exact hds h3),
          if_neg (by rintro ⟨_, _, h3, _⟩; exact hcs h3)]
        omega
  · have hcf : ∀ (P : Prop), ¬((u >>> s = x ∧ v >>> s = y) ∧ P) := by
      rintro P ⟨h1, _⟩
      exact hcell h1
    have hcf' : ∀ (P : Prop), ¬((x = u >>> s ∧ y = v >>> s) ∧ P) := by
      rintro P ⟨h1, _⟩
      exact hcell ⟨h1.1.symm, h1.2.symm⟩
    rw [if_neg (by rintro ⟨h1, h2, h3⟩; exact hcf (d ≤ s) ⟨⟨h1, h2⟩, h3⟩),
      if_neg (by rintro ⟨h1, h2, h3⟩; exact hcf _ ⟨⟨h1, h2⟩, h3⟩),
      if_neg (by rintro ⟨h1, h2, h3, h4⟩; exact hcf' _ ⟨⟨h1, h2⟩, h3⟩),
      if_neg (by rintro ⟨h1, h2, h3, h4⟩; exact hcf' _ ⟨⟨h1, h2⟩, h3⟩)]
    omega

/-- covering counts never exceed the number of regions. -/
theorem coveringCount_le (W H : Nat) (refs : Nat → Nat → Nat) (x y s : Nat) :
    coveringCount W H refs x y s ≤ W * H := by
  unfold coveringCount
  calc (((Finset.range W) ×ˢ (Finset.range H)).filter fun p =>
        p.1 >>> s = x ∧ p.2 >>> s = y ∧ refs p.1 p.2 ≤ s).card
      ≤ ((Finset.range W) ×ˢ (Finset.range H)).card := Finset.card_filter_le _ _
    _ = W * H := by rw [Finset.card_product, Finset.card_range, Finset.card_range]

/-- under the invariant, a region's own covering cell of any reached level
has a positive count. -/
theorem coveringCount_pos (W H : Nat) (refs : Nat → Nat → Nat) (u v s : Nat)
    (hu : u < W) (hv : v < H) (hs : refs u v ≤ s) :
    0 < coveringCount W H refs (u >>> s) (v >>> s) s := by
  unfold coveringCount
  rw [Finset.card_pos]
  refine ⟨(u, v), Finset.mem_filter.mpr ⟨?_, rfl, rfl, hs⟩⟩
  rw [Finset.mem_product]
  exact ⟨Finset.mem_range.mpr hu, Finset.mem_range.mpr hv⟩

/-- one region of the feedback loop preserves the refcount invariant and the
reference bound. -/
theorem refInv_feedback_step (resolved : Nat → Nat → Nat)
    (acc : ResourceState × Bool) (p : Nat × Nat)
    (hu : p.1 < acc.1.tileReferencesWidth)
    (hv : p.2 < acc.1.tileReferencesHeight)
    (hinv : RefInv acc.1) (hbnd : RefsBounded acc.1) :
    RefInv (feedbackStep resolved acc p).1 ∧
    RefsBounded (feedbackStep resolved acc p).1 := by
  obtain ⟨hM, hR, hW, hH⟩ := setMinMip_fields acc.1 (acc.1.tileReferences p.1 p.2)
    p.1 p.2 (min (resolved p.1 p.2) acc.1.tms.numSubresources)
  constructor
  · intro x y s hs
    simp only [feedbackStep] at hs ⊢
    rw [hM] at hs
    rw [hR, hW, hH, setMinMip_rc, hinv x y s hs,
      coveringCount_update _ _ _ p.1 p.2 _ hu hv]
  · intro u' v'
    simp only [feedbackStep]
    rw [hM, hR]
    by_cases h : u' = p.1 ∧ v' = p.2
    · simp only [upd2, if_pos h]
      exact Nat.min_le_right _ _
    · simp only [upd2, if_neg h]
      exact hbnd u' v'

/-- a feedback step does not move the grid dimensions or mip count. -/
theorem feedbackStep_fields (resolved : Nat → Nat → Nat)
    (acc : ResourceState × Bool) (p : Nat × Nat) :
    (feedbackStep resolved acc p).1.tms.numSubresources =
      acc.1.tms.numSubresources ∧
    (feedbackStep resolved acc p).1.tileReferencesWidth =
      acc.1.tileReferencesWidth ∧
    (feedbackStep resolved acc p).1.tileReferencesHeight =
      acc.1.tileReferencesHeight := by
  obtain ⟨hM, hR, hW, hH⟩ := setMinMip_fields acc.1 (acc.1.tileReferences p.1 p.2)
    p.1 p.2 (min (resolved p.1 p.2) acc.1.tms.numSubresources)
  exact ⟨hM, hW, hH⟩

/-- membership in the region list gives the coordinate bounds. -/
theorem regionList_mem (w h : Nat) (p : Nat × Nat) (hp : p ∈ regionList w h) :
    p.1 < w ∧ p.2 < h := by
  unfold regionList at hp
  simp only [List.mem_flatMap, List.mem_map, List.mem_range] at hp
  obtain ⟨y, hy, x, hx, hxy⟩ := hp
  rw [← hxy]
  exact ⟨hx, hy⟩

/-- the feedback fold preserves the refcount invariant, the reference bound,
and the fixed fields. -/
theorem refInv_feedback_fold (resolved : Nat → Nat → Nat) :
    ∀ (L : List (Nat × Nat)) (acc : ResourceState × Bool),
      (∀ p ∈ L, p.1 < acc.1.tileReferencesWidth ∧
        p.2 < acc.1.tileReferencesHeight) →
      RefInv acc.1 → RefsBounded acc.1 →
      RefInv (L.foldl (feedbackStep resolved) acc).1 ∧
      RefsBounded (L.foldl (feedbackStep resolved) acc).1 ∧
      (L.foldl (feedbackStep resolved) acc).1.tms.numSubresources =
        acc.1.tms.numSubresources ∧
      (L.foldl (feedbackStep resolved) acc).1.tileReferencesWidth =
        acc.1.tileReferencesWidth ∧
      (L.foldl (feedbackStep resolved) acc).1.tileReferencesHeight =
        acc.1.tileReferencesHeight := by
  intro L
  induction L with
  | nil =>
    intro acc _ hinv hbnd
    exact ⟨hinv, hbnd, rfl, rfl, rfl⟩
  | cons p rest ih =>
    intro acc hmem hinv hbnd
    have hp := hmem p (List.mem_cons_self p rest)
    have hstep := refInv_feedback_step resolved acc p hp.1 hp.2 hinv hbnd
    obtain ⟨gM, gW, gH⟩ := feedbackStep_fields resolved acc p
    have hmem' : ∀ q ∈ rest,
        q.1 < (feedbackStep resolved acc p).1.tileReferencesWidth ∧
        q.2 < (feedbackStep resolved acc p).1.tileReferencesHeight := by
      intro q hq
      rw [gW, gH]
      exact hmem q (List.mem_cons_of_mem p hq)
    obtain ⟨i1, i2, i3, i4, i5⟩ :=
      ih (feedbackStep resolved acc p) hmem' hstep.1 hstep.2
    exact ⟨i1, i2, i3.trans gM, i4.trans gW, i5.trans gH⟩

/-- the checked add loop succeeds when no touched cell is at the wrap value:
each check reads the cell before its own (unique) increment. -/
theorem addRefLoopChecked_eq (u v d : Nat) :
    ∀ (c : Nat) (st : ResourceState),
      (∀ ℓ, d ≤ ℓ → ℓ < c →
        st.tms.GetRefCount (u >>> ℓ) (v >>> ℓ) ℓ ≠ InvalidIndex) →
      addRefLoopChecked u v d st c = some (ResourceState.addRefLoop u v d st c) := by
  intro c
  induction c with
  | zero =>
    intro st _
    rfl
  | succ c ih =>
    intro st hsafe
    simp only [addRefLoopChecked, ResourceState.addRefLoop]
    by_cases h : d ≤ c
    · rw [if_pos h, if_pos h]
      have hchk : st.AddTileRefChecked (u >>> c) (v >>> c) c =
          some (st.AddTileRef (u >>> c) (v >>> c) c) := by
        unfold ResourceState.AddTileRefChecked
        rw [if_neg (hsafe c h (Nat.lt_succ_self c))]
      rw [hchk, Option.some_bind]
      apply ih
      intro ℓ h1 h2
      rw [addTileRef_rc]
      have hne : ¬(u >>> ℓ = u >>> c ∧ v >>> ℓ = v >>> c ∧ ℓ = c) := by
        rintro ⟨_, _, h3⟩
        omega
      rw [if_neg hne, Nat.add_zero]
      exact hsafe ℓ h1 (by omega)
    · rw [if_neg h, if_neg h]

/-- the checked dec loop succeeds when no touched cell is zero: each check
reads the cell before its own (unique) decrement. -/
theorem decRefLoopChecked_eq (u v : Nat) :
    ∀ (n s₀ : Nat) (st : ResourceState),
      (∀ ℓ, s₀ ≤ ℓ → ℓ < s₀ + n →
        st.tms.GetRefCount (u >>> ℓ) (v >>> ℓ) ℓ ≠ 0) →
      decRefLoopChecked u v st s₀ n =
        some (ResourceState.decRefLoop u v st s₀ n) := by
  intro n
  induction n with
  | zero =>
    intro s₀ st _
    rfl
  | succ n ih =>
    intro s₀ st hsafe
    simp only [decRefLoopChecked, ResourceState.decRefLoop]
    have hchk : st.DecTileRefChecked (u >>> s₀) (v >>> s₀) s₀ =
        some (st.DecTileRef (u >>> s₀) (v >>> s₀) s₀) := by
      unfold ResourceState.DecTileRefChecked
      rw [if_neg (hsafe s₀ (Nat.le_refl s₀) (by omega))]
    rw [hchk, Option.some_bind]
    apply ih
    intro ℓ h1 h2
    rw [decTileRef_rc]
    have hne : ¬(u >>> ℓ = u >>> s₀ ∧ v >>> ℓ = v >>> s₀ ∧ ℓ = s₀) := by
      rintro ⟨_, _, h3⟩
      omega
    rw [if_neg hne, Nat.sub_zero]
    exact hsafe ℓ (by omega) (by omega)

/-- the checked SetMinMip succeeds when the added cells are below the wrap
value and the dropped cells are nonzero in the starting state. -/
theorem setMinMipChecked_eq (st : ResourceState) (c u v d : Nat)
    (hadd : ∀ ℓ, d ≤ ℓ → ℓ < c →
      st.tms.GetRefCount (u >>> ℓ) (v >>> ℓ) ℓ ≠ InvalidIndex)
    (hdec : ∀ ℓ, c ≤ ℓ → ℓ < d →
      st.tms.GetRefCount (u >>> ℓ) (v >>> ℓ) ℓ ≠ 0) :
    setMinMipChecked st c u v d = some (st.SetMinMip c u v d) := by
  unfold setMinMipChecked ResourceState.SetMinMip
  rw [addRefLoopChecked_eq u v d c st hadd, Option.some_bind]
  apply decRefLoopChecked_eq
  intro ℓ h1 h2
  rw [addRefLoop_rc]
  have hne : ¬(u >>> ℓ = u >>> ℓ ∧ v >>> ℓ = v >>> ℓ ∧ d ≤ ℓ ∧ ℓ < c) := by
    rintro ⟨_, _, h3, h4⟩
    omega
  rw [if_neg hne, Nat.add_zero]
  exact hdec ℓ (by omega) (by omega)

/-- one checked feedback step succeeds under the invariant and grid bound,
and computes the unchecked step. -/
theorem feedbackStepChecked_eq (resolved : Nat → Nat → Nat)
    (acc : ResourceState × Bool) (p : Nat × Nat)
    (hu : p.1 < acc.1.tileReferencesWidth)
    (hv : p.2 < acc.1.tileReferencesHeight)
    (hdim : acc.1.tileReferencesWidth * acc.1.tileReferencesHeight <
      InvalidIndex)
    (hinv : RefInv acc.1) (hbnd : RefsBounded acc.1) :
    feedbackStepChecked resolved (some acc) p =
      some (feedbackStep resolved acc p) := by
  obtain ⟨st, changed⟩ := acc
  dsimp only at hu hv hdim hinv hbnd
  simp only [feedbackStepChecked, Option.some_bind]
  rw [setMinMipChecked_eq]
  · rfl
  · intro ℓ h1 h2
    have hℓ : ℓ < st.tms.numSubresources :=
      Nat.lt_of_lt_of_le h2 (hbnd p.1 p.2)
    rw [hinv (p.1 >>> ℓ) (p.2 >>> ℓ) ℓ hℓ]
    have := coveringCount_le st.tileReferencesWidth st.tileReferencesHeight
      st.tileReferences (p.1 >>> ℓ) (p.2 >>> ℓ) ℓ
    omega
  · intro ℓ h1 h2
    have hℓ : ℓ < st.tms.numSubresources := by
      have := Nat.min_le_right (resolved p.1 p.2) st.tms.numSubresources
      omega
    rw [hinv (p.1 >>> ℓ) (p.2 >>> ℓ) ℓ hℓ]
    have := coveringCount_pos st.tileReferencesWidth st.tileReferencesHeight
      st.tileReferences p.1 p.2 ℓ hu hv h1
    omega

/-- the whole checked feedback fold succeeds under the invariant and grid
bound, and computes the unchecked fold. -/
theorem feedbackFoldChecked_eq (resolved : Nat → Nat → Nat) :
    ∀ (L : List (Nat × Nat)) (acc : ResourceState × Bool),
      (∀ p ∈ L, p.1 < acc.1.tileReferencesWidth ∧
        p.2 < acc.1.tileReferencesHeight) →
      acc.1.tileReferencesWidth * acc.1.tileReferencesHeight < InvalidIndex →
      RefInv acc.1 → RefsBounded acc.1 →
      L.foldl (feedbackStepChecked resolved) (some acc) =
        some (L.foldl (feedbackStep resolved) acc) := by
  intro L
  induction L with
  | nil =>
    intro acc _ _ _ _
    rfl
  | cons p rest ih =>
    intro acc hmem hdim hinv hbnd
    have hp := hmem p (List.mem_cons_self p rest)
    rw [List.foldl_cons, List.foldl_cons,
      feedbackStepChecked_eq resolved acc p hp.1 hp.2 hdim hinv hbnd]
    have hstep := refInv_feedback_step resolved acc p hp.1 hp.2 hinv hbnd
    obtain ⟨gM, gW, gH⟩ := feedbackStep_fields resolved acc p
    apply ih
    · intro q hq
      rw [gW, gH]
      exact hmem q (List.mem_cons_of_mem p hq)
    · rw [gW, gH]
      exact hdim
    · exact hstep.1
    · exact hstep.2

/-- C10: the refcount invariant — refcount(x, y, s) equals the number of
finest-mip regions (u, v) with u >> s = x, v >> s = y and
tile_references[u][v] ≤ s — holds initially (all references at the mip
count, all refcounts zero) and is maintained together with the reference
bound by the feedback reference-update loop of ProcessFeedback. Under the
invariant the checked loop — in which DecTileRef asserts its refcount is
nonzero before the u32 decrement and AddTileRef asserts it is below the
wrap value before the u32 increment — succeeds and computes exactly the
unchecked loop, and every refcount is bounded by the number of regions
covering the tile, W·H. -/
theorem C10_refcount_invariant (st : ResourceState) (resolved : Nat → Nat → Nat)
    (changed : Bool) :
    ((∀ u v, st.tileReferences u v = st.tms.numSubresources) →
      (∀ x y s, st.tms.GetRefCount x y s = 0) →
      RefInv st ∧ RefsBounded st) ∧
    (RefInv st → RefsBounded st →
      RefInv (feedbackLoop resolved st changed).1 ∧
      RefsBounded (feedbackLoop resolved st changed).1) ∧
    (RefInv st → RefsBounded st →
      st.tileReferencesWidth * st.tileReferencesHeight < InvalidIndex →
      feedbackLoopChecked resolved st changed =
        some (feedbackLoop resolved st changed)) ∧
    (RefInv st → ∀ x y s, s < st.tms.numSubresources →
      st.tms.GetRefCount x y s ≤
        st.tileReferencesWidth * st.tileReferencesHeight) := by
  refine ⟨?_, ?_, ?_, ?_⟩
  · intro hrefs hzero
    constructor
    · intro x y s hs
      rw [hzero]
      unfold coveringCount
      symm
      rw [Finset.card_eq_zero, Finset.filter_eq_empty_iff]
      intro p _
      rintro ⟨_, _, h3⟩
      rw [hrefs p.1 p.2] at h3
      omega
    · intro u' v'
      exact Nat.le_of_eq (hrefs u' v')
  · intro hinv hbnd
    unfold feedbackLoop
    have h := refInv_feedback_fold resolved
      (regionList st.tileReferencesWidth st.tileReferencesHeight) (st, changed)
      (fun p hp => regionList_mem _ _ p hp) hinv hbnd
    exact ⟨h.1, h.2.1⟩
  · intro hinv hbnd hdim
    unfold feedbackLoopChecked feedbackLoop
    exact feedbackFoldChecked_eq resolved _ (st, changed)
      (fun p hp => regionList_mem _ _ p hp) hdim hinv hbnd
  · intro hinv x y s hs
    rw [hinv x y s hs]
    exact coveringCount_le _ _ _ x y s

/-- witness for C10 at scenario S1's concrete state: the invariant holds for
the fresh state and the checked feedback loop succeeds there. -/
theorem C10_refcount_invariant_witness :
    feedbackLoopChecked (resolvedS1 0) stS1 false =
      some (feedbackLoop (resolvedS1 0) stS1 false) := by
  have h := C10_refcount_invariant stS1 (resolvedS1 0) false
  have hinit := h.1 (fun _ _ => rfl) (fun _ _ _ => rfl)
  exact h.2.2.1 hinit.1 hinit.2 (by decide)

/-- AddTileRef never touches residency or heap indices. -/
theorem addTileRef_resheap (st : ResourceState) (a b ℓ : Nat) :
    (st.AddTileRef a b ℓ).tms.resident = st.tms.resident ∧
    (st.AddTileRef a b ℓ).tms.heapIndices = st.tms.heapIndices := by
  unfold ResourceState.AddTileRef
  by_cases h : st.tms.GetRefCount a b ℓ = 0 <;>
    simp [h, TileMappingState.SetRefCount]

/-- DecTileRef never touches residency or heap indices. -/
theorem decTileRef_resheap (st : ResourceState) (a b ℓ : Nat) :
    (st.DecTileRef a b ℓ).tms.resident = st.tms.resident ∧
    (st.DecTileRef a b ℓ).tms.heapIndices = st.tms.heapIndices := by
  unfold ResourceState.DecTileRef
  by_cases h : st.tms.GetRefCount a b ℓ = 1 <;>
    simp [h, TileMappingState.SetRefCount]

/-- the add loop never touches residency or heap indices. -/
theorem addRefLoop_resheap (u v d : Nat) :
    ∀ (c : Nat) (st : ResourceState),
      (ResourceState.addRefLoop u v d st c).tms.resident = st.tms.resident ∧
      (ResourceState.addRefLoop u v d st c).tms.heapIndices = st.tms.heapIndices := by
  intro c
  induction c with
  | zero =>
    intro st
    exact ⟨rfl, rfl⟩
  | succ c ih =>
    intro st
    simp only [ResourceState.addRefLoop]
    by_cases h : d ≤ c
    · rw [if_pos h]
      obtain ⟨h1, h2⟩ := ih (st.AddTileRef (u >>> c) (v >>> c) c)
      obtain ⟨g1, g2⟩ := addTileRef_resheap st (u >>> c) (v >>> c) c
      exact ⟨h1.trans g1, h2.trans g2⟩
    · rw [if_neg h]
      exact ⟨rfl, rfl⟩

/-- the dec loop never touches residency or heap indices. -/
theorem decRefLoop_resheap (u v : Nat) :
    ∀ (n s₀ : Nat) (st : ResourceState),
      (ResourceState.decRefLoop u v st s₀ n).tms.resident = st.tms.resident ∧
      (ResourceState.decRefLoop u v st s₀ n).tms.heapIndices =
        st.tms.heapIndices := by
  intro n
  induction n with
  | zero =>
    intro s₀ st
    exact ⟨rfl, rfl⟩
  | succ n ih =>
    intro s₀ st
    simp only [ResourceState.decRefLoop]
    obtain ⟨h1, h2⟩ := ih (s₀ + 1) (st.DecTileRef (u >>> s₀) (v >>> s₀) s₀)
    obtain ⟨g1, g2⟩ := decTileRef_resheap st (u >>> s₀) (v >>> s₀) s₀
    exact ⟨h1.trans g1, h2.trans g2⟩

/-- SetMinMip never touches residency or heap indices. -/
theorem setMinMip_resheap (st : ResourceState) (c u v d : Nat) :
    (st.SetMinMip c u v d).tms.resident = st.tms.resident ∧
    (st.SetMinMip c u v d).tms.heapIndices = st.tms.heapIndices := by
  unfold ResourceState.SetMinMip
  obtain ⟨h1, h2⟩ :=
    decRefLoop_resheap u v (d - min c d) (min c d)
      (ResourceState.addRefLoop u v d st c)
  obtain ⟨g1, g2⟩ := addRefLoop_resheap u v d c st
  exact ⟨h1.trans g1, h2.trans g2⟩

/-- the feedback reference-update loop never touches residency or heap
indices. -/
theorem feedbackLoop_resheap (resolved : Nat → Nat → Nat) :
    ∀ (L : List (Nat × Nat)) (acc : ResourceState × Bool),
      (L.foldl (feedbackStep resolved) acc).1.tms.resident =
        acc.1.tms.resident ∧
      (L.foldl (feedbackStep resolved) acc).1.tms.heapIndices =
        acc.1.tms.heapIndices := by
  intro L
  induction L with
  | nil =>
    intro acc
    exact ⟨rfl, rfl⟩
  | cons p rest ih =>
    intro acc
    rw [List.foldl_cons]
    obtain ⟨h1, h2⟩ := ih (feedbackStep resolved acc p)
    obtain ⟨g1, g2⟩ := setMinMip_resheap acc.1 (acc.1.tileReferences p.1 p.2)
      p.1 p.2 (min (resolved p.1 p.2) acc.1.tms.numSubresources)
    exact ⟨h1.trans g1, h2.trans g2⟩

/-- ProcessFeedback, on either path, never touches residency or heap
indices: the reference loop only moves refcounts and the pending queues, the
zero-refcount path only moves refcounts and the ring. -/
theorem processFeedback_resheap (st : ResourceState) (fence : Nat)
    (resolved : Nat → Nat → Nat → Nat) :
    (st.ProcessFeedback fence resolved).tms.resident = st.tms.resident ∧
    (st.ProcessFeedback fence resolved).tms.heapIndices =
      st.tms.heapIndices := by
  by_cases hset : st.setZeroRefCounts = true
  · unfold ResourceState.ProcessFeedback
    rw [hset]
    simp only [if_true]
    by_cases hz : st.refCountsZero = true
    · rw [if_pos hz]
      exact ⟨rfl, rfl⟩
    · rw [if_neg hz]
      set st4 : ResourceState :=
        { st with
          setZeroRefCounts := false,
          refCountsZero := true,
          queuedFeedback := st.queuedFeedback.map fun (f : Bool × Nat) => (false, f.2),
          tileReferences := fun _ _ => st.tms.numSubresources } with hst4
      have hu := zeroFold_untouched (allTileCoords st.tms) (st4, false)
      constructor
      · have h1 : ((allTileCoords st.tms).foldl zeroStep (st4, false)).1.tms.resident =
            st4.tms.resident := hu.2.2.2.1
        split <;> simp [ResourceState.SetResidencyChanged, h1, hst4]
      · have h1 : ((allTileCoords st.tms).foldl zeroStep
            (st4, false)).1.tms.heapIndices = st4.tms.heapIndices := hu.2.2.2.2.1
        split <;> simp [ResourceState.SetResidencyChanged, h1, hst4]
  · have hset' : st.setZeroRefCounts = false := by
      cases h : st.setZeroRefCounts
      · rfl
      · exact absurd h hset
    by_cases hpick : (pickFeedbackGo fence 0 0 0 st.queuedFeedback).1 = 0
    · unfold ResourceState.ProcessFeedback
      rw [hset']
      simp only [Bool.false_eq_true, if_false]
      rw [if_pos hpick]
      exact ⟨rfl, rfl⟩
    · obtain ⟨r, hr, _, htms, _⟩ :=
        processFeedback_feedback_shape st fence resolved hset' hpick
      rw [htms, hr]
      exact feedbackLoop_resheap (resolved ((pickFeedbackGo fence 0 0 0
        st.queuedFeedback).1 - 1)) _ _

/-- the eviction notification never touches heap indices. -/
theorem notifyEvicted_heap (L : List Coord) :
    ∀ (st : ResourceState),
      (notifyEvicted st L).tms.heapIndices = st.tms.heapIndices := by
  induction L with
  | nil =>
    intro st
    rfl
  | cons a L ih =>
    intro st
    unfold notifyEvicted
    rw [List.foldl_cons]
    exact (ih _).trans rfl

/-- cells outside the notified coords keep their residency
(eviction side). -/
theorem notifyEvicted_res_other (L : List Coord) :
    ∀ (st : ResourceState) (x y s : Nat),
      (∀ c ∈ L, ¬(x = c.x ∧ y = c.y ∧ s = c.s)) →
      (notifyEvicted st L).tms.resident x y s = st.tms.resident x y s := by
  induction L with
  | nil =>
    intro st x y s _
    rfl
  | cons a L ih =>
    intro st x y s hne
    unfold notifyEvicted
    rw [List.foldl_cons]
    refine (ih _ x y s fun c hc => hne c (List.mem_cons_of_mem a hc)).trans ?_
    simp only [TileMappingState.SetNotResident]
    exact upd3_other _ _ _ _ _ _ _ _ (hne a (List.mem_cons_self a L))

/-- every notified evict-coord ends NotResident. -/
theorem notifyEvicted_res_mem (L : List Coord) :
    ∀ (st : ResourceState) (c : Coord), c ∈ L →
      (notifyEvicted st L).tms.resident c.x c.y c.s = Residency.NotResident := by
  induction L with
  | nil =>
    intro st c hc
    simp at hc
  | cons a L ih =>
    intro st c hc
    by_cases hcL : c ∈ L
    · unfold notifyEvicted
      rw [List.foldl_cons]
      exact ih _ c hcL
    · have hca : c = a := by
        rcases List.mem_cons.mp hc with h | h
        · exact h
        · exact absurd h hcL
      subst hca
      unfold notifyEvicted
      rw [List.foldl_cons]
      have hother : ∀ c' ∈ L, ¬(c.x = c'.x ∧ c.y = c'.y ∧ c.s = c'.s) := by
        intro c' hc' he
        exact hcL ((coord_ext c c' he) ▸ hc')
      refine (notifyEvicted_res_other L _ c.x c.y c.s hother).trans ?_
      simp only [TileMappingState.SetNotResident]
      exact upd3_self ..

/-- the copy-complete notification never touches heap indices. -/
theorem notifyCopyComplete_heap (L : List Coord) :
    ∀ (st : ResourceState),
      (notifyCopyComplete st L).tms.heapIndices = st.tms.heapIndices := by
  induction L with
  | nil =>
    intro st
    rfl
  | cons a L ih =>
    intro st
    unfold notifyCopyComplete
    rw [List.foldl_cons]
    exact (ih _).trans rfl

/-- cells outside the notified coords keep their residency (load side). -/
theorem notifyCopyComplete_res_other (L : List Coord) :
    ∀ (st : ResourceState) (x y s : Nat),
      (∀ c ∈ L, ¬(x = c.x ∧ y = c.y ∧ s = c.s)) →
      (notifyCopyComplete st L).tms.resident x y s = st.tms.resident x y s := by
  induction L with
  | nil =>
    intro st x y s _
    rfl
  | cons a L ih =>
    intro st x y s hne
    unfold notifyCopyComplete
    rw [List.foldl_cons]
    refine (ih _ x y s fun c hc => hne c (List.mem_cons_of_mem a hc)).trans ?_
    simp only [TileMappingState.SetResident]
    exact upd3_other _ _ _ _ _ _ _ _ (hne a (List.mem_cons_self a L))

/-- every notified load-coord ends Resident. -/
theorem notifyCopyComplete_res_mem (L : List Coord) :
    ∀ (st : ResourceState) (c : Coord), c ∈ L →
      (notifyCopyComplete st L).tms.resident c.x c.y c.s = Residency.Resident := by
  induction L with
  | nil =>
    intro st c hc
    simp at hc
  | cons a L ih =>
    intro st c hc
    by_cases hcL : c ∈ L
    · unfold notifyCopyComplete
      rw [List.foldl_cons]
      exact ih _ c hcL
    · have hca : c = a := by
        rcases List.mem_cons.mp hc with h | h
        · exact h
        · exact absurd h hcL
      subst hca
      unfold notifyCopyComplete
      rw [List.foldl_cons]
      have hother : ∀ c' ∈ L, ¬(c.x = c'.x ∧ c.y = c'.y ∧ c.s = c'.s) := by
        intro c' hc' he
        exact hcL ((coord_ext c c' he) ▸ hc')
      refine (notifyCopyComplete_res_other L _ c.x c.y c.s hother).trans ?_
      simp only [TileMappingState.SetResident]
      exact upd3_self ..

/-- the eviction loop keeps the sentinel out of the free pool, because only
pages of Resident tiles — valid by hypothesis — are freed. -/
theorem evictLoop_no_invalid (L : List Coord) :
    ∀ (tms : TileMappingState) (heap : HeapAllocator) (ul : UpdateList)
      (delayed : List Coord),
      (∀ x y s, tms.resident x y s = Residency.Resident →
        tms.heapIndices x y s ≠ InvalidIndex) →
      InvalidIndex ∉ heap.freelist →
      InvalidIndex ∉ (evictLoop tms heap ul delayed L).heap.freelist := by
  induction L with
  | nil =>
    intro tms heap ul delayed _ h
    exact h
  | cons c₀ L ih =>
    intro tms heap ul delayed hvr hfl
    simp only [evictLoop]
    by_cases h1 : tms.GetResidency c₀ = Residency.Resident
    · rw [if_pos h1]
      apply ih
      · intro x y s hres
        by_cases hc : x = c₀.x ∧ y = c₀.y ∧ s = c₀.s
        · exfalso
          have hr : ((tms.SetEvicting c₀).SetHeapIndex c₀ InvalidIndex).resident
              x y s = Residency.Evicting := by
            simp only [TileMappingState.SetHeapIndex, TileMappingState.SetEvicting]
            rw [hc.1, hc.2.1, hc.2.2]
            exact upd3_self ..
          rw [hr] at hres
          cases hres
        · have hr : ((tms.SetEvicting c₀).SetHeapIndex c₀ InvalidIndex).resident
              x y s = tms.resident x y s := by
            simp only [TileMappingState.SetHeapIndex, TileMappingState.SetEvicting]
            exact upd3_other _ _ _ _ _ _ _ _ hc
          have hh : ((tms.SetEvicting c₀).SetHeapIndex c₀ InvalidIndex).heapIndices
              x y s = tms.heapIndices x y s := by
            simp only [TileMappingState.SetHeapIndex, TileMappingState.SetEvicting]
            exact upd3_other _ _ _ _ _ _ _ _ hc
          rw [hr] at hres
          rw [hh]
          exact hvr x y s hres
      · intro hmem
        simp only [HeapAllocator.Free] at hmem
        rcases List.mem_cons.mp hmem with h | h
        · exact hvr c₀.x c₀.y c₀.s h1 h.symm
        · exact hfl h
    · rw [if_neg h1]
      by_cases h2 : tms.GetResidency c₀ = Residency.Loading
      · rw [if_pos h2]
        exact ih tms heap ul (delayed ++ [c₀]) hvr hfl
      · rw [if_neg h2]
        exact ih tms heap ul delayed hvr hfl

/-- per-cell dichotomy of the load loop when the budget is covered by the
free pool: a cell is untouched, or goes NotResident → Loading with a valid
fresh heap index. -/
theorem loadLoop_hii (L : List Coord) :
    ∀ (tms : TileMappingState) (heap : HeapAllocator) (ul : UpdateList)
      (skipped : List Coord) (maxCopies : Nat) (c : Coord),
      1 ≤ maxCopies → maxCopies ≤ heap.GetNumFree →
      InvalidIndex ∉ heap.freelist →
      ((loadLoop tms heap ul skipped maxCopies L).tms.resident c.x c.y c.s =
          tms.resident c.x c.y c.s ∧
        (loadLoop tms heap ul skipped maxCopies L).tms.heapIndices c.x c.y c.s =
          tms.heapIndices c.x c.y c.s) ∨
      (tms.resident c.x c.y c.s = Residency.NotResident ∧
        (loadLoop tms heap ul skipped maxCopies L).tms.resident c.x c.y c.s =
          Residency.Loading ∧
        (loadLoop tms heap ul skipped maxCopies L).tms.heapIndices c.x c.y c.s ≠
          InvalidIndex ∧
        (loadLoop tms heap ul skipped maxCopies L).tms.heapIndices c.x c.y c.s ∈
          heap.freelist) := by
  induction L with
  | nil =>
    intro tms heap ul skipped maxCopies c _ _ _
    exact Or.inl ⟨rfl, rfl⟩
  | cons c₀ L ih =>
    intro tms heap ul skipped maxCopies c hm hmf hinv
    simp only [loadLoop]
    by_cases h1 : tms.GetResidency c₀ = Residency.NotResident
    · rw [if_pos h1]
      obtain ⟨i, rest, hfl⟩ : ∃ i rest, heap.freelist = i :: rest := by
        cases hh : heap.freelist with
        | nil =>
          exfalso
          rw [HeapAllocator.GetNumFree, hh] at hmf
          simp at hmf
          omega
        | cons i rest => exact ⟨i, rest, rfl⟩
      have heq : heap = ⟨i :: rest⟩ := by
        cases heap
        simp_all
      subst heq
      have halloc : HeapAllocator.Allocate ⟨i :: rest⟩ = (i, ⟨rest⟩) := rfl
      rw [halloc]
      set tms' := (tms.SetLoading c₀).SetHeapIndex c₀ i with htms'
      have hiv : i ≠ InvalidIndex := by
        intro h
        exact hinv (h ▸ List.mem_cons_self ..)
      have hm2 : maxCopies ≤ rest.length + 1 := by
        simpa [HeapAllocator.GetNumFree] using hmf
      by_cases hc : c.x = c₀.x ∧ c.y = c₀.y ∧ c.s = c₀.s
      · have h0 : tms.resident c.x c.y c.s = Residency.NotResident := by
          rw [hc.1, hc.2.1, hc.2.2]
          exact h1
        have hL : tms'.resident c.x c.y c.s = Residency.Loading := by
          simp only [htms', TileMappingState.SetHeapIndex,
            TileMappingState.SetLoading]
          rw [hc.1, hc.2.1, hc.2.2]
          exact upd3_self ..
        have hHI : tms'.heapIndices c.x c.y c.s = i := by
          simp only [htms', TileMappingState.SetHeapIndex,
            TileMappingState.SetLoading]
          rw [hc.1, hc.2.1, hc.2.2]
          exact upd3_self ..
        by_cases hb : maxCopies = 1
        · rw [if_pos hb]
          refine Or.inr ⟨h0, hL, ?_, ?_⟩
          · rw [hHI]
            exact hiv
          · rw [hHI]
            exact List.mem_cons_self ..
        · rw [if_neg hb]
          rcases ih tms' ⟨rest⟩ (ul.AddUpdate c₀ i) skipped (maxCopies - 1) c
              (by omega) (by simpa [HeapAllocator.GetNumFree] using
                Nat.le_of_succ_le_succ (by omega : maxCopies - 1 + 1 ≤ rest.length + 1))
              (fun h => hinv (List.mem_cons_of_mem _ h)) with
            ⟨ha, hb2⟩ | ⟨ha, _, _⟩
          · refine Or.inr ⟨h0, ha.trans hL, ?_, ?_⟩
            · rw [hb2, hHI]
              exact hiv
            · rw [hb2, hHI]
              exact List.mem_cons_self ..
          · rw [hL] at ha
            cases ha
      · have hu : tms'.resident c.x c.y c.s = tms.resident c.x c.y c.s := by
          simp only [htms', TileMappingState.SetHeapIndex,
            TileMappingState.SetLoading]
          exact upd3_other _ _ _ _ _ _ _ _ hc
        have hhu : tms'.heapIndices c.x c.y c.s = tms.heapIndices c.x c.y c.s := by
          simp only [htms', TileMappingState.SetHeapIndex,
            TileMappingState.SetLoading]
          exact upd3_other _ _ _ _ _ _ _ _ hc
        by_cases hb : maxCopies = 1
        · rw [if_pos hb]
          exact Or.inl ⟨hu, hhu⟩
        · rw [if_neg hb]
          rcases ih tms' ⟨rest⟩ (ul.AddUpdate c₀ i) skipped (maxCopies - 1) c
              (by omega) (by simpa [HeapAllocator.GetNumFree] using
                Nat.le_of_succ_le_succ (by omega : maxCopies - 1 + 1 ≤ rest.length + 1))
              (fun h => hinv (List.mem_cons_of_mem _ h)) with
            ⟨ha, hb2⟩ | ⟨ha, hb2, hc2, hd2⟩
          · exact Or.inl ⟨ha.trans hu, hb2.trans hhu⟩
          · rw [hu] at ha
            exact Or.inr ⟨ha, hb2, hc2, List.mem_cons_of_mem _ hd2⟩
    · rw [if_neg h1]
      by_cases h2 : tms.GetResidency c₀ = Residency.Evicting
      · rw [if_pos h2]
        exact ih tms heap ul (skipped ++ [c₀]) maxCopies c hm hmf hinv
      · rw [if_neg h2]
        exact ih tms heap ul skipped maxCopies c hm hmf hinv

/-- the eviction loop keeps the evict-coords duplicate-free and all
Evicting: a coord can only be recorded from the Resident state, and is
Evicting from then on. -/
theorem evictLoop_evict_inv (L : List Coord) :
    ∀ (tms : TileMappingState) (heap : HeapAllocator) (ul : UpdateList)
      (delayed : List Coord),
      ul.evictCoords.Nodup →
      (∀ c ∈ ul.evictCoords, tms.GetResidency c = Residency.Evicting) →
      (evictLoop tms heap ul delayed L).ul.evictCoords.Nodup ∧
      ∀ c ∈ (evictLoop tms heap ul delayed L).ul.evictCoords,
        (evictLoop tms heap ul delayed L).tms.GetResidency c =
          Residency.Evicting := by
  induction L with
  | nil =>
    intro tms heap ul delayed hnd hev
    exact ⟨hnd, hev⟩
  | cons c₀ L ih =>
    intro tms heap ul delayed hnd hev
    simp only [evictLoop]
    by_cases h1 : tms.GetResidency c₀ = Residency.Resident
    · rw [if_pos h1]
      apply ih
      · show (ul.evictCoords ++ [c₀]).Nodup
        refine List.Nodup.append hnd (List.nodup_singleton c₀) ?_
        intro a ha ha'
        have ha2 : a = c₀ := List.mem_singleton.mp ha'
        have h3 := hev a ha
        rw [ha2, h1] at h3
        cases h3
      · intro c hc
        have hcmem : c ∈ ul.evictCoords ∨ c = c₀ := by
          rcases List.mem_append.mp hc with h | h
          · exact Or.inl h
          · exact Or.inr (List.mem_singleton.mp h)
        rcases hcmem with h | rfl
        · have h3 := hev c h
          have hne : ¬(c.x = c₀.x ∧ c.y = c₀.y ∧ c.s = c₀.s) := by
            intro he
            rw [coord_ext c c₀ he, h1] at h3
            cases h3
          show ((tms.SetEvicting c₀).SetHeapIndex c₀ InvalidIndex).GetResidency c =
            Residency.Evicting
          simp only [TileMappingState.GetResidency, TileMappingState.SetHeapIndex,
            TileMappingState.SetEvicting]
          rw [upd3_other _ _ _ _ _ _ _ _ hne]
          exact h3
        · show ((tms.SetEvicting c).SetHeapIndex c InvalidIndex).GetResidency c =
            Residency.Evicting
          simp only [TileMappingState.GetResidency, TileMappingState.SetHeapIndex,
            TileMappingState.SetEvicting]
          exact upd3_self ..
    · rw [if_neg h1]
      by_cases h2 : tms.GetResidency c₀ = Residency.Loading
      · rw [if_pos h2]
        exact ih tms heap ul (delayed ++ [c₀]) hnd hev
      · rw [if_neg h2]
        exact ih tms heap ul delayed hnd hev

/-- the load loop keeps the load-coords duplicate-free and all Loading: a
coord can only be recorded from the NotResident state, and is Loading from
then on. -/
theorem loadLoop_coords_inv (L : List Coord) :
    ∀ (tms : TileMappingState) (heap : HeapAllocator) (ul : UpdateList)
      (skipped : List Coord) (maxCopies : Nat),
      ul.coords.Nodup →
      (∀ c ∈ ul.coords, tms.GetResidency c = Residency.Loading) →
      (loadLoop tms heap ul skipped maxCopies L).ul.coords.Nodup ∧
      ∀ c ∈ (loadLoop tms heap ul skipped maxCopies L).ul.coords,
        (loadLoop tms heap ul skipped maxCopies L).tms.GetResidency c =
          Residency.Loading := by
  induction L with
  | nil =>
    intro tms heap ul skipped maxCopies hnd hld
    exact ⟨hnd, hld⟩
  | cons c₀ L ih =>
    intro tms heap ul skipped maxCopies hnd hld
    simp only [loadLoop]
    by_cases h1 : tms.GetResidency c₀ = Residency.NotResident
    · rw [if_pos h1]
      set tms' := (tms.SetLoading c₀).SetHeapIndex c₀ (heap.Allocate).1 with htms'
      have hnd' : (ul.AddUpdate c₀ (heap.Allocate).1).coords.Nodup := by
        show (ul.coords ++ [c₀]).Nodup
        refine List.Nodup.append hnd (List.nodup_singleton c₀) ?_
        intro a ha ha'
        have ha2 : a = c₀ := List.mem_singleton.mp ha'
        have h3 := hld a ha
        rw [ha2, h1] at h3
        cases h3
      have hld' : ∀ c ∈ (ul.AddUpdate c₀ (heap.Allocate).1).coords,
          tms'.GetResidency c = Residency.Loading := by
        intro c hc
        have hcmem : c ∈ ul.coords ∨ c = c₀ := by
          rcases List.mem_append.mp hc with h | h
          · exact Or.inl h
          · exact Or.inr (List.mem_singleton.mp h)
        rcases hcmem with h | rfl
        · have h3 := hld c h
          have hne : ¬(c.x = c₀.x ∧ c.y = c₀.y ∧ c.s = c₀.s) := by
            intro he
            rw [coord_ext c c₀ he, h1] at h3
            cases h3
          simp only [htms', TileMappingState.GetResidency,
            TileMappingState.SetHeapIndex, TileMappingState.SetLoading]
          rw [upd3_other _ _ _ _ _ _ _ _ hne]
          exact h3
        · simp only [htms', TileMappingState.GetResidency,
            TileMappingState.SetHeapIndex, TileMappingState.SetLoading]
          exact upd3_self ..
      by_cases hb : maxCopies = 1
      · rw [if_pos hb]
        exact ⟨hnd', hld'⟩
      · rw [if_neg hb]
        exact ih tms' (heap.Allocate).2 (ul.AddUpdate c₀ (heap.Allocate).1)
          skipped (maxCopies - 1) hnd' hld'
    · rw [if_neg h1]
      by_cases h2 : tms.GetResidency c₀ = Residency.Evicting
      · rw [if_pos h2]
        exact ih tms heap ul (skipped ++ [c₀]) maxCopies hnd hld
      · rw [if_neg h2]
        exact ih tms heap ul skipped maxCopies hnd hld

/-- the load loop appends exactly coords it found NotResident. -/
theorem loadLoop_added (L : List Coord) :
    ∀ (tms : TileMappingState) (heap : HeapAllocator) (ul : UpdateList)
      (skipped : List Coord) (maxCopies : Nat),
      ∃ added, (loadLoop tms heap ul skipped maxCopies L).ul.coords =
          ul.coords ++ added ∧
        ∀ a ∈ added, a ∈ L ∧ tms.GetResidency a = Residency.NotResident := by
  induction L with
  | nil =>
    intro tms heap ul skipped maxCopies
    exact ⟨[], by simp [loadLoop], by simp⟩
  | cons c₀ L ih =>
    intro tms heap ul skipped maxCopies
    simp only [loadLoop]
    by_cases h1 : tms.GetResidency c₀ = Residency.NotResident
    · rw [if_pos h1]
      by_cases hb : maxCopies = 1
      · rw [if_pos hb]
        refine ⟨[c₀], by simp [UpdateList.AddUpdate], ?_⟩
        intro a ha
        have ha2 : a = c₀ := List.mem_singleton.mp ha
        subst ha2
        exact ⟨List.mem_cons_self .., h1⟩
      · rw [if_neg hb]
        set tms' := (tms.SetLoading c₀).SetHeapIndex c₀ (heap.Allocate).1 with htms'
        obtain ⟨added, hadd, hmem⟩ := ih tms' (heap.Allocate).2
          (ul.AddUpdate c₀ (heap.Allocate).1) skipped (maxCopies - 1)
        refine ⟨c₀ :: added, by simpa [UpdateList.AddUpdate] using hadd, ?_⟩
        intro a ha
        rcases List.mem_cons.mp ha with rfl | ha
        · exact ⟨List.mem_cons_self .., h1⟩
        · obtain ⟨haL, hares⟩ := hmem a ha
          refine ⟨List.mem_cons_of_mem _ haL, ?_⟩
          by_cases hc : a.x = c₀.x ∧ a.y = c₀.y ∧ a.s = c₀.s
          · exfalso
            have h3 : tms'.GetResidency a = Residency.Loading := by
              simp only [htms', TileMappingState.GetResidency,
                TileMappingState.SetHeapIndex, TileMappingState.SetLoading]
              rw [hc.1, hc.2.1, hc.2.2]
              exact upd3_self ..
            rw [hares] at h3
            cases h3
          · have h3 : tms'.GetResidency a = tms.GetResidency a := by
              simp only [htms', TileMappingState.GetResidency,
                TileMappingState.SetHeapIndex, TileMappingState.SetLoading]
              exact upd3_other _ _ _ _ _ _ _ _ hc
            rw [← h3]
            exact hares
    · rw [if_neg h1]
      by_cases h2 : tms.GetResidency c₀ = Residency.Evicting
      · rw [if_pos h2]
        obtain ⟨added, hadd, hmem⟩ := ih tms heap ul (skipped ++ [c₀]) maxCopies
        exact ⟨added, hadd,
          fun a ha => ⟨List.mem_cons_of_mem _ (hmem a ha).1, (hmem a ha).2⟩⟩
      · rw [if_neg h2]
        obtain ⟨added, hadd, hmem⟩ := ih tms heap ul skipped maxCopies
        exact ⟨added, hadd,
          fun a ha => ⟨List.mem_cons_of_mem _ (hmem a ha).1, (hmem a ha).2⟩⟩

/-- ProcessFeedback preserves the system invariant: residency and heap
indices are untouched, as are the heap and the in-flight lists. -/
theorem sysInv_processFeedback (st : SysState) (fence : Nat)
    (resolved : Nat → Nat → Nat → Nat) (hinv : SysInv st) :
    SysInv { st with rs := st.rs.ProcessFeedback fence resolved } := by
  obtain ⟨hhi, hifl, hheap, hdisj⟩ := hinv
  obtain ⟨hres, hhidx⟩ := processFeedback_resheap st.rs fence resolved
  refine ⟨?_, ?_, hheap, hdisj⟩
  · intro x y s
    show (st.rs.ProcessFeedback fence resolved).tms.heapIndices x y s ≠
        InvalidIndex ↔ _
    rw [hres, hhidx]
    exact hhi x y s
  · intro ul hul
    obtain ⟨h1, h2⟩ := hifl ul hul
    constructor
    · intro c hc
      show (st.rs.ProcessFeedback fence resolved).tms.resident c.x c.y c.s = _
      rw [hres]
      exact h1 c hc
    · intro c hc
      show (st.rs.ProcessFeedback fence resolved).tms.resident c.x c.y c.s = _
      rw [hres]
      exact h2 c hc

/-- the per-frame ring rotation preserves the system invariant (it only
moves the eviction-delay buckets). -/
theorem sysInv_nextFrame (st : SysState) (hinv : SysInv st) :
    SysInv { st with rs :=
      { st.rs with pendingEvictions := st.rs.pendingEvictions.NextFrame } } :=
  hinv

/-- the initial configuration satisfies the system invariant. -/
theorem sysInv_init (st : SysState) (h : InitSys st) : SysInv st := by
  obtain ⟨hres, hhi, hinfl, hheap⟩ := h
  refine ⟨?_, ?_, hheap, ?_⟩
  · intro x y s
    constructor
    · intro hne
      exact absurd (hhi x y s) hne
    · intro hor
      rcases hor with h | h <;>
        · rw [hres x y s] at h
          cases h
  · intro ul hul
    rw [hinfl] at hul
    simp at hul
  · show (st.inflight.flatMap fun u => u.coords ++ u.evictCoords).Nodup
    rw [hinfl]
    simp

/-- completing an in-flight UpdateList preserves the system invariant: its
load coords (Loading, valid page) become Resident keeping their page, its
evict coords (Evicting, cleared index) become NotResident, everything else
is untouched, and the list leaves the in-flight set. -/
theorem sysInv_complete (st : SysState) (ul : UpdateList)
    (hul : ul ∈ st.inflight) (hinv : SysInv st) :
    SysInv (completeUpdateList st ul) := by
  classical
  obtain ⟨hhi, hifl, hheap, hdisj⟩ := hinv
  obtain ⟨hulL, hulE⟩ := hifl ul hul
  obtain ⟨l₁, l₂, hnl₁, hsplit, herase⟩ := List.exists_erase_eq hul
  have hflat : ((l₁.flatMap fun u => u.coords ++ u.evictCoords) ++
      ((ul.coords ++ ul.evictCoords) ++
        l₂.flatMap fun u => u.coords ++ u.evictCoords)).Nodup := by
    have h0 : ((l₁ ++ ul :: l₂).flatMap
        fun u => u.coords ++ u.evictCoords).Nodup := by
      rw [← hsplit]
      exact hdisj
    rwa [List.flatMap_append, List.flatMap_cons] at h0
  have hsep : ∀ u ∈ l₁ ++ l₂, ∀ c ∈ u.coords ++ u.evictCoords,
      c ∉ ul.coords ++ ul.evictCoords := by
    intro u hu c hc hcul
    rcases List.mem_append.mp hu with hu1 | hu2
    · have hc1 : c ∈ l₁.flatMap fun u => u.coords ++ u.evictCoords :=
        List.mem_flatMap.mpr ⟨u, hu1, hc⟩
      exact (List.disjoint_of_nodup_append hflat) hc1
        (List.mem_append_left _ hcul)
    · have hc2 : c ∈ l₂.flatMap fun u => u.coords ++ u.evictCoords :=
        List.mem_flatMap.mpr ⟨u, hu2, hc⟩
      have hmid := (List.nodup_append.mp hflat).2.1
      exact (List.disjoint_of_nodup_append hmid) hcul hc2
  have hLE : ∀ c ∈ ul.coords, c ∉ ul.evictCoords := by
    intro c hc he
    have h1 := hulL c hc
    have h2 := hulE c he
    rw [h1] at h2
    cases h2
  set rs1 := notifyEvicted st.rs ul.evictCoords with hrs1
  have hheapidx : (notifyCopyComplete rs1 ul.coords).tms.heapIndices =
      st.rs.tms.heapIndices :=
    (notifyCopyComplete_heap ul.coords rs1).trans
      (notifyEvicted_heap ul.evictCoords st.rs)
  have hres_load : ∀ c ∈ ul.coords,
      (notifyCopyComplete rs1 ul.coords).tms.resident c.x c.y c.s =
        Residency.Resident := fun c hc =>
    notifyCopyComplete_res_mem ul.coords rs1 c hc
  have hres_evict : ∀ c ∈ ul.evictCoords,
      (notifyCopyComplete rs1 ul.coords).tms.resident c.x c.y c.s =
        Residency.NotResident := by
    intro c hc
    have hnc : ∀ c' ∈ ul.coords, ¬(c.x = c'.x ∧ c.y = c'.y ∧ c.s = c'.s) := by
      intro c' hc' he
      exact hLE c' hc' ((coord_ext c c' he) ▸ hc)
    rw [notifyCopyComplete_res_other ul.coords rs1 c.x c.y c.s hnc]
    exact notifyEvicted_res_mem ul.evictCoords st.rs c hc
  have hres_other : ∀ x y s,
      (∀ c' ∈ ul.coords, ¬(x = c'.x ∧ y = c'.y ∧ s = c'.s)) →
      (∀ c' ∈ ul.evictCoords, ¬(x = c'.x ∧ y = c'.y ∧ s = c'.s)) →
      (notifyCopyComplete rs1 ul.coords).tms.resident x y s =
        st.rs.tms.resident x y s := by
    intro x y s h1 h2
    rw [notifyCopyComplete_res_other ul.coords rs1 x y s h1]
    exact notifyEvicted_res_other ul.evictCoords st.rs x y s h2
  refine ⟨?_, ?_, hheap, ?_⟩
  · intro x y s
    show (notifyCopyComplete rs1 ul.coords).tms.heapIndices x y s ≠
        InvalidIndex ↔ _
    rw [hheapidx]
    by_cases hc1 : (⟨x, y, s⟩ : Coord) ∈ ul.coords
    · have h1 : (notifyCopyComplete rs1 ul.coords).tms.resident x y s =
          Residency.Resident := hres_load ⟨x, y, s⟩ hc1
      show _ ↔ ((notifyCopyComplete rs1 ul.coords).tms.resident x y s =
        Residency.Resident ∨
        (notifyCopyComplete rs1 ul.coords).tms.resident x y s =
          Residency.Loading)
      rw [h1]
      have hL : st.rs.tms.resident x y s = Residency.Loading :=
        hulL ⟨x, y, s⟩ hc1
      constructor
      · intro _
        exact Or.inl rfl
      · intro _
        exact (hhi x y s).mpr (Or.inr hL)
    · by_cases hc2 : (⟨x, y, s⟩ : Coord) ∈ ul.evictCoords
      · have h1 : (notifyCopyComplete rs1 ul.coords).tms.resident x y s =
            Residency.NotResident := hres_evict ⟨x, y, s⟩ hc2
        show _ ↔ ((notifyCopyComplete rs1 ul.coords).tms.resident x y s =
          Residency.Resident ∨
          (notifyCopyComplete rs1 ul.coords).tms.resident x y s =
            Residency.Loading)
        rw [h1]
        have hE : st.rs.tms.resident x y s = Residency.Evicting :=
          hulE ⟨x, y, s⟩ hc2
        have hInv : st.rs.tms.heapIndices x y s = InvalidIndex := by
          by_contra hne
          rcases (hhi x y s).mp hne with h | h <;>
            · rw [hE] at h
              cases h
        constructor
        · intro hne
          exact absurd hInv hne
        · intro hor
          rcases hor with h | h <;> cases h
      · have h1 : (notifyCopyComplete rs1 ul.coords).tms.resident x y s =
            st.rs.tms.resident x y s := by
          apply hres_other x y s
          · intro c' hc' he
            refine hc1 ?_
            rw [coord_ext ⟨x, y, s⟩ c' he]
            exact hc'
          · intro c' hc' he
            refine hc2 ?_
            rw [coord_ext ⟨x, y, s⟩ c' he]
            exact hc'
        show _ ↔ ((notifyCopyComplete rs1 ul.coords).tms.resident x y s =
          Residency.Resident ∨
          (notifyCopyComplete rs1 ul.coords).tms.resident x y s =
            Residency.Loading)
        rw [h1]
        exact hhi x y s
  · intro u hu
    have hu2 : u ∈ l₁ ++ l₂ := by
      rw [show (completeUpdateList st ul).inflight = st.inflight.erase ul
        from rfl, herase] at hu
      exact hu
    have huold : u ∈ st.inflight := by
      rw [hsplit]
      rcases List.mem_append.mp hu2 with h | h
      · exact List.mem_append_left _ h
      · exact List.mem_append_right _ (List.mem_cons_of_mem _ h)
    obtain ⟨h1, h2⟩ := hifl u huold
    have hkeep : ∀ c ∈ u.coords ++ u.evictCoords,
        (notifyCopyComplete rs1 ul.coords).tms.resident c.x c.y c.s =
          st.rs.tms.resident c.x c.y c.s := by
      intro c hc
      have hnsep := hsep u hu2 c hc
      have hnc : c ∉ ul.coords := fun h => hnsep (List.mem_append_left _ h)
      have hne : c ∉ ul.evictCoords := fun h => hnsep (List.mem_append_right _ h)
      apply hres_other
      · intro c' hc' he
        refine hnc ?_
        rw [coord_ext c c' he]
        exact hc'
      · intro c' hc' he
        refine hne ?_
        rw [coord_ext c c' he]
        exact hc'
    constructor
    · intro c hc
      show (notifyCopyComplete rs1 ul.coords).tms.resident c.x c.y c.s = _
      rw [hkeep c (List.mem_append_left _ hc)]
      exact h1 c hc
    · intro c hc
      show (notifyCopyComplete rs1 ul.coords).tms.resident c.x c.y c.s = _
      rw [hkeep c (List.mem_append_right _ hc)]
      exact h2 c hc
  · show ((st.inflight.erase ul).flatMap
      fun u => u.coords ++ u.evictCoords).Nodup
    rw [herase, List.flatMap_append]
    have hsub : List.Sublist
        ((l₁.flatMap fun u => u.coords ++ u.evictCoords) ++
          l₂.flatMap fun u => u.coords ++ u.evictCoords)
        ((l₁.flatMap fun u => u.coords ++ u.evictCoords) ++
          ((ul.coords ++ ul.evictCoords) ++
            l₂.flatMap fun u => u.coords ++ u.evictCoords)) :=
      List.Sublist.append_left (List.sublist_append_right _ _) _
    exact List.Nodup.sublist hsub hflat

/-- one QueueTiles iteration preserves the system invariant: evictions turn
Resident cells into Evicting with the index cleared and the page freed,
loads turn NotResident cells into Loading with a fresh valid page, the new
UpdateList records exactly those cells, and they are disjoint from all
in-flight work. -/
theorem sysInv_queueTiles (maxPerBatch : Nat) (hm : 1 ≤ maxPerBatch)
    (st : SysState) (hinv : SysInv st) :
    SysInv (queueTilesOnce maxPerBatch st) := by
  obtain ⟨hhi, hifl, hheap, hdisj⟩ := hinv
  set ready := st.rs.pendingEvictions.GetReadyToEvict with hready
  set r := (if ready.length ≠ 0 then
      QueuePendingTileEvictions st.rs.tms st.heap UpdateList.empty ready
    else EvictPass.mk st.rs.tms st.heap UpdateList.empty ready) with hrdef
  set l := (if st.rs.pendingTileLoads.length ≠ 0 ∧ r.heap.GetNumFree ≠ 0 then
      QueuePendingTileLoads maxPerBatch r.tms r.heap r.ul st.rs.pendingTileLoads
    else LoadPass.mk r.tms r.heap r.ul st.rs.pendingTileLoads) with hldef
  have hf : HeapIndexInv r.tms ∧ InvalidIndex ∉ r.heap.freelist ∧
      r.ul.coords = [] ∧
      (∀ c : Coord,
        (r.tms.resident c.x c.y c.s = st.rs.tms.resident c.x c.y c.s ∧
          r.tms.heapIndices c.x c.y c.s = st.rs.tms.heapIndices c.x c.y c.s) ∨
        (st.rs.tms.resident c.x c.y c.s = Residency.Resident ∧
          r.tms.resident c.x c.y c.s = Residency.Evicting ∧
          r.tms.heapIndices c.x c.y c.s = InvalidIndex)) ∧
      r.ul.evictCoords.Nodup ∧
      (∀ c ∈ r.ul.evictCoords,
        r.tms.resident c.x c.y c.s = Residency.Evicting) ∧
      (∀ a ∈ r.ul.evictCoords,
        st.rs.tms.resident a.x a.y a.s = Residency.Resident) := by
    by_cases h₁ : ready.length ≠ 0
    · rw [if_pos h₁] at hrdef
      rw [hrdef]
      unfold QueuePendingTileEvictions
      have hinner := evictLoop_evict_inv ready st.rs.tms st.heap UpdateList.empty
        [] List.nodup_nil (fun c hc => absurd hc (List.not_mem_nil c))
      refine ⟨?_, ?_, ?_, ?_, hinner.1, ?_, ?_⟩
      · intro x y s
        rcases evictLoop_cases ready st.rs.tms st.heap UpdateList.empty []
            ⟨x, y, s⟩ with ⟨ha, hb⟩ | ⟨ha, hb, hh⟩
        · have ha2 : (evictLoop st.rs.tms st.heap UpdateList.empty []
              ready).tms.resident x y s = st.rs.tms.resident x y s := ha
          have hb2 : (evictLoop st.rs.tms st.heap UpdateList.empty []
              ready).tms.heapIndices x y s = st.rs.tms.heapIndices x y s := hb
          rw [ha2, hb2]
          exact hhi x y s
        · have hb2 : (evictLoop st.rs.tms st.heap UpdateList.empty []
              ready).tms.resident x y s = Residency.Evicting := hb
          have hh2 : (evictLoop st.rs.tms st.heap UpdateList.empty []
              ready).tms.heapIndices x y s = InvalidIndex := hh
          rw [hb2, hh2]
          constructor
          · intro hne
            exact absurd rfl hne
          · intro hor
            rcases hor with h | h <;> cases h
      · apply evictLoop_no_invalid
        · intro x y s hres
          exact (hhi x y s).mpr (Or.inl hres)
        · exact hheap
      · exact (evictLoop_ul ready st.rs.tms st.heap UpdateList.empty []).1
      · intro c
        exact evictLoop_cases ready st.rs.tms st.heap UpdateList.empty [] c
      · intro c hc
        exact hinner.2 c hc
      · obtain ⟨_, _, added, hadd, hmem⟩ :=
          evictLoop_ul ready st.rs.tms st.heap UpdateList.empty []
        intro a ha
        rw [hadd] at ha
        have ha2 : a ∈ added := by
          rcases List.mem_append.mp ha with h | h
          · exact absurd h (List.not_mem_nil a)
          · exact h
        exact (hmem a ha2).2
    · rw [if_neg h₁] at hrdef
      rw [hrdef]
      exact ⟨hhi, hheap, rfl, fun c => Or.inl ⟨rfl, rfl⟩, List.nodup_nil,
        fun c hc => absurd hc (List.not_mem_nil c),
        fun a ha => absurd ha (List.not_mem_nil a)⟩
  have hg : HeapIndexInv l.tms ∧ InvalidIndex ∉ l.heap.freelist ∧
      (∀ c : Coord,
        (l.tms.resident c.x c.y c.s = r.tms.resident c.x c.y c.s ∧
          l.tms.heapIndices c.x c.y c.s = r.tms.heapIndices c.x c.y c.s) ∨
        (r.tms.resident c.x c.y c.s = Residency.NotResident ∧
          l.tms.resident c.x c.y c.s = Residency.Loading ∧
          l.tms.heapIndices c.x c.y c.s ≠ InvalidIndex)) ∧
      l.ul.evictCoords = r.ul.evictCoords ∧
      l.ul.coords.Nodup ∧
      (∀ c ∈ l.ul.coords, l.tms.resident c.x c.y c.s = Residency.Loading) ∧
      (∀ a ∈ l.ul.coords,
        r.tms.resident a.x a.y a.s = Residency.NotResident) := by
    by_cases h₂ : st.rs.pendingTileLoads.length ≠ 0 ∧ r.heap.GetNumFree ≠ 0
    · rw [if_pos h₂] at hldef
      rw [hldef]
      unfold QueuePendingTileLoads
      have hmc1 : 1 ≤ min (min st.rs.pendingTileLoads.length maxPerBatch)
          r.heap.GetNumFree := by
        have h1 := h₂.1
        have h2 := h₂.2
        omega
      have hmc2 : min (min st.rs.pendingTileLoads.length maxPerBatch)
          r.heap.GetNumFree ≤ r.heap.GetNumFree := Nat.min_le_right _ _
      have hinner := loadLoop_coords_inv st.rs.pendingTileLoads r.tms r.heap
        r.ul [] (min (min st.rs.pendingTileLoads.length maxPerBatch)
          r.heap.GetNumFree)
        (by rw [hf.2.2.1]; exact List.nodup_nil)
        (by intro c hc; rw [hf.2.2.1] at hc; exact absurd hc (List.not_mem_nil c))
      refine ⟨?_, ?_, ?_, ?_, hinner.1, ?_, ?_⟩
      · intro x y s
        rcases loadLoop_hii st.rs.pendingTileLoads r.tms r.heap r.ul []
            (min (min st.rs.pendingTileLoads.length maxPerBatch)
              r.heap.GetNumFree) ⟨x, y, s⟩ hmc1 hmc2 hf.2.1 with
          ⟨ha, hb⟩ | ⟨ha, hb, hh, _⟩
        · have ha2 : (loadLoop r.tms r.heap r.ul []
              (min (min st.rs.pendingTileLoads.length maxPerBatch)
                r.heap.GetNumFree) st.rs.pendingTileLoads).tms.resident x y s =
              r.tms.resident x y s := ha
          have hb2 : (loadLoop r.tms r.heap r.ul []
              (min (min st.rs.pendingTileLoads.length maxPerBatch)
                r.heap.GetNumFree) st.rs.pendingTileLoads).tms.heapIndices x y s =
              r.tms.heapIndices x y s := hb
          rw [ha2, hb2]
          exact hf.1 x y s
        · have hb2 : (loadLoop r.tms r.heap r.ul []
              (min (min st.rs.pendingTileLoads.length maxPerBatch)
                r.heap.GetNumFree) st.rs.pendingTileLoads).tms.resident x y s =
              Residency.Loading := hb
          have hh2 : (loadLoop r.tms r.heap r.ul []
              (min (min st.rs.pendingTileLoads.length maxPerBatch)
                r.heap.GetNumFree) st.rs.pendingTileLoads).tms.heapIndices x y s ≠
              InvalidIndex := hh
          rw [hb2]
          constructor
          · intro _
            exact Or.inr rfl
          · intro _
            exact hh2
      · intro hmem
        exact hf.2.1 (loadLoop_freelist_sub st.rs.pendingTileLoads r.tms r.heap
          r.ul [] _ InvalidIndex hmem)
      · intro c
        rcases loadLoop_hii st.rs.pendingTileLoads r.tms r.heap r.ul []
            (min (min st.rs.pendingTileLoads.length maxPerBatch)
              r.heap.GetNumFree) c hmc1 hmc2 hf.2.1 with
          ⟨ha, hb⟩ | ⟨ha, hb, hh, _⟩
        · exact Or.inl ⟨ha, hb⟩
        · exact Or.inr ⟨ha, hb, hh⟩
      · exact (loadLoop_ul st.rs.pendingTileLoads r.tms r.heap r.ul [] _).1
      · intro c hc
        exact hinner.2 c hc
      · obtain ⟨added, hadd, hmem⟩ :=
          loadLoop_added st.rs.pendingTileLoads r.tms r.heap r.ul [] _
        intro a ha
        rw [hadd, hf.2.2.1] at ha
        have ha2 : a ∈ added := by simpa using ha
        exact (hmem a ha2).2
    · rw [if_neg h₂] at hldef
      rw [hldef]
      refine ⟨hf.1, hf.2.1, fun c => Or.inl ⟨rfl, rfl⟩, rfl, ?_, ?_, ?_⟩
      · show r.ul.coords.Nodup
        rw [hf.2.2.1]
        exact List.nodup_nil
      · intro c hc
        have hc2 : c ∈ r.ul.coords := hc
        rw [hf.2.2.1] at hc2
        exact absurd hc2 (List.not_mem_nil c)
      · intro a ha
        have ha2 : a ∈ r.ul.coords := ha
        rw [hf.2.2.1] at ha2
        exact absurd ha2 (List.not_mem_nil a)
  have htrans : ∀ c : Coord,
      (st.rs.tms.resident c.x c.y c.s = Residency.Loading ∨
        st.rs.tms.resident c.x c.y c.s = Residency.Evicting) →
      l.tms.resident c.x c.y c.s = st.rs.tms.resident c.x c.y c.s := by
    intro c hres
    rcases hf.2.2.2.1 c with ⟨ha, _⟩ | ⟨ha, hb, _⟩
    · rcases hg.2.2.1 c with ⟨hc, _⟩ | ⟨hc, _, _⟩
      · rw [hc, ha]
      · exfalso
        rw [ha] at hc
        rcases hres with h | h <;>
          · rw [h] at hc
            cases hc
    · exfalso
      rcases hres with h | h <;>
        · rw [ha] at h
          cases h
  have hevfinal : ∀ c ∈ l.ul.evictCoords,
      l.tms.resident c.x c.y c.s = Residency.Evicting := by
    intro c hc
    rw [hg.2.2.2.1] at hc
    have h1 : r.tms.resident c.x c.y c.s = Residency.Evicting :=
      hf.2.2.2.2.2.1 c hc
    rcases hg.2.2.1 c with ⟨ha, _⟩ | ⟨ha, _, _⟩
    · rw [ha]
      exact h1
    · rw [ha] at h1
      cases h1
  set rs2 := { st.rs with
              tms := l.tms,
              pendingTileLoads := l.pending,
              pendingEvictions := st.rs.pendingEvictions.SetReadyToEvict r.ready }
    with hrs2
  have hrs2tms : rs2.tms = l.tms := by
    rw [hrs2]
  have hgoal : queueTilesOnce maxPerBatch st =
      if l.ul.coords.length ≠ 0 ∨ l.ul.evictCoords.length ≠ 0 then
        SysState.mk rs2 l.heap (st.inflight ++ [l.ul])
      else SysState.mk rs2 l.heap st.inflight := by
    rw [hrs2, hldef, hrdef, hready]
    rfl
  rw [hgoal]
  by_cases h₃ : l.ul.coords.length ≠ 0 ∨ l.ul.evictCoords.length ≠ 0
  · rw [if_pos h₃]
    refine ⟨?_, ?_, hg.2.1, ?_⟩
    · show HeapIndexInv rs2.tms
      rw [hrs2tms]
      exact hg.1
    · intro u hu
      have hu2 : u ∈ st.inflight ∨ u = l.ul := by
        rcases List.mem_append.mp hu with h | h
        · exact Or.inl h
        · exact Or.inr (List.mem_singleton.mp h)
      rcases hu2 with hu3 | rfl
      · obtain ⟨h1, h2⟩ := hifl u hu3
        constructor
        · intro c hc
          show rs2.tms.resident c.x c.y c.s = _
          rw [hrs2tms, htrans c (Or.inl (h1 c hc))]
          exact h1 c hc
        · intro c hc
          show rs2.tms.resident c.x c.y c.s = _
          rw [hrs2tms, htrans c (Or.inr (h2 c hc))]
          exact h2 c hc
      · constructor
        · intro c hc
          show rs2.tms.resident c.x c.y c.s = _
          rw [hrs2tms]
          exact hg.2.2.2.2.2.1 c hc
        · intro c hc
          show rs2.tms.resident c.x c.y c.s = _
          rw [hrs2tms]
          exact hevfinal c hc
    · show ((st.inflight ++ [l.ul]).flatMap
        fun u => u.coords ++ u.evictCoords).Nodup
      rw [List.flatMap_append, List.flatMap_cons, List.flatMap_nil,
        List.append_nil, List.nodup_append]
      refine ⟨hdisj, ?_, ?_⟩
      · rw [List.nodup_append]
        refine ⟨hg.2.2.2.2.1, ?_, ?_⟩
        · rw [hg.2.2.2.1]
          exact hf.2.2.2.2.1
        · intro a ha ha2
          have h1 : l.tms.resident a.x a.y a.s = Residency.Loading :=
            hg.2.2.2.2.2.1 a ha
          have h2 := hevfinal a ha2
          rw [h1] at h2
          cases h2
      · intro a ha ha2
        obtain ⟨u, hu, hau⟩ := List.mem_flatMap.mp ha
        have hres_a : st.rs.tms.resident a.x a.y a.s = Residency.Loading ∨
            st.rs.tms.resident a.x a.y a.s = Residency.Evicting := by
          obtain ⟨h1, h2⟩ := hifl u hu
          rcases List.mem_append.mp hau with h | h
          · exact Or.inl (h1 a h)
          · exact Or.inr (h2 a h)
        rcases List.mem_append.mp ha2 with h | h
        · have hnr : r.tms.resident a.x a.y a.s = Residency.NotResident :=
            hg.2.2.2.2.2.2 a h
          rcases hf.2.2.2.1 a with ⟨ha1, _⟩ | ⟨_, hb1, _⟩
          · rw [ha1] at hnr
            rcases hres_a with h' | h' <;>
              · rw [h'] at hnr
                cases hnr
          · rw [hb1] at hnr
            cases hnr
        · rw [hg.2.2.2.1] at h
          have hrs : st.rs.tms.resident a.x a.y a.s = Residency.Resident :=
            hf.2.2.2.2.2.2 a h
          rcases hres_a with h' | h' <;>
            · rw [hrs] at h'
              cases h'
  · rw [if_neg h₃]
    refine ⟨?_, ?_, hg.2.1, hdisj⟩
    · show HeapIndexInv rs2.tms
      rw [hrs2tms]
      exact hg.1
    · intro u hu
      obtain ⟨h1, h2⟩ := hifl u hu
      constructor
      · intro c hc
        show rs2.tms.resident c.x c.y c.s = _
        rw [hrs2tms, htrans c (Or.inl (h1 c hc))]
        exact h1 c hc
      · intro c hc
        show rs2.tms.resident c.x c.y c.s = _
        rw [hrs2tms, htrans c (Or.inr (h2 c hc))]
        exact h2 c hc

/-- the system invariant is inductive over the step relation. -/
theorem sysInv_step (maxPerBatch : Nat) (hm : 1 ≤ maxPerBatch)
    (s1 s2 : SysState) (h : Step maxPerBatch s1 s2) (hinv : SysInv s1) :
    SysInv s2 := by
  cases h with
  | processFeedback fence resolved =>
    exact sysInv_processFeedback s1 fence resolved hinv
  | queueTiles =>
    exact sysInv_queueTiles maxPerBatch hm s1 hinv
  | complete ul hul =>
    exact sysInv_complete s1 ul hul hinv
  | nextFrame =>
    exact sysInv_nextFrame s1 hinv

/-- every reachable system state satisfies the invariant. -/
theorem sysInv_reachable (maxPerBatch : Nat) (hm : 1 ≤ maxPerBatch)
    (st : SysState) (h : ReachableSys maxPerBatch st) : SysInv st := by
  obtain ⟨st₀, hinit, hsteps⟩ := h
  induction hsteps with
  | refl => exact sysInv_init st₀ hinit
  | tail _ hstep ih => exact sysInv_step maxPerBatch hm _ _ hstep ih

/-- a concrete initial system configuration: the cold scenario-S1 resource,
a three-page pool, nothing in flight. -/
def sys0 : SysState := ⟨stS1, ⟨[0, 1, 2]⟩, []⟩

/-- C2: in every state of the engine reachable from an initial
configuration, a tile's heap index differs from the INVALID sentinel exactly
when its residency is Resident or Loading.  QueuePendingTileEvictions
changes a cell exactly when it was Resident: it becomes Evicting with its
index set to INVALID (and, when it came from the ready bucket, its old page
freed back to the pool and the coord recorded in the UpdateList).
QueuePendingTileLoads changes a cell exactly when it was NotResident: it
becomes Loading with a fresh valid heap index taken from the pool. -/
theorem C2_heap_index_invariant (maxPerBatch : Nat) (hm : 1 ≤ maxPerBatch) :
    (∀ st : SysState, ReachableSys maxPerBatch st →
      ∀ x y s, st.rs.tms.heapIndices x y s ≠ InvalidIndex ↔
        (st.rs.tms.resident x y s = Residency.Resident ∨
          st.rs.tms.resident x y s = Residency.Loading)) ∧
    (∀ (tms : TileMappingState) (heap : HeapAllocator) (ul : UpdateList)
      (ready : List Coord) (c : Coord),
      ((QueuePendingTileEvictions tms heap ul ready).tms.resident c.x c.y c.s =
          tms.resident c.x c.y c.s ∧
        (QueuePendingTileEvictions tms heap ul ready).tms.heapIndices
            c.x c.y c.s = tms.heapIndices c.x c.y c.s) ∨
      (tms.resident c.x c.y c.s = Residency.Resident ∧
        (QueuePendingTileEvictions tms heap ul ready).tms.resident c.x c.y c.s =
          Residency.Evicting ∧
        (QueuePendingTileEvictions tms heap ul ready).tms.heapIndices
            c.x c.y c.s = InvalidIndex)) ∧
    (∀ (tms : TileMappingState) (heap : HeapAllocator) (ul : UpdateList)
      (ready : List Coord) (c : Coord), c ∈ ready →
      tms.GetResidency c = Residency.Resident →
      (QueuePendingTileEvictions tms heap ul ready).tms.GetResidency c =
        Residency.Evicting ∧
      (QueuePendingTileEvictions tms heap ul ready).tms.GetHeapIndex c =
        InvalidIndex ∧
      c ∈ (QueuePendingTileEvictions tms heap ul ready).ul.evictCoords ∧
      tms.GetHeapIndex c ∈
        (QueuePendingTileEvictions tms heap ul ready).heap.freelist) ∧
    (∀ (tms : TileMappingState) (heap : HeapAllocator) (ul : UpdateList)
      (pending : List Coord) (c : Coord),
      pending.length ≠ 0 → heap.GetNumFree ≠ 0 → InvalidIndex ∉ heap.freelist →
      ((QueuePendingTileLoads maxPerBatch tms heap ul pending).tms.resident
            c.x c.y c.s = tms.resident c.x c.y c.s ∧
        (QueuePendingTileLoads maxPerBatch tms heap ul pending).tms.heapIndices
            c.x c.y c.s = tms.heapIndices c.x c.y c.s) ∨
      (tms.resident c.x c.y c.s = Residency.NotResident ∧
        (QueuePendingTileLoads maxPerBatch tms heap ul pending).tms.resident
            c.x c.y c.s = Residency.Loading ∧
        (QueuePendingTileLoads maxPerBatch tms heap ul pending).tms.heapIndices
            c.x c.y c.s ≠ InvalidIndex ∧
        (QueuePendingTileLoads maxPerBatch tms heap ul pending).tms.heapIndices
            c.x c.y c.s ∈ heap.freelist)) := by
  refine ⟨?_, ?_, ?_, ?_⟩
  · intro st h x y s
    exact (sysInv_reachable maxPerBatch hm st h).1 x y s
  · intro tms heap ul ready c
    exact evictLoop_cases ready tms heap ul [] c
  · intro tms heap ul ready c hc hres
    exact evictLoop_resident ready tms heap ul [] c hc hres
  · intro tms heap ul pending c hp hfree hinv
    unfold QueuePendingTileLoads
    apply loadLoop_hii
    · have h1 : 1 ≤ pending.length := Nat.pos_of_ne_zero hp
      have h2 : 1 ≤ heap.GetNumFree := Nat.pos_of_ne_zero hfree
      omega
    · exact Nat.min_le_right _ _
    · exact hinv

/-- witness for C2 at the concrete initial configuration sys0 (reachable in
zero steps) and tile (0, 0, 0), with batch size 64 (the config file's
streamingBatchSize). -/
theorem C2_heap_index_invariant_witness :
    (1 ≤ 64) ∧
    (sys0.rs.tms.heapIndices 0 0 0 ≠ InvalidIndex ↔
      (sys0.rs.tms.resident 0 0 0 = Residency.Resident ∨
        sys0.rs.tms.resident 0 0 0 = Residency.Loading)) :=
  ⟨by decide, (C2_heap_index_invariant 64 (by decide)).1 sys0
    ⟨sys0, ⟨fun _ _ _ => rfl, fun _ _ _ => rfl, rfl, by decide⟩,
      Relation.ReflTransGen.refl⟩ 0 0 0⟩

/-- witness for C9's amended theorem at the concrete state tmsC9. -/
theorem C9_get_min_resident_mip_amended_witness :
    1 ≤ tmsC9.numSubresources ∧
    ((tmsC9.GetMinResidentMip = tmsC9.numSubresources - 1 ↔
      ∀ y < tmsC9.height (tmsC9.numSubresources - 1),
        ∀ x < tmsC9.width (tmsC9.numSubresources - 1),
          tmsC9.GetResident x y (tmsC9.numSubresources - 1) = true) ∧
    (tmsC9.GetMinResidentMip = tmsC9.numSubresources - 1 ∨
      tmsC9.GetMinResidentMip = tmsC9.numSubresources)) :=
  ⟨by decide, C9_get_min_resident_mip_amended tmsC9 (by decide)⟩

end SFS
